import Mathlib

/-!
# Dense square GEMM kernels: a shallow embedding of `gemm-test-blocking.c` and `gemm-test.c`

Conventions of the embedding.

* A C array (`REAL *`) is a total map `Nat → α` from offsets to elements; the
  three arrays `A`, `B`, `C` of a kernel are separate maps (the drivers allocate
  them separately).
* Separate maps describe the C program as long as every access stays inside the
  `N * N` elements of its allocation.  An access outside of it is undefined
  behaviour in C: what it touches depends on the layout of the heap, which is
  not modelled.  The model of a driver iteration therefore records whether all
  its accesses are in bounds (`IterTrace.defined`); when they are not, the
  arrays of the model say nothing about the C program from that point on.
* A C `int` index is an unbounded natural number.  The kernels are modelled
  for `n ≥ 0`; signed overflow of `n * n` is outside the model.
* A C `for` loop is `forLoop`: a test, a stride and a body, run under a fuel
  bound that the loop lemmas show to be sufficient.
* Every array access of a kernel is appended to an access log carried next to
  the output array, so that the offsets a kernel touches can be stated.
* The element type `α` is arbitrary; the kernels only use `0`, `+` and `*`.
-/

namespace Gemm

/-- The arrays a driver allocates. -/
inductive Arr where
  | A
  | B
  | C
  | C_unopt
  deriving DecidableEq, Repr

/-- One array access: a read or a write of an offset of an array. -/
inductive Access where
  | rd (a : Arr) (off : Nat)
  | wr (a : Arr) (off : Nat)
  deriving DecidableEq, Repr

/-- The offset of an access. -/
def Access.off : Access → Nat
  | .rd _ o => o
  | .wr _ o => o

/-- The array of an access. -/
def Access.arr : Access → Arr
  | .rd a _ => a
  | .wr a _ => a

/-- The C loop `for (; cond i; i += step) body`, entered with index `i` and state `s`.
It returns the index at which the loop was left and the final state. -/
def forLoop {σ : Type} (fuel : Nat) (cond : Nat → Bool) (step : Nat) (body : Nat → σ → σ)
    (i : Nat) (s : σ) : Nat × σ :=
  match fuel with
  | 0 => (i, s)
  | fuel + 1 => if cond i then forLoop fuel cond step body (i + step) (body i s) else (i, s)

/-- The array store `M[o] = v`. -/
def write {α : Type} (M : Nat → α) (o : Nat) (v : α) : Nat → α :=
  fun q => if q = o then v else M q

/-- The output array of a kernel together with the log of the accesses made so far. -/
structure Run (α : Type) where
  C : Nat → α
  log : List Access

/-- The statement `C[o] = v`. -/
def Run.assign {α : Type} (st : Run α) (o : Nat) (v : α) : Run α :=
  { C := write st.C o v, log := st.log ++ [Access.wr Arr.C o] }

/-- The statement `C[ci] += A[ai] * B[bi]`. -/
def Run.addMul {α : Type} [Add α] [Mul α] (st : Run α) (A B : Nat → α) (ci ai bi : Nat) : Run α :=
  { C := write st.C ci (st.C ci + A ai * B bi),
    log := st.log ++ [Access.rd Arr.C ci, Access.rd Arr.A ai, Access.rd Arr.B bi, Access.wr Arr.C ci] }

/-- The statement `C[ci] += A[ai] * bkj` with `bkj` a local scalar. -/
def Run.addMulS {α : Type} [Add α] [Mul α] (st : Run α) (A : Nat → α) (bkj : α) (ci ai : Nat) :
    Run α :=
  { C := write st.C ci (st.C ci + A ai * bkj),
    log := st.log ++ [Access.rd Arr.C ci, Access.rd Arr.A ai, Access.wr Arr.C ci] }

/-- Record one more access in the log. -/
def Run.note {α : Type} (st : Run α) (a : Access) : Run α :=
  { C := st.C, log := st.log ++ [a] }

/-- The left fold `((c0 + A[i,0]*B[0,j]) + A[i,1]*B[1,j]) + ...` with `k` increasing over `[0,n)`. -/
def dotFrom {α : Type} [Add α] [Mul α] (A B : Nat → α) (n i j : Nat) (c0 : α) : α :=
  (List.range n).foldl (fun acc k => acc + A (i + k * n) * B (k + j * n)) c0

/-- The exact inner product `Σ_{k<n} A[i + k*n] * B[k + j*n]` of the contract. -/
def dot {α : Type} [AddCommMonoid α] [Mul α] (A B : Nat → α) (n i j : Nat) : α :=
  ∑ k in Finset.range n, A (i + k * n) * B (k + j * n)


/-- A 256-bit register of four double-precision lanes. -/
def Vec4 (α : Type) : Type := Fin 4 → α

/-- Aligned vector load `_mm256_load_pd` of the four elements at offsets `o .. o+3`. -/
def mm256_load_pd {α : Type} (M : Nat → α) (o : Nat) : Vec4 α := fun l => M (o + l.val)

/-- Unaligned vector load `_mm256_loadu_pd`; alignment is not part of the model. -/
def mm256_loadu_pd {α : Type} (M : Nat → α) (o : Nat) : Vec4 α := fun l => M (o + l.val)

/-- Broadcast `_mm256_broadcast_sd` of the scalar at offset `o` to the four lanes. -/
def mm256_broadcast_sd {α : Type} (M : Nat → α) (o : Nat) : Vec4 α := fun _ => M o

/-- Lane-wise addition `_mm256_add_pd`. -/
def mm256_add_pd {α : Type} [Add α] (u v : Vec4 α) : Vec4 α := fun l => u l + v l

/-- Lane-wise multiplication `_mm256_mul_pd`. -/
def mm256_mul_pd {α : Type} [Mul α] (u v : Vec4 α) : Vec4 α := fun l => u l * v l

/-- Aligned vector store `_mm256_store_pd` of the four lanes to offsets `o .. o+3`. -/
def mm256_store_pd {α : Type} (M : Nat → α) (o : Nat) (v : Vec4 α) : Nat → α :=
  write (write (write (write M o (v 0)) (o + 1) (v 1)) (o + 2) (v 2)) (o + 3) (v 3)

/-- Unaligned vector store `_mm256_storeu_pd`. -/
def mm256_storeu_pd {α : Type} (M : Nat → α) (o : Nat) (v : Vec4 α) : Nat → α :=
  write (write (write (write M o (v 0)) (o + 1) (v 1)) (o + 2) (v 2)) (o + 3) (v 3)

/-- The four accesses of a vector load (`w = false`) or store (`w = true`) at `o .. o+3`. -/
def vecAccess (w : Bool) (a : Arr) (o : Nat) : List Access :=
  if w then [Access.wr a o, Access.wr a (o + 1), Access.wr a (o + 2), Access.wr a (o + 3)]
  else [Access.rd a o, Access.rd a (o + 1), Access.rd a (o + 2), Access.rd a (o + 3)]

/-- The vector accumulator `c0` of the vectorised kernel with the access log. -/
structure VRun (α : Type) where
  c0 : Vec4 α
  log : List Access

/-- The scalar accumulator `cij` of a kernel with the access log. -/
structure SRun (α : Type) where
  cij : α
  log : List Access

/-- The C library generator: `srand` gives the state for a seed, `rand` a draw and the next state. -/
structure Rng (G : Type) where
  srand : Nat → G
  rand : G → Nat × G

/-- The three arrays `int_mat` fills, the generator state and the access log. -/
structure Init (α G : Type) where
  A : Nat → α
  B : Nat → α
  C : Nat → α
  g : G
  log : List Access

/-- What `check_mat` prints (the positions of its diagnostic lines) and reads. -/
structure Check where
  printed : List (Nat × Nat)
  log : List Access

/-- Floating-point division as far as finiteness goes: a zero divisor yields an infinity or a
NaN, which is `none`; any other divisor yields the quotient. -/
def fdiv (x y : Rat) : Option Rat := if y = 0 then none else some (x / y)

/-- The throughput both drivers print after a kernel,
`(float)N * N * N * 2 / t / 1000 / 1000 / 1000`, with `t` the elapsed time
`seconds() - seconds()`; there is no test on `t` before the division. -/
def gflops (N : Int) (t : Rat) : Option Rat :=
  (fdiv ((N : Rat) * N * N * 2) t).map (fun v => v / 1000 / 1000 / 1000)

/-- A location written inside a parallel loop: an element of `C`, a scalar variable shared by
all workers, or a worker's private copy of a scalar variable. -/
inductive Loc where
  | cell (o : Nat)
  | shared (v : String)
  | priv (worker : Nat) (v : String)
  deriving DecidableEq, Repr

/-- The data-sharing of a `#pragma omp parallel for` loop: the scalar variables of the enclosing
function that the loop body assigns (the loop variable `i` of the associated loop excepted, which
is private), and the variables named in the `private` clause.  A variable declared outside the
construct and not named in the clause is shared. -/
structure OmpFor where
  assigned : List String
  privates : List String

/-- The scalar locations a worker writes when it runs an iteration of the loop. -/
def OmpFor.scalarWrites (p : OmpFor) (worker : Nat) : List Loc :=
  p.assigned.map (fun v => if v ∈ p.privates then Loc.priv worker v else Loc.shared v)

/-- The locations worker `w` writes when it runs iteration `i` of the outer loop of `dgemm_OMP`:
row `i` of `C` and the scalars of the loop body. -/
def OmpFor.writes (p : OmpFor) (n w i : Nat) : List Loc :=
  (List.range n).map (fun j => Loc.cell (i + j * n)) ++ p.scalarWrites w

/-- The four arrays of a driver and the state of the C library generator. -/
structure Driver (α G : Type) where
  A : Nat → α
  B : Nat → α
  C : Nat → α
  C_unopt : Nat → α
  g : G

/-- The arguments of the calls of the `BLOCKING` section of one iteration of the driver loop:
`A`, `B` given to `dgemm_blocking`, and `C`, `C_unopt` given to `check_mat`. -/
structure CheckCall (α : Type) where
  blkA : Nat → α
  blkB : Nat → α
  checkC : Nat → α
  checkRef : Nat → α

/-- Whether every access of a log lies inside an allocation of `n * n` elements. -/
def inBounds (n : Nat) (log : List Access) : Bool := log.all (fun a => decide (a.off < n * n))

/-- The calls of one iteration of the driver loop: the `A`, `B` given to `dgemm_unopt`, the
calls of the `BLOCKING` section when it is compiled in, and whether every access made by
`int_mat` and the kernels called in the iteration stayed inside the `N * N` elements the driver
allocates for each array (the reads of `check_mat` are in bounds for every `N`).  When
`defined` is `false` the iteration has undefined behaviour in C (it reads or writes the heap
outside an allocation) and the arrays of the model do not describe it. -/
structure IterTrace (α : Type) where
  unoptA : Nat → α
  unoptB : Nat → α
  blocking : Option (CheckCall α)
  defined : Bool

/-- The messages a driver prints before it leaves early. -/
inductive Msg where
  | usage
  | multipleOf8
  | multipleOfBlock
  deriving DecidableEq, Repr

/-- What a run of `main` does: the exit status, the early-exit messages printed, whether the
arrays were allocated, and the calls of each iteration of the driver loop. -/
structure MainResult (α : Type) where
  status : Int
  messages : List Msg
  allocated : Bool
  iters : List (IterTrace α)

/-- The loop nest of a block multiply over a block of edge `w`, as folds over index ranges.
`do_block` is this nest at `w = BLOCKSIZE` (see `do_block_eq`). -/
def blockNest {α : Type} [Add α] [Mul α] (w n si sj sk : Nat) (A B : Nat → α) (st : Run α) :
    Run α :=
  (List.range' si w).foldl (fun C i => (List.range' sj w).foldl (fun C j =>
    (List.range' sk w).foldl (fun (C : Run α) k =>
      C.addMul A B (i + j * n) (i + k * n) (k + j * n)) C) C) st

/-- The loop-exchanged accumulation in the words of the contract of the unrolled kernels: zero
`C`, then for each `(j, k)` read `B[k + j*n]` once and update every row `i` of `[0, n)` exactly
once, in increasing order, by `C[i + j*n] += A[i + k*n] * bkj`. -/
def rowsOnce {α : Type} [Zero α] [Add α] [Mul α] (A B : Nat → α) (C : Run α) (n : Nat) : Run α :=
  (List.range n).foldl (fun C j => (List.range n).foldl (fun C k =>
    (List.range n).foldl (fun (C : Run α) i => C.addMulS A (B (k + j * n)) (i + j * n) (i + k * n))
      (C.note (Access.rd Arr.B (k + j * n)))) C)
    ((List.range (n * n)).foldl (fun (C : Run α) i => C.assign i 0) C)

/-- The loop nest of the block multiply of `gemm-test.c` (which keeps the cell in the local
`cij`) over a block of edge `w`, as folds over index ranges. -/
def blockNestS {α : Type} [Add α] [Mul α] (w n si sj sk : Nat) (A B : Nat → α) (st : Run α) :
    Run α :=
  (List.range' si w).foldl (fun C i => (List.range' sj w).foldl (fun (C : Run α) j =>
    ({ C := write C.C (i + j * n)
        ((List.range' sk w).foldl (fun (cij : SRun α) k =>
          ({ cij := cij.cij + A (i + k * n) * B (k + j * n),
             log := cij.log ++ [Access.rd Arr.A (i + k * n), Access.rd Arr.B (k + j * n)] } :
            SRun α))
          (⟨C.C (i + j * n), C.log ++ [Access.rd Arr.C (i + j * n)]⟩ : SRun α)).cij,
       log := ((List.range' sk w).foldl (fun (cij : SRun α) k =>
          ({ cij := cij.cij + A (i + k * n) * B (k + j * n),
             log := cij.log ++ [Access.rd Arr.A (i + k * n), Access.rd Arr.B (k + j * n)] } :
            SRun α))
          (⟨C.C (i + j * n), C.log ++ [Access.rd Arr.C (i + j * n)]⟩ : SRun α)).log ++
            [Access.wr Arr.C (i + j * n)] } : Run α)) C) st

/-- The accesses of one block multiply of `gemm-test-blocking.c` over a block of edge `w`. -/
def blockAccesses (w n si sj sk : Nat) : List Access :=
  (List.range' si w).flatMap (fun i => (List.range' sj w).flatMap (fun j =>
    (List.range' sk w).flatMap (fun k =>
      [Access.rd Arr.C (i + j * n), Access.rd Arr.A (i + k * n), Access.rd Arr.B (k + j * n),
        Access.wr Arr.C (i + j * n)])))

/-- The accesses of one block multiply of `gemm-test.c` over a block of edge `w`. -/
def blockAccessesS (w n si sj sk : Nat) : List Access :=
  (List.range' si w).flatMap (fun i => (List.range' sj w).flatMap (fun j =>
    ([Access.rd Arr.C (i + j * n)] ++ (List.range' sk w).flatMap (fun k =>
      [Access.rd Arr.A (i + k * n), Access.rd Arr.B (k + j * n)])) ++
        [Access.wr Arr.C (i + j * n)]))

/-- The body of the vectorised kernel for the four rows `i .. i+3` of column `j`. -/
def vecBody {α : Type} [Add α] [Mul α] (A B : Nat → α) (n i j : Nat) (C : Run α) : Run α :=
  { C := mm256_store_pd C.C (i + j * n)
      ((List.range n).foldl (fun (c0 : VRun α) k =>
        ({ c0 := mm256_add_pd c0.c0
            (mm256_mul_pd (mm256_load_pd A (i + k * n)) (mm256_broadcast_sd B (k + j * n))),
           log := c0.log ++ vecAccess false Arr.A (i + k * n) ++ [Access.rd Arr.B (k + j * n)] } :
          VRun α))
        (⟨mm256_load_pd C.C (i + j * n), C.log ++ vecAccess false Arr.C (i + j * n)⟩ :
          VRun α)).c0,
    log := ((List.range n).foldl (fun (c0 : VRun α) k =>
        ({ c0 := mm256_add_pd c0.c0
            (mm256_mul_pd (mm256_load_pd A (i + k * n)) (mm256_broadcast_sd B (k + j * n))),
           log := c0.log ++ vecAccess false Arr.A (i + k * n) ++ [Access.rd Arr.B (k + j * n)] } :
          VRun α))
        (⟨mm256_load_pd C.C (i + j * n), C.log ++ vecAccess false Arr.C (i + j * n)⟩ :
          VRun α)).log ++ vecAccess true Arr.C (i + j * n) }

/-- The generator state after `t` draws following `srand(1)`. -/
def drawState {G : Type} (R : Rng G) : Nat → G
  | 0 => R.srand 1
  | t + 1 => (R.rand (drawState R t)).2

/-- The `t`-th value (`t = 0, 1, ...`) that `rand` returns after `srand(1)`. -/
def draw {G : Type} (R : Rng G) (t : Nat) : Nat := (R.rand (drawState R t)).1

/-- The array `M` holds `val` on the offsets in `W` and agrees with `M0` elsewhere. -/
def Filled {α : Type} (M M0 val : Nat → α) (W : Nat → Prop) : Prop :=
  ∀ q, (W q → M q = val q) ∧ (¬ W q → M q = M0 q)

/-- The value `int_mat` stores in `A[i + j*N]`: draw number `2*(i*N + j)` over `10000 + i + j`. -/
def cellA {α G : Type} [NatCast α] [Div α] (R : Rng G) (N i j : Nat) : α :=
  ((draw R (2 * (i * N + j)) : Nat) : α) / ((10000 + i + j : Nat) : α)

/-- The value `int_mat` stores in `B[i + j*N]`: draw number `2*(i*N + j) + 1` over
`10000 + i + j`. -/
def cellB {α G : Type} [NatCast α] [Div α] (R : Rng G) (N i j : Nat) : α :=
  ((draw R (2 * (i * N + j) + 1) : Nat) : α) / ((10000 + i + j : Nat) : α)

/-- A sample generator: a linear congruential `rand` whose state is the last value drawn. -/
def exRng : Rng Nat :=
  { srand := fun seed => seed,
    rand := fun s => ((1103515245 * s + 12345) % 2147483648, (1103515245 * s + 12345) % 2147483648) }

/-- A sample array over the rationals. -/
def exQ (c : Rat) : Nat → Rat := fun o => c + (o : Rat)

/-- A sample driver state over the rationals. -/
def exDriver : Driver Rat Nat :=
  { A := exQ 1, B := exQ 2, C := exQ 3, C_unopt := exQ 4, g := 7 }

/-- The (i,j,k) accumulation in the words of the contract of the k-unrolled kernel: zero `C`,
then for each cell `(i, j)` add each term `A[i + k*n] * B[k + j*n]`, `k` in `[0, n)`, exactly
once, in increasing order of `k`. -/
def termsOnce {α : Type} [Zero α] [Add α] [Mul α] (A B : Nat → α) (C : Run α) (n : Nat) : Run α :=
  (List.range n).foldl (fun C i => (List.range n).foldl (fun C j =>
    (List.range n).foldl (fun (C : Run α) k =>
      C.addMul A B (i + j * n) (i + k * n) (k + j * n)) C) C)
    ((List.range (n * n)).foldl (fun (C : Run α) i => C.assign i 0) C)

/-- An access allowed to iteration `i` of the outer loop of `dgemm_OMP`: a read of `A` or of `B`,
or a read or a write of `C` at an offset `i + j*n`, `j < n`, of row `i`. -/
def RowAccess (n i : Nat) : Access → Prop
  | .wr r o => r = Arr.C ∧ ∃ j, j < n ∧ o = i + j * n
  | .rd r o => r = Arr.A ∨ r = Arr.B ∨ (r = Arr.C ∧ ∃ j, j < n ∧ o = i + j * n)

/-- The integers as a bare semiring: the element type at which statements are instantiated. -/
def Elt : Type := Int

instance instSemiringElt : Semiring Elt := inferInstanceAs (Semiring Int)

/-- A sample left operand, used to instantiate statements at concrete inputs. -/
def exA : Nat → Elt := fun o => ((o : Int) + 1 : Int)

/-- A sample right operand. -/
def exB : Nat → Elt := fun o => (2 * (o : Int) - 3 : Int)

/-- A sample run state: the constant array `c` with an empty access log. -/
def exC (c : Int) : Run Elt := ⟨fun _ => c, []⟩

/-- The constant array `1` over the integers, an input on which kernels are evaluated. -/
def ones : Nat → Int := fun _ => 1

/-- The run state whose array holds `5` everywhere, with an empty access log. -/
def fives : Run Int := ⟨fun _ => 5, []⟩

/-- The run state whose array is zero everywhere, with an empty access log. -/
def zeros : Run Int := ⟨fun _ => 0, []⟩

end Gemm

/-! ## Kernels of `gemm-test-blocking.c` -/

namespace GemmTestBlocking

open Gemm

/-- BLOCKSIZE of the file. -/
abbrev BLOCKSIZE : Nat := 32

/-- Kernel `dgemm_unopt` (lines 30-40). -/
def dgemm_unopt {α : Type} [Zero α] [Add α] [Mul α] (A B : Nat → α) (C : Run α) (n : Nat) : Run α :=
  (forLoop n (fun i => decide (i < n)) 1 (fun i C =>
    (forLoop n (fun j => decide (j < n)) 1 (fun j C =>
      (forLoop n (fun k => decide (k < n)) 1 (fun k C =>
        C.addMul A B (i + j * n) (i + k * n) (k + j * n)) 0 (C.assign (i + j * n) 0)).2) 0 C).2) 0 C).2

/-- Kernel `dgemm_jki` (lines 43-52): zero `C`, then accumulate in (j,k,i) order. -/
def dgemm_jki {α : Type} [Zero α] [Add α] [Mul α] (A B : Nat → α) (C : Run α) (n : Nat) : Run α :=
  let C := (forLoop (n * n) (fun i => decide (i < n * n)) 1 (fun i C => C.assign i 0) 0 C).2
  (forLoop n (fun j => decide (j < n)) 1 (fun j C =>
    (forLoop n (fun k => decide (k < n)) 1 (fun k C =>
      (forLoop n (fun i => decide (i < n)) 1 (fun i C =>
        C.addMul A B (i + j * n) (i + k * n) (k + j * n)) 0 C).2) 0 C).2) 0 C).2


/-- Block multiply `do_block` (lines 55-66): the (i,j,k) accumulation over one cubic block. -/
def do_block {α : Type} [Add α] [Mul α] (n si sj sk : Nat) (A B : Nat → α) (C : Run α) : Run α :=
  (forLoop BLOCKSIZE (fun i => decide (i < si + BLOCKSIZE)) 1 (fun i C =>
    (forLoop BLOCKSIZE (fun j => decide (j < sj + BLOCKSIZE)) 1 (fun j C =>
      (forLoop BLOCKSIZE (fun k => decide (k < sk + BLOCKSIZE)) 1 (fun k C =>
        C.addMul A B (i + j * n) (i + k * n) (k + j * n)) sk C).2) sj C).2) si C).2

/-- Kernel `dgemm_blocking` (lines 68-75): block origins (sj, si, sk), each advancing by BLOCKSIZE. -/
def dgemm_blocking {α : Type} [Add α] [Mul α] (A B : Nat → α) (C : Run α) (n : Nat) : Run α :=
  (forLoop n (fun sj => decide (sj < n)) BLOCKSIZE (fun sj C =>
    (forLoop n (fun si => decide (si < n)) BLOCKSIZE (fun si C =>
      (forLoop n (fun sk => decide (sk < n)) BLOCKSIZE (fun sk C =>
        do_block n si sj sk A B C) 0 C).2) 0 C).2) 0 C).2

/-- Kernel `dgemm_AVX2`, double-precision branch (lines 99-113), with unaligned loads and stores. -/
def dgemm_AVX2 {α : Type} [Add α] [Mul α] (A B : Nat → α) (C : Run α) (n : Nat) : Run α :=
  (forLoop n (fun i => decide (i < n)) 4 (fun i C =>
    (forLoop n (fun j => decide (j < n)) 1 (fun j C =>
      let c0 : VRun α := ⟨mm256_loadu_pd C.C (i + j * n), C.log ++ vecAccess false Arr.C (i + j * n)⟩
      let c0 := (forLoop n (fun k => decide (k < n)) 1 (fun k c0 =>
        { c0 := mm256_add_pd c0.c0
            (mm256_mul_pd (mm256_loadu_pd A (i + k * n)) (mm256_broadcast_sd B (k + j * n))),
          log := c0.log ++ vecAccess false Arr.A (i + k * n) ++ [Access.rd Arr.B (k + j * n)] })
        0 c0).2
      { C := mm256_storeu_pd C.C (i + j * n) c0.c0,
        log := c0.log ++ vecAccess true Arr.C (i + j * n) }) 0 C).2) 0 C).2

/-- Kernel `dgemm_OMP` (lines 118-128), its loop nest read sequentially. -/
def dgemm_OMP {α : Type} [Zero α] [Add α] [Mul α] (A B : Nat → α) (C : Run α) (n : Nat) : Run α :=
  let C := (forLoop (n * n) (fun i => decide (i < n * n)) 1 (fun i C => C.assign i 0) 0 C).2
  (forLoop n (fun i => decide (i < n)) 1 (fun i C =>
    (forLoop n (fun j => decide (j < n)) 1 (fun j C =>
      (forLoop n (fun k => decide (k < n)) 1 (fun k C =>
        C.addMul A B (i + j * n) (i + k * n) (k + j * n)) 0 C).2) 0 C).2) 0 C).2

/-- Kernel `dgemm_unroll` (lines 171-197): the i loop unrolled by 4 with a scalar cleanup loop. -/
def dgemm_unroll {α : Type} [Zero α] [Add α] [Mul α] (A B : Nat → α) (C : Run α) (n : Nat) :
    Run α :=
  let unroll_factor : Nat := 4
  let C := (forLoop (n * n) (fun i => decide (i < n * n)) 1 (fun i C => C.assign i 0) 0 C).2
  (forLoop n (fun j => decide (j < n)) 1 (fun j C =>
    (forLoop n (fun k => decide (k < n)) 1 (fun k C =>
      let bkj := B (k + j * n)
      let C := C.note (Access.rd Arr.B (k + j * n))
      let r := forLoop n (fun i => decide ((i : Int) ≤ (n : Int) - (unroll_factor : Int)))
        unroll_factor (fun i C =>
          let C := C.addMulS A bkj (i + j * n) (i + k * n)
          let C := C.addMulS A bkj ((i + 1) + j * n) ((i + 1) + k * n)
          let C := C.addMulS A bkj ((i + 2) + j * n) ((i + 2) + k * n)
          C.addMulS A bkj ((i + 3) + j * n) ((i + 3) + k * n)) 0 C
      (forLoop n (fun i => decide (i < n)) 1 (fun i C =>
        C.addMulS A bkj (i + j * n) (i + k * n)) r.1 r.2).2) 0 C).2) 0 C).2

/-- Kernel `dgemm_unroll_optimized` (lines 200-230): the i loop unrolled by 8 with a cleanup loop. -/
def dgemm_unroll_optimized {α : Type} [Zero α] [Add α] [Mul α] (A B : Nat → α) (C : Run α)
    (n : Nat) : Run α :=
  let unroll_factor : Nat := 8
  let C := (forLoop (n * n) (fun i => decide (i < n * n)) 1 (fun i C => C.assign i 0) 0 C).2
  (forLoop n (fun j => decide (j < n)) 1 (fun j C =>
    (forLoop n (fun k => decide (k < n)) 1 (fun k C =>
      let bkj := B (k + j * n)
      let C := C.note (Access.rd Arr.B (k + j * n))
      let r := forLoop n (fun i => decide ((i : Int) ≤ (n : Int) - (unroll_factor : Int)))
        unroll_factor (fun i C =>
          let C := C.addMulS A bkj (i + j * n) (i + k * n)
          let C := C.addMulS A bkj ((i + 1) + j * n) ((i + 1) + k * n)
          let C := C.addMulS A bkj ((i + 2) + j * n) ((i + 2) + k * n)
          let C := C.addMulS A bkj ((i + 3) + j * n) ((i + 3) + k * n)
          let C := C.addMulS A bkj ((i + 4) + j * n) ((i + 4) + k * n)
          let C := C.addMulS A bkj ((i + 5) + j * n) ((i + 5) + k * n)
          let C := C.addMulS A bkj ((i + 6) + j * n) ((i + 6) + k * n)
          C.addMulS A bkj ((i + 7) + j * n) ((i + 7) + k * n)) 0 C
      (forLoop n (fun i => decide (i < n)) 1 (fun i C =>
        C.addMulS A bkj (i + j * n) (i + k * n)) r.1 r.2).2) 0 C).2) 0 C).2

/-- Block multiply `do_block_unroll` (lines 233-251): the k loop of a block unrolled by 4. -/
def do_block_unroll {α : Type} [Add α] [Mul α] (n si sj sk : Nat) (A B : Nat → α) (C : Run α) :
    Run α :=
  let unroll_factor : Nat := 4
  (forLoop BLOCKSIZE (fun i => decide (i < si + BLOCKSIZE)) 1 (fun i C =>
    (forLoop BLOCKSIZE (fun j => decide (j < sj + BLOCKSIZE)) 1 (fun j C =>
      let r := forLoop BLOCKSIZE (fun k => decide (k < sk + BLOCKSIZE - unroll_factor + 1))
        unroll_factor (fun k C =>
          let C := C.addMul A B (i + j * n) (i + k * n) (k + j * n)
          let C := C.addMul A B (i + j * n) (i + (k + 1) * n) ((k + 1) + j * n)
          let C := C.addMul A B (i + j * n) (i + (k + 2) * n) ((k + 2) + j * n)
          C.addMul A B (i + j * n) (i + (k + 3) * n) ((k + 3) + j * n)) sk C
      (forLoop BLOCKSIZE (fun k => decide (k < sk + BLOCKSIZE)) 1 (fun k C =>
        C.addMul A B (i + j * n) (i + k * n) (k + j * n)) r.1 r.2).2) sj C).2) si C).2

/-- Kernel `dgemm_blocking_unroll` (lines 253-260). -/
def dgemm_blocking_unroll {α : Type} [Add α] [Mul α] (A B : Nat → α) (C : Run α) (n : Nat) :
    Run α :=
  (forLoop n (fun sj => decide (sj < n)) BLOCKSIZE (fun sj C =>
    (forLoop n (fun si => decide (si < n)) BLOCKSIZE (fun si C =>
      (forLoop n (fun sk => decide (sk < n)) BLOCKSIZE (fun sk C =>
        do_block_unroll n si sj sk A B C) 0 C).2) 0 C).2) 0 C).2

/-- Kernel `dgemm_OMP_unroll` (lines 263-283), read sequentially: the k loop unrolled by 4
with a scalar cleanup loop. -/
def dgemm_OMP_unroll {α : Type} [Zero α] [Add α] [Mul α] (A B : Nat → α) (C : Run α) (n : Nat) :
    Run α :=
  let unroll_factor : Nat := 4
  let C := (forLoop (n * n) (fun i => decide (i < n * n)) 1 (fun i C => C.assign i 0) 0 C).2
  (forLoop n (fun i => decide (i < n)) 1 (fun i C =>
    (forLoop n (fun j => decide (j < n)) 1 (fun j C =>
      let r := forLoop n (fun k => decide ((k : Int) ≤ (n : Int) - (unroll_factor : Int)))
        unroll_factor (fun k C =>
          let C := C.addMul A B (i + j * n) (i + k * n) (k + j * n)
          let C := C.addMul A B (i + j * n) (i + (k + 1) * n) ((k + 1) + j * n)
          let C := C.addMul A B (i + j * n) (i + (k + 2) * n) ((k + 2) + j * n)
          C.addMul A B (i + j * n) (i + (k + 3) * n) ((k + 3) + j * n)) 0 C
      (forLoop n (fun k => decide (k < n)) 1 (fun k C =>
        C.addMul A B (i + j * n) (i + k * n) (k + j * n)) r.1 r.2).2) 0 C).2) 0 C).2

/-- Routine `int_mat` (lines 294-305): reseed with `srand(1)`, then fill `A`, `B` from two draws
per cell in (i,j) order and zero `C`.  The generator state `g` held before the call is an input. -/
def int_mat {α G : Type} [Zero α] [NatCast α] [Div α] (R : Rng G) (A B C : Nat → α) (g : G)
    (N : Nat) : Init α G :=
  let seeded : G := (fun (_ : G) => R.srand 1) g
  (forLoop N (fun i => decide (i < N)) 1 (fun i s =>
    (forLoop N (fun j => decide (j < N)) 1 (fun j (s : Init α G) =>
      let r1 := R.rand s.g
      let r2 := R.rand r1.2
      { A := write s.A (i + j * N) ((r1.1 : α) / ((10000 + i + j : Nat) : α)),
        B := write s.B (i + j * N) ((r2.1 : α) / ((10000 + i + j : Nat) : α)),
        C := write s.C (i + j * N) 0,
        g := r2.2,
        log := s.log ++ [Access.wr Arr.A (i + j * N), Access.wr Arr.B (i + j * N),
          Access.wr Arr.C (i + j * N)] }) 0 s).2) 0
    ({ A := A, B := B, C := C, g := seeded, log := [] } : Init α G)).2

/-- Routine `check_mat` (lines 308-324) in exact arithmetic: the positions for which a
diagnostic line is printed, in print order, and the offsets read by the test. -/
def check_mat {α : Type} [LinearOrderedField α] (C C_unopt : Nat → α) (N : Nat) : Check :=
  let max_err : α := 1 / 100000
  (forLoop N (fun n => decide (n < N)) 1 (fun n s =>
    (forLoop N (fun m => decide (m < N)) 1 (fun m (s : Check) =>
      let s : Check :=
        ⟨s.printed, s.log ++ [Access.rd Arr.C (n + N * m), Access.rd Arr.C_unopt (n + N * m)]⟩
      if abs ((C (n + N * m) - C_unopt (n + N * m)) / C_unopt (n + N * m)) > max_err then
        { printed := s.printed ++ [(n, m)], log := s.log }
      else s) 0 s).2) 0 ({ printed := [], log := [] } : Check)).2

/-- The body of the outer `i` loop of `dgemm_OMP` (lines 125-127): iteration `i` of the loop that
the pragma distributes over the workers. -/
def dgemm_OMP_iteration {α : Type} [Add α] [Mul α] (A B : Nat → α) (n i : Nat) (C : Run α) :
    Run α :=
  (forLoop n (fun j => decide (j < n)) 1 (fun j C =>
    (forLoop n (fun k => decide (k < n)) 1 (fun k C =>
      C.addMul A B (i + j * n) (i + k * n) (k + j * n)) 0 C).2) 0 C).2

/-- The kernel `dgemm_OMP` with the iterations of its outer loop executed one after the other in
the order given by `order` (the zeroing loop precedes the parallel loop). -/
def dgemm_OMP_in_order {α : Type} [Zero α] [Add α] [Mul α] (A B : Nat → α) (C : Run α) (n : Nat)
    (order : List Nat) : Run α :=
  order.foldl (fun C i => dgemm_OMP_iteration A B n i C)
    (forLoop (n * n) (fun i => decide (i < n * n)) 1 (fun i C => C.assign i 0) 0 C).2

/-- The pragma of `dgemm_OMP` (line 123): `#pragma omp parallel for private(j, k)`; the body
assigns `j` and `k`. -/
def dgemm_OMP_pragma : OmpFor := { assigned := ["j", "k"], privates := ["j", "k"] }

/-- One iteration of the driver loop of `main` (lines 365-393; `BLOCKING` is defined in this
file).  Timing and printing do not touch the arrays and are left out.  The four arrays are
separate maps, which is what the C program does when every access is inside its allocation; the
trace records in `defined` whether that is so, from the access logs of the six calls.  `main`
does not test `N`, so an iteration with `defined = false` can be reached. -/
def main_iteration {α G : Type} [Zero α] [Add α] [Mul α] [NatCast α] [Div α] (R : Rng G)
    (d : Driver α G) (N : Nat) : Driver α G × IterTrace α :=
  let s1 := int_mat R d.A d.B d.C_unopt d.g N
  let u := dgemm_unopt s1.A s1.B ⟨s1.C, []⟩ N
  let s2 := int_mat R s1.A s1.B u.C s1.g N
  let v := dgemm_jki s2.A s2.B ⟨s2.C, []⟩ N
  let s3 := int_mat R s2.A s2.B d.C s2.g N
  let c := dgemm_blocking s3.A s3.B ⟨s3.C, []⟩ N
  (⟨s3.A, s3.B, c.C, v.C, s3.g⟩,
    ⟨s1.A, s1.B, some ⟨s3.A, s3.B, c.C, v.C⟩,
      inBounds N (s1.log ++ u.log ++ s2.log ++ v.log ++ s3.log ++ c.log)⟩)

/-- The driver loop `for (i = 0; i < itr; ++i)`: the final arrays and the calls of every
iteration, in order. -/
def main_loop {α G : Type} [Zero α] [Add α] [Mul α] [NatCast α] [Div α] (R : Rng G)
    (d : Driver α G) (N itr : Nat) : Driver α G × List (IterTrace α) :=
  (forLoop itr (fun i => decide (i < itr)) 1 (fun _ (st : Driver α G × List (IterTrace α)) =>
    ((main_iteration R st.1 N).1, st.2 ++ [(main_iteration R st.1 N).2])) 0 (d, [])).2

/-- Driver `main` (lines 327-400).  `argc` is the argument count, `N` and `itr` the values
`atoi` returns for the two arguments, `d` the content of the freshly allocated arrays and the
generator state.  For negative `itr` the driver loop runs no iteration.  The routines are
modelled for `N ≥ 0` and a negative `N` is passed on as `0`: the loops over `[0, N)` run no body
then, as in the C code; the zeroing loop of `dgemm_jki` over `[0, N*N)`, which the C code does
run for negative `N`, is outside the model. -/
def main {α G : Type} [Zero α] [Add α] [Mul α] [NatCast α] [Div α] (R : Rng G) (argc : Nat)
    (N itr : Int) (d : Driver α G) : MainResult α :=
  if argc < 3 then
    { status := 1, messages := [Msg.usage], allocated := false, iters := [] }
  else
    { status := 0, messages := [], allocated := true,
      iters := (main_loop R d N.toNat itr.toNat).2 }

end GemmTestBlocking

/-! ## Kernels of `gemm-test.c` -/

namespace GemmTest

open Gemm

/-- BLOCKSIZE of the file. -/
abbrev BLOCKSIZE : Nat := 32

/-- Kernel `dgemm_unopt` (lines 34-48): `cij` starts from `C[i + j*n]`. -/
def dgemm_unopt {α : Type} [Add α] [Mul α] (A B : Nat → α) (C : Run α) (n : Nat) : Run α :=
  (forLoop n (fun i => decide (i < n)) 1 (fun i C =>
    (forLoop n (fun j => decide (j < n)) 1 (fun j C =>
      let cij : SRun α := ⟨C.C (i + j * n), C.log ++ [Access.rd Arr.C (i + j * n)]⟩
      let cij := (forLoop n (fun k => decide (k < n)) 1 (fun k cij =>
        ({ cij := cij.cij + A (i + k * n) * B (k + j * n),
           log := cij.log ++ [Access.rd Arr.A (i + k * n), Access.rd Arr.B (k + j * n)] } : SRun α))
        0 cij).2
      { C := write C.C (i + j * n) cij.cij,
        log := cij.log ++ [Access.wr Arr.C (i + j * n)] }) 0 C).2) 0 C).2

/-- Kernel `dgemm_jki` (lines 51-63): accumulates in (j,k,i) order, without zeroing `C`. -/
def dgemm_jki {α : Type} [Add α] [Mul α] (A B : Nat → α) (C : Run α) (n : Nat) : Run α :=
  (forLoop n (fun j => decide (j < n)) 1 (fun j C =>
    (forLoop n (fun k => decide (k < n)) 1 (fun k C =>
      (forLoop n (fun i => decide (i < n)) 1 (fun i C =>
        C.addMul A B (i + j * n) (i + k * n) (k + j * n)) 0 C).2) 0 C).2) 0 C).2

/-- Block multiply `do_block` (lines 67-83). -/
def do_block {α : Type} [Add α] [Mul α] (n si sj sk : Nat) (A B : Nat → α) (C : Run α) : Run α :=
  (forLoop BLOCKSIZE (fun i => decide (i < si + BLOCKSIZE)) 1 (fun i C =>
    (forLoop BLOCKSIZE (fun j => decide (j < sj + BLOCKSIZE)) 1 (fun j C =>
      let cij : SRun α := ⟨C.C (i + j * n), C.log ++ [Access.rd Arr.C (i + j * n)]⟩
      let cij := (forLoop BLOCKSIZE (fun k => decide (k < sk + BLOCKSIZE)) 1 (fun k cij =>
        ({ cij := cij.cij + A (i + k * n) * B (k + j * n),
           log := cij.log ++ [Access.rd Arr.A (i + k * n), Access.rd Arr.B (k + j * n)] } : SRun α))
        sk cij).2
      { C := write C.C (i + j * n) cij.cij,
        log := cij.log ++ [Access.wr Arr.C (i + j * n)] }) sj C).2) si C).2

/-- Kernel `dgemm_blocking` (lines 86-95). -/
def dgemm_blocking {α : Type} [Add α] [Mul α] (A B : Nat → α) (C : Run α) (n : Nat) : Run α :=
  (forLoop n (fun sj => decide (sj < n)) BLOCKSIZE (fun sj C =>
    (forLoop n (fun si => decide (si < n)) BLOCKSIZE (fun si C =>
      (forLoop n (fun sk => decide (sk < n)) BLOCKSIZE (fun sk C =>
        do_block n si sj sk A B C) 0 C).2) 0 C).2) 0 C).2

/-- Kernel `dgemm_OMP` (lines 99-116), its loop nest read sequentially. -/
def dgemm_OMP {α : Type} [Add α] [Mul α] (A B : Nat → α) (C : Run α) (n : Nat) : Run α :=
  (forLoop n (fun i => decide (i < n)) 1 (fun i C =>
    (forLoop n (fun j => decide (j < n)) 1 (fun j C =>
      let cij : SRun α := ⟨C.C (i + j * n), C.log ++ [Access.rd Arr.C (i + j * n)]⟩
      let cij := (forLoop n (fun k => decide (k < n)) 1 (fun k cij =>
        ({ cij := cij.cij + A (i + k * n) * B (k + j * n),
           log := cij.log ++ [Access.rd Arr.A (i + k * n), Access.rd Arr.B (k + j * n)] } : SRun α))
        0 cij).2
      { C := write C.C (i + j * n) cij.cij,
        log := cij.log ++ [Access.wr Arr.C (i + j * n)] }) 0 C).2) 0 C).2

/-- Kernel `dgemm_AVX2`, double-precision branch (lines 144-159), with aligned loads and stores;
alignment is not part of the model. -/
def dgemm_AVX2 {α : Type} [Add α] [Mul α] (A B : Nat → α) (C : Run α) (n : Nat) : Run α :=
  (forLoop n (fun i => decide (i < n)) 4 (fun i C =>
    (forLoop n (fun j => decide (j < n)) 1 (fun j C =>
      let c0 : VRun α := ⟨mm256_load_pd C.C (i + j * n), C.log ++ vecAccess false Arr.C (i + j * n)⟩
      let c0 := (forLoop n (fun k => decide (k < n)) 1 (fun k c0 =>
        { c0 := mm256_add_pd c0.c0
            (mm256_mul_pd (mm256_load_pd A (i + k * n)) (mm256_broadcast_sd B (k + j * n))),
          log := c0.log ++ vecAccess false Arr.A (i + k * n) ++ [Access.rd Arr.B (k + j * n)] })
        0 c0).2
      { C := mm256_store_pd C.C (i + j * n) c0.c0,
        log := c0.log ++ vecAccess true Arr.C (i + j * n) }) 0 C).2) 0 C).2

/-- Routine `int_mat` (lines 222-236), the same text as in `gemm-test-blocking.c`. -/
def int_mat {α G : Type} [Zero α] [NatCast α] [Div α] (R : Rng G) (A B C : Nat → α) (g : G)
    (N : Nat) : Init α G :=
  let seeded : G := (fun (_ : G) => R.srand 1) g
  (forLoop N (fun i => decide (i < N)) 1 (fun i s =>
    (forLoop N (fun j => decide (j < N)) 1 (fun j (s : Init α G) =>
      let r1 := R.rand s.g
      let r2 := R.rand r1.2
      { A := write s.A (i + j * N) ((r1.1 : α) / ((10000 + i + j : Nat) : α)),
        B := write s.B (i + j * N) ((r2.1 : α) / ((10000 + i + j : Nat) : α)),
        C := write s.C (i + j * N) 0,
        g := r2.2,
        log := s.log ++ [Access.wr Arr.A (i + j * N), Access.wr Arr.B (i + j * N),
          Access.wr Arr.C (i + j * N)] }) 0 s).2) 0
    ({ A := A, B := B, C := C, g := seeded, log := [] } : Init α G)).2

/-- Routine `check_mat` (lines 240-258), the same text as in `gemm-test-blocking.c`. -/
def check_mat {α : Type} [LinearOrderedField α] (C C_unopt : Nat → α) (N : Nat) : Check :=
  let max_err : α := 1 / 100000
  (forLoop N (fun n => decide (n < N)) 1 (fun n s =>
    (forLoop N (fun m => decide (m < N)) 1 (fun m (s : Check) =>
      let s : Check :=
        ⟨s.printed, s.log ++ [Access.rd Arr.C (n + N * m), Access.rd Arr.C_unopt (n + N * m)]⟩
      if abs ((C (n + N * m) - C_unopt (n + N * m)) / C_unopt (n + N * m)) > max_err then
        { printed := s.printed ++ [(n, m)], log := s.log }
      else s) 0 s).2) 0 ({ printed := [], log := [] } : Check)).2

/-- The body of the outer `i` loop of `dgemm_OMP` (lines 108-114): iteration `i` of the loop that
the pragma distributes over the workers. -/
def dgemm_OMP_iteration {α : Type} [Add α] [Mul α] (A B : Nat → α) (n i : Nat) (C : Run α) :
    Run α :=
  (forLoop n (fun j => decide (j < n)) 1 (fun j C =>
    let cij : SRun α := ⟨C.C (i + j * n), C.log ++ [Access.rd Arr.C (i + j * n)]⟩
    let cij := (forLoop n (fun k => decide (k < n)) 1 (fun k cij =>
      ({ cij := cij.cij + A (i + k * n) * B (k + j * n),
         log := cij.log ++ [Access.rd Arr.A (i + k * n), Access.rd Arr.B (k + j * n)] } : SRun α))
      0 cij).2
    { C := write C.C (i + j * n) cij.cij,
      log := cij.log ++ [Access.wr Arr.C (i + j * n)] }) 0 C).2

/-- The kernel `dgemm_OMP` with the iterations of its outer loop executed one after the other in
the order given by `order`. -/
def dgemm_OMP_in_order {α : Type} [Add α] [Mul α] (A B : Nat → α) (C : Run α) (n : Nat)
    (order : List Nat) : Run α :=
  order.foldl (fun C i => dgemm_OMP_iteration A B n i C) C

/-- The pragma of `dgemm_OMP` (line 105): `#pragma omp parallel for` without a `private`
clause; the body assigns `j`, `k` and `cij`, declared at function scope (lines 102-103). -/
def dgemm_OMP_pragma : OmpFor := { assigned := ["j", "k", "cij"], privates := [] }

/-- One iteration of the driver loop of `main` (lines 320-399).  `BLOCKING` says whether the
section guarded by `#ifdef BLOCKING` is compiled in (the file has the macro commented out); the
sections guarded by `AVX2`, `OMP`, `AVX_OMP` and `MKL` are disabled in the file and are not part
of the model.  The four arrays are separate maps; the trace records in `defined` whether every
access of the calls made is inside its allocation. -/
def main_iteration {α G : Type} [Zero α] [Add α] [Mul α] [NatCast α] [Div α] (R : Rng G)
    (BLOCKING : Bool) (d : Driver α G) (N : Nat) : Driver α G × IterTrace α :=
  let s1 := int_mat R d.A d.B d.C_unopt d.g N
  let u := dgemm_unopt s1.A s1.B ⟨s1.C, []⟩ N
  let s2 := int_mat R s1.A s1.B u.C s1.g N
  let v := dgemm_jki s2.A s2.B ⟨s2.C, []⟩ N
  if BLOCKING then
    let s3 := int_mat R s2.A s2.B d.C s2.g N
    let c := dgemm_blocking s3.A s3.B ⟨s3.C, []⟩ N
    (⟨s3.A, s3.B, c.C, v.C, s3.g⟩,
      ⟨s1.A, s1.B, some ⟨s3.A, s3.B, c.C, v.C⟩,
        inBounds N (s1.log ++ u.log ++ s2.log ++ v.log ++ s3.log ++ c.log)⟩)
  else
    (⟨s2.A, s2.B, d.C, v.C, s2.g⟩,
      ⟨s1.A, s1.B, none, inBounds N (s1.log ++ u.log ++ s2.log ++ v.log)⟩)

/-- The driver loop `for (i = 0; i < itr; ++i)`. -/
def main_loop {α G : Type} [Zero α] [Add α] [Mul α] [NatCast α] [Div α] (R : Rng G)
    (BLOCKING : Bool) (d : Driver α G) (N itr : Nat) : Driver α G × List (IterTrace α) :=
  (forLoop itr (fun i => decide (i < itr)) 1 (fun _ (st : Driver α G × List (IterTrace α)) =>
    ((main_iteration R BLOCKING st.1 N).1, st.2 ++ [(main_iteration R BLOCKING st.1 N).2]))
    0 (d, [])).2

/-- Driver `main` (lines 262-410).  `argc` is the argument count, `N` and `itr` the values `atoi`
returns for the two arguments, `d` the content of the freshly allocated arrays and the generator
state.  `%` is the truncating remainder of C. -/
def main {α G : Type} [Zero α] [Add α] [Mul α] [NatCast α] [Div α] (R : Rng G)
    (BLOCKING : Bool) (argc : Nat) (N itr : Int) (d : Driver α G) : MainResult α :=
  if argc < 3 then
    { status := 1, messages := [Msg.usage], allocated := false, iters := [] }
  else if Int.tmod N 8 ≠ 0 then
    { status := 0, messages := [Msg.multipleOf8], allocated := false, iters := [] }
  else if Int.tmod N BLOCKSIZE ≠ 0 then
    { status := 0, messages := [Msg.multipleOfBlock], allocated := false, iters := [] }
  else
    { status := 0, messages := [], allocated := true,
      iters := (main_loop R BLOCKING d N.toNat itr.toNat).2 }

end GemmTest

/-! ## Loop lemmas -/

namespace Gemm

theorem forLoop_lt {σ : Type} (hi step : Nat) (hstep : 0 < step) (body : Nat → σ → σ) :
    ∀ (fuel lo : Nat) (s : σ), hi - lo ≤ fuel →
      forLoop fuel (fun i => decide (i < hi)) step body lo s =
        (lo + step * ((hi - lo + step - 1) / step),
          (List.range' lo ((hi - lo + step - 1) / step) step).foldl (fun s i => body i s) s) := by
  intro fuel
  induction fuel with
  | zero =>
    intro lo s h
    have h0 : hi - lo = 0 := by omega
    have h1 : (hi - lo + step - 1) / step = 0 := by
      rw [h0]; exact Nat.div_eq_of_lt (by omega)
    simp [forLoop, h1]
  | succ f ih =>
    intro lo s h
    unfold forLoop
    by_cases hlt : lo < hi
    · have hcnt : (hi - lo + step - 1) / step = (hi - (lo + step) + step - 1) / step + 1 := by
        by_cases hge : lo + step ≤ hi
        · have : hi - lo + step - 1 = (hi - (lo + step) + step - 1) + step := by omega
          rw [this, Nat.add_div_right _ hstep]
        · have h2 : hi - (lo + step) = 0 := by omega
          have h3 : (hi - (lo + step) + step - 1) / step = 0 := by
            rw [h2]; exact Nat.div_eq_of_lt (by omega)
          rw [h3]
          have h4 : hi - lo + step - 1 = (hi - lo - 1) + step := by omega
          rw [h4, Nat.add_div_right _ hstep, Nat.div_eq_of_lt (by omega)]
      simp only [hlt, decide_True, if_true]
      rw [ih (lo + step) (body lo s) (by omega), hcnt, List.range'_succ, List.foldl_cons]
      congr 1
      rw [Nat.mul_add]; omega
    · have h0 : hi - lo = 0 := by omega
      have h1 : (hi - lo + step - 1) / step = 0 := by
        rw [h0]; exact Nat.div_eq_of_lt (by omega)
      simp [hlt, h1]

end Gemm

namespace Gemm

theorem forLoop_range {σ : Type} (n : Nat) (body : Nat → σ → σ) (s : σ) :
    (forLoop n (fun i => decide (i < n)) 1 body 0 s).2 =
      (List.range n).foldl (fun s i => body i s) s := by
  rw [forLoop_lt n 1 (by decide) body n 0 s (by omega)]
  simp [List.range_eq_range']

theorem forLoop_block {σ : Type} (lo w : Nat) (body : Nat → σ → σ) (s : σ) :
    (forLoop w (fun i => decide (i < lo + w)) 1 body lo s).2 =
      (List.range' lo w).foldl (fun s i => body i s) s := by
  rw [forLoop_lt (lo + w) 1 (by decide) body w lo s (by omega)]
  simp

theorem forLoop_stride {σ : Type} (n w : Nat) (hw : 0 < w) (body : Nat → σ → σ) (s : σ) :
    (forLoop n (fun i => decide (i < n)) w body 0 s).2 =
      (List.range' 0 ((n + w - 1) / w) w).foldl (fun s i => body i s) s := by
  rw [forLoop_lt n w hw body n 0 s (by omega)]
  simp

/-- Reading through a projection: a loop whose every step acts on the projection alone. -/
theorem foldl_acc {σ τ ι : Type} (p : σ → τ) (body : σ → ι → σ) (G : τ → ι → τ) (xs : List ι)
    (h : ∀ x ∈ xs, ∀ s, p (body s x) = G (p s) x) :
    ∀ s, p (xs.foldl body s) = xs.foldl G (p s) := by
  induction xs with
  | nil => intro s; rfl
  | cons x xs ih =>
    intro s
    simp only [List.foldl_cons]
    rw [ih (fun y hy => h y (List.mem_cons_of_mem _ hy)), h x (List.mem_cons_self _ _)]

/-- A loop none of whose steps changes the projection leaves it unchanged. -/
theorem foldl_keep {σ τ ι : Type} (p : σ → τ) (body : σ → ι → σ) (xs : List ι)
    (h : ∀ x ∈ xs, ∀ s, p (body s x) = p s) :
    ∀ s, p (xs.foldl body s) = p s := by
  induction xs with
  | nil => intro s; rfl
  | cons x xs ih =>
    intro s
    simp only [List.foldl_cons]
    rw [ih (fun y hy => h y (List.mem_cons_of_mem _ hy)), h x (List.mem_cons_self _ _)]

/-- A loop exactly one of whose steps changes the projection. -/
theorem foldl_pick {σ τ ι : Type} (p : σ → τ) (body : σ → ι → σ) (G : τ → τ) (x0 : ι)
    (xs : List ι) (hnd : xs.Nodup) (hmem : x0 ∈ xs)
    (hx0 : ∀ s, p (body s x0) = G (p s))
    (hoth : ∀ x ∈ xs, x ≠ x0 → ∀ s, p (body s x) = p s) :
    ∀ s, p (xs.foldl body s) = G (p s) := by
  induction xs with
  | nil => exact absurd hmem (List.not_mem_nil _)
  | cons x xs ih =>
    intro s
    simp only [List.foldl_cons]
    have hnd2 := List.nodup_cons.mp hnd
    by_cases hx : x = x0
    · subst hx
      rw [foldl_keep p body xs (fun y hy => hoth y (List.mem_cons_of_mem _ hy)
        (fun hyx => hnd2.1 (hyx ▸ hy))), hx0]
    · have hm : x0 ∈ xs := by
        rcases List.mem_cons.mp hmem with h1 | h1
        · exact absurd h1.symm hx
        · exact h1
      rw [ih hnd2.2 hm (fun y hy => hoth y (List.mem_cons_of_mem _ hy)),
        hoth x (List.mem_cons_self _ _) hx]

/-- Column-major offsets determine the row and the column. -/
theorem offset_inj {n i j i0 j0 : Nat} (hi : i < n) (hi0 : i0 < n)
    (h : i + j * n = i0 + j0 * n) : i = i0 ∧ j = j0 := by
  have h1 : (i + j * n) % n = (i0 + j0 * n) % n := by rw [h]
  rw [Nat.add_mul_mod_self_right, Nat.add_mul_mod_self_right, Nat.mod_eq_of_lt hi,
    Nat.mod_eq_of_lt hi0] at h1
  subst h1
  have hn : 0 < n := by omega
  have h2 : j * n = j0 * n := by omega
  exact ⟨rfl, Nat.eq_of_mul_eq_mul_right hn h2⟩

theorem offset_lt {n i j : Nat} (hi : i < n) (hj : j < n) : i + j * n < n * n := by
  have : (j + 1) * n ≤ n * n := Nat.mul_le_mul_right n hj
  rw [Nat.add_mul] at this
  omega

theorem offset_ge {n i j : Nat} (hj : n ≤ j) : n * n ≤ i + j * n := by
  have : n * n ≤ j * n := Nat.mul_le_mul_right n hj
  omega

theorem offset_split {n q : Nat} (hq : q < n * n) : q % n < n ∧ q / n < n ∧ q = q % n + q / n * n := by
  have hn : 0 < n := by
    rcases Nat.eq_zero_or_pos n with h | h
    · subst h; simp at hq
    · exact h
  refine ⟨Nat.mod_lt _ hn, (Nat.div_lt_iff_lt_mul hn).mpr hq, ?_⟩
  have := Nat.mod_add_div q n
  rw [Nat.mul_comm] at this
  omega

@[simp] theorem addMul_C {α : Type} [Add α] [Mul α] (st : Run α) (A B : Nat → α)
    (ci ai bi q : Nat) :
    (st.addMul A B ci ai bi).C q = if q = ci then st.C ci + A ai * B bi else st.C q := rfl

@[simp] theorem addMulS_C {α : Type} [Add α] [Mul α] (st : Run α) (A : Nat → α) (b : α)
    (ci ai q : Nat) :
    (st.addMulS A b ci ai).C q = if q = ci then st.C ci + A ai * b else st.C q := rfl

@[simp] theorem assign_C {α : Type} (st : Run α) (o : Nat) (v : α) (q : Nat) :
    (st.assign o v).C q = if q = o then v else st.C q := rfl

/-- The zeroing loop `for (i = 0; i < m; i++) C[i] = 0.0`. -/
theorem zero_loop_C {α : Type} [Zero α] (m : Nat) (st : Run α) (q : Nat) :
    ((List.range m).foldl (fun (C : Run α) i => C.assign i 0) st).C q =
      if q < m then 0 else st.C q := by
  by_cases hq : q < m
  · rw [if_pos hq]
    exact foldl_pick (fun s : Run α => s.C q) _ (fun _ => 0) q _ (List.nodup_range m)
      (List.mem_range.mpr hq) (fun s => by simp) (fun x _ hx s => by simp [Ne.symm hx]) st
  · rw [if_neg hq]
    exact foldl_keep (fun s : Run α => s.C q) _ _
      (fun x hx s => by
        have : q ≠ x := fun h => hq (h ▸ List.mem_range.mp hx)
        simp [this]) st

/-- One pass over the rows `i` for fixed `(j, k)`: `C[i + j*n] += A[i + k*n] * B[k + j*n]`. -/
theorem row_pass_C {α : Type} [Add α] [Mul α] (A B : Nat → α) (n j k i0 j0 : Nat) (hi0 : i0 < n)
    (st : Run α) :
    ((List.range n).foldl (fun (C : Run α) i =>
        C.addMul A B (i + j * n) (i + k * n) (k + j * n)) st).C (i0 + j0 * n) =
      if j = j0 then st.C (i0 + j0 * n) + A (i0 + k * n) * B (k + j0 * n)
      else st.C (i0 + j0 * n) := by
  by_cases hj : j = j0
  · subst hj
    rw [if_pos rfl]
    exact foldl_pick (fun s : Run α => s.C (i0 + j * n)) _
      (fun a => a + A (i0 + k * n) * B (k + j * n)) i0 _ (List.nodup_range n)
      (List.mem_range.mpr hi0) (fun s => by simp)
      (fun x hx hne s => by
        have : i0 + j * n ≠ x + j * n := fun h => hne (by omega)
        simp [this]) st
  · rw [if_neg hj]
    exact foldl_keep (fun s : Run α => s.C (i0 + j0 * n)) _ _
      (fun x hx s => by
        have : i0 + j0 * n ≠ x + j * n := fun h =>
          hj (offset_inj (List.mem_range.mp hx) hi0 h.symm).2
        simp [this]) st

end Gemm

namespace Gemm

/-- The reduction over `k` for a fixed cell: `C[c] += A[i + k*n] * B[k + j*n]` for `k` in `ks`. -/
theorem acc_loop_C {α : Type} [Add α] [Mul α] (A B : Nat → α) (n i j c : Nat) (ks : List Nat)
    (st : Run α) (q : Nat) :
    (ks.foldl (fun (C : Run α) k => C.addMul A B c (i + k * n) (k + j * n)) st).C q =
      if q = c then ks.foldl (fun a k => a + A (i + k * n) * B (k + j * n)) (st.C q)
      else st.C q := by
  by_cases hq : q = c
  · subst hq
    rw [if_pos rfl]
    exact foldl_acc (fun s : Run α => s.C q) _
      (fun a k => a + A (i + k * n) * B (k + j * n)) ks (fun x _ s => by simp) st
  · rw [if_neg hq]
    exact foldl_keep (fun s : Run α => s.C q) _ ks (fun x _ s => by simp [hq]) st

/-- A nest over the cells `(i, j)` of `[0,n) × [0,n)` whose body acts on its own cell only. -/
theorem cell_nest_C {α : Type} (n : Nat) (body : Nat → Nat → Run α → Run α)
    (G : Nat → Nat → α → α)
    (hbody : ∀ i j st q, (body i j st).C q = if q = i + j * n then G i j (st.C q) else st.C q)
    (i0 j0 : Nat) (hi0 : i0 < n) (hj0 : j0 < n) (st : Run α) :
    ((List.range n).foldl (fun C i => (List.range n).foldl (fun C j => body i j C) C) st).C
        (i0 + j0 * n) = G i0 j0 (st.C (i0 + j0 * n)) := by
  refine foldl_pick (fun s : Run α => s.C (i0 + j0 * n)) _ (G i0 j0) i0 _ (List.nodup_range n)
    (List.mem_range.mpr hi0) (fun s => ?_) (fun x hx hne s => ?_) st
  · refine foldl_pick (fun s : Run α => s.C (i0 + j0 * n)) _ (G i0 j0) j0 _ (List.nodup_range n)
      (List.mem_range.mpr hj0) (fun s => ?_) (fun y hy hne s => ?_) s
    · simp [hbody]
    · have : i0 + j0 * n ≠ i0 + y * n := fun h => hne (offset_inj hi0 hi0 h).2.symm
      simp [hbody, this]
  · refine foldl_keep (fun s : Run α => s.C (i0 + j0 * n)) _ _ (fun y hy s => ?_) s
    have : i0 + j0 * n ≠ x + y * n := fun h =>
      hne (offset_inj hi0 (List.mem_range.mp hx) h).1.symm
    simp [hbody, this]

/-- The same nest leaves every offset outside `[0, n*n)` as it was. -/
theorem cell_nest_frame {α : Type} (n : Nat) (body : Nat → Nat → Run α → Run α)
    (G : Nat → Nat → α → α)
    (hbody : ∀ i j st q, (body i j st).C q = if q = i + j * n then G i j (st.C q) else st.C q)
    (q : Nat) (hq : n * n ≤ q) (st : Run α) :
    ((List.range n).foldl (fun C i => (List.range n).foldl (fun C j => body i j C) C) st).C q =
      st.C q := by
  refine foldl_keep (fun s : Run α => s.C q) _ _ (fun x hx s => ?_) st
  refine foldl_keep (fun s : Run α => s.C q) _ _ (fun y hy s => ?_) s
  have : q ≠ x + y * n := fun h => by
    have := offset_lt (List.mem_range.mp hx) (List.mem_range.mp hy)
    omega
  simp [hbody, this]

/-- The (j,k,i) nest of the loop-exchanged kernels. -/
theorem jki_nest_C {α : Type} [Add α] [Mul α] (A B : Nat → α) (n i0 j0 : Nat) (hi0 : i0 < n)
    (hj0 : j0 < n) (st : Run α) :
    ((List.range n).foldl (fun C j => (List.range n).foldl (fun C k =>
        (List.range n).foldl (fun (C : Run α) i =>
          C.addMul A B (i + j * n) (i + k * n) (k + j * n)) C) C) st).C (i0 + j0 * n) =
      dotFrom A B n i0 j0 (st.C (i0 + j0 * n)) := by
  refine foldl_pick (fun s : Run α => s.C (i0 + j0 * n)) _ (dotFrom A B n i0 j0) j0 _
    (List.nodup_range n) (List.mem_range.mpr hj0) (fun s => ?_) (fun x hx hne s => ?_) st
  · exact foldl_acc (fun s : Run α => s.C (i0 + j0 * n)) _
      (fun a k => a + A (i0 + k * n) * B (k + j0 * n)) _
      (fun k _ s => by simp [row_pass_C A B n j0 k i0 j0 hi0]) s
  · exact foldl_keep (fun s : Run α => s.C (i0 + j0 * n)) _ _
      (fun k _ s => by simp [row_pass_C A B n x k i0 j0 hi0, hne]) s

theorem jki_nest_frame {α : Type} [Add α] [Mul α] (A B : Nat → α) (n q : Nat) (hq : n * n ≤ q)
    (st : Run α) :
    ((List.range n).foldl (fun C j => (List.range n).foldl (fun C k =>
        (List.range n).foldl (fun (C : Run α) i =>
          C.addMul A B (i + j * n) (i + k * n) (k + j * n)) C) C) st).C q = st.C q := by
  refine foldl_keep (fun s : Run α => s.C q) _ _ (fun j hj s => ?_) st
  refine foldl_keep (fun s : Run α => s.C q) _ _ (fun k _ s => ?_) s
  refine foldl_keep (fun s : Run α => s.C q) _ _ (fun i hi s => ?_) s
  have : q ≠ i + j * n := fun h => by
    have := offset_lt (List.mem_range.mp hi) (List.mem_range.mp hj)
    omega
  simp [this]

theorem foldl_add_eq_sum {α : Type} [AddCommMonoid α] (f : Nat → α) (c0 : α) (m : Nat) :
    (List.range m).foldl (fun acc k => acc + f k) c0 = c0 + ∑ k in Finset.range m, f k := by
  induction m with
  | zero => simp
  | succ m ih =>
    rw [List.range_succ, List.foldl_append, ih, Finset.sum_range_succ]
    simp [add_assoc]

/-- In exact arithmetic the left fold from `c0` is `c0` plus the inner product. -/
theorem dotFrom_eq {α : Type} [Semiring α] (A B : Nat → α) (n i j : Nat) (c0 : α) :
    dotFrom A B n i j c0 = c0 + dot A B n i j := by
  unfold dotFrom dot
  exact foldl_add_eq_sum (fun k => A (i + k * n) * B (k + j * n)) c0 n

theorem dotFrom_zero {α : Type} [Semiring α] (A B : Nat → α) (n i j : Nat) :
    dotFrom A B n i j 0 = dot A B n i j := by
  rw [dotFrom_eq, zero_add]

end Gemm

/-! ## The reference kernel and the loop-exchanged kernel of `gemm-test-blocking.c` -/

namespace GemmTestBlocking

open Gemm

theorem dgemm_unopt_cell {α : Type} [Zero α] [Add α] [Mul α] (A B : Nat → α) (n i j : Nat)
    (st : Run α) (q : Nat) :
    ((List.range n).foldl (fun (C : Run α) k =>
        C.addMul A B (i + j * n) (i + k * n) (k + j * n)) (st.assign (i + j * n) 0)).C q =
      if q = i + j * n then dotFrom A B n i j 0 else st.C q := by
  rw [acc_loop_C]
  by_cases hq : q = i + j * n
  · simp [hq, dotFrom]
  · simp [hq]

/-- Every cell of the output of `dgemm_unopt` is the left fold from zero. -/
theorem dgemm_unopt_fold {α : Type} [Zero α] [Add α] [Mul α] (A B : Nat → α) (C : Run α)
    (n i j : Nat) (hi : i < n) (hj : j < n) :
    (dgemm_unopt A B C n).C (i + j * n) = dotFrom A B n i j 0 := by
  unfold dgemm_unopt
  simp only [forLoop_range]
  exact cell_nest_C n _ (fun i j _ => dotFrom A B n i j 0)
    (fun i j st q => dgemm_unopt_cell A B n i j st q) i j hi hj C

theorem dgemm_unopt_frame {α : Type} [Zero α] [Add α] [Mul α] (A B : Nat → α) (C : Run α)
    (n q : Nat) (hq : n * n ≤ q) : (dgemm_unopt A B C n).C q = C.C q := by
  unfold dgemm_unopt
  simp only [forLoop_range]
  exact cell_nest_frame n _ (fun i j _ => dotFrom A B n i j 0)
    (fun i j st q => dgemm_unopt_cell A B n i j st q) q hq C

theorem dgemm_jki_fold {α : Type} [Zero α] [Add α] [Mul α] (A B : Nat → α) (C : Run α)
    (n i j : Nat) (hi : i < n) (hj : j < n) :
    (dgemm_jki A B C n).C (i + j * n) = dotFrom A B n i j 0 := by
  unfold dgemm_jki
  simp only [forLoop_range]
  rw [jki_nest_C A B n i j hi hj, zero_loop_C, if_pos (offset_lt hi hj)]

theorem dgemm_jki_frame {α : Type} [Zero α] [Add α] [Mul α] (A B : Nat → α) (C : Run α)
    (n q : Nat) (hq : n * n ≤ q) : (dgemm_jki A B C n).C q = C.C q := by
  unfold dgemm_jki
  simp only [forLoop_range]
  rw [jki_nest_frame A B n q hq, zero_loop_C, if_neg (by omega)]

/-- Two runs that agree on every cell and outside `[0, n*n)` have the same output array. -/
theorem ext_of_cells {α : Type} (n : Nat) (X Y : Nat → α)
    (hc : ∀ i j, i < n → j < n → X (i + j * n) = Y (i + j * n))
    (hf : ∀ q, n * n ≤ q → X q = Y q) : X = Y := by
  funext q
  by_cases hq : q < n * n
  · obtain ⟨h1, h2, h3⟩ := offset_split hq
    rw [h3]
    exact hc _ _ h1 h2
  · exact hf q (by omega)

/-- C2. For every `n`, all `A`, `B` and every initial content of `C`, `dgemm_unopt` of
`gemm-test-blocking.c` leaves `C[i + j*n] = Σ_{k<n} A[i + k*n] * B[k + j*n]` for all `i, j < n`,
whatever `C` held before: two runs from different initial arrays agree on every cell. -/
theorem C2_dgemm_unopt_contract {α : Type} [Semiring α] (A B : Nat → α) (C C2 : Run α) (n : Nat) :
    ∀ i j, i < n → j < n →
      (dgemm_unopt A B C n).C (i + j * n) = ∑ k in Finset.range n, A (i + k * n) * B (k + j * n) ∧
      (dgemm_unopt A B C n).C (i + j * n) = (dgemm_unopt A B C2 n).C (i + j * n) := by
  intro i j hi hj
  rw [dgemm_unopt_fold A B C n i j hi hj, dgemm_unopt_fold A B C2 n i j hi hj, dotFrom_zero]
  exact ⟨rfl, rfl⟩

/-- Witness for C2 at `n = 2`, cell `(0, 1)`. -/
theorem C2_dgemm_unopt_contract_witness :
    ((0 : Nat) < 2 ∧ (1 : Nat) < 2) ∧
    ((dgemm_unopt exA exB (exC 7) 2).C (0 + 1 * 2)
        = ∑ k in Finset.range 2, exA (0 + k * 2) * exB (k + 1 * 2) ∧
      (dgemm_unopt exA exB (exC 7) 2).C (0 + 1 * 2) = (dgemm_unopt exA exB (exC 9) 2).C (0 + 1 * 2)) :=
  ⟨⟨by decide, by decide⟩,
    C2_dgemm_unopt_contract exA exB (exC 7) (exC 9) 2 0 1 (by decide) (by decide)⟩

/-- C3. For every `n`, all `A`, `B` and every initial `C`, `dgemm_jki` of `gemm-test-blocking.c`
produces exactly the same output array as `dgemm_unopt`. -/
theorem C3_dgemm_jki_eq_unopt {α : Type} [Semiring α] (A B : Nat → α) (C : Run α) (n : Nat) :
    (dgemm_jki A B C n).C = (dgemm_unopt A B C n).C := by
  refine ext_of_cells n _ _ (fun i j hi hj => ?_) (fun q hq => ?_)
  · rw [dgemm_jki_fold A B C n i j hi hj, dgemm_unopt_fold A B C n i j hi hj]
  · rw [dgemm_jki_frame A B C n q hq, dgemm_unopt_frame A B C n q hq]

end GemmTestBlocking

/-! ## Cache blocking -/

namespace Gemm

/-- A nest over the cells `(i, j)` of two index lists whose body acts on its own cell only. -/
theorem cell_lists_C {α : Type} (n : Nat) (body : Nat → Nat → Run α → Run α)
    (G : Nat → Nat → α → α) (rows cols : List Nat) (hrows : ∀ i ∈ rows, i < n)
    (hnr : rows.Nodup) (hnc : cols.Nodup)
    (hbody : ∀ i j st q, (body i j st).C q = if q = i + j * n then G i j (st.C q) else st.C q)
    (i0 j0 : Nat) (hi0 : i0 < n) (st : Run α) :
    (rows.foldl (fun C i => cols.foldl (fun C j => body i j C) C) st).C (i0 + j0 * n) =
      if i0 ∈ rows ∧ j0 ∈ cols then G i0 j0 (st.C (i0 + j0 * n)) else st.C (i0 + j0 * n) := by
  by_cases hin : i0 ∈ rows ∧ j0 ∈ cols
  · rw [if_pos hin]
    refine foldl_pick (fun s : Run α => s.C (i0 + j0 * n)) _ (G i0 j0) i0 _ hnr hin.1
      (fun s => ?_) (fun x hx hne s => ?_) st
    · refine foldl_pick (fun s : Run α => s.C (i0 + j0 * n)) _ (G i0 j0) j0 _ hnc hin.2
        (fun s => ?_) (fun y hy hne s => ?_) s
      · simp [hbody]
      · have : i0 + j0 * n ≠ i0 + y * n := fun h => hne (offset_inj hi0 hi0 h).2.symm
        simp [hbody, this]
    · refine foldl_keep (fun s : Run α => s.C (i0 + j0 * n)) _ _ (fun y hy s => ?_) s
      have : i0 + j0 * n ≠ x + y * n := fun h =>
        hne (offset_inj hi0 (hrows x hx) h).1.symm
      simp [hbody, this]
  · rw [if_neg hin]
    refine foldl_keep (fun s : Run α => s.C (i0 + j0 * n)) _ _ (fun x hx s => ?_) st
    refine foldl_keep (fun s : Run α => s.C (i0 + j0 * n)) _ _ (fun y hy s => ?_) s
    have : i0 + j0 * n ≠ x + y * n := fun h => by
      have h2 := offset_inj hi0 (hrows x hx) h
      exact hin ⟨h2.1 ▸ hx, h2.2 ▸ hy⟩
    simp [hbody, this]

/-- Consecutive blocks of width `w` concatenate to one range. -/
theorem foldl_blocks {τ : Type} (f : τ → Nat → τ) (w : Nat) :
    ∀ (m : Nat) (a : τ),
      (List.range' 0 m w).foldl (fun a sk => (List.range' sk w).foldl f a) a =
        (List.range (w * m)).foldl f a := by
  intro m
  induction m with
  | zero => intro a; simp
  | succ m ih =>
    intro a
    rw [List.range'_concat, List.foldl_append, ih, List.foldl_cons, List.foldl_nil,
      Nat.mul_succ, List.range_eq_range', List.range_eq_range', ← List.foldl_append]
    congr 1
    have := List.range'_append 0 (w * m) w 1
    simp only [Nat.one_mul, Nat.zero_add] at this
    rw [Nat.zero_add, this, Nat.add_comm]

theorem mem_blocks {m s : Nat} : s ∈ List.range' 0 m 32 ↔ ∃ t, t < m ∧ s = 32 * t := by
  rw [List.mem_range']
  constructor
  · rintro ⟨t, ht, rfl⟩; exact ⟨t, ht, by omega⟩
  · rintro ⟨t, ht, rfl⟩; exact ⟨t, ht, by omega⟩

/-- The three loops over block origins `(sj, si, sk)` around a block multiply `blk` that acts on
the cells of its block by the reduction over its `k` range. -/
theorem block_nest_C {α : Type} [Add α] [Mul α] (A B : Nat → α) (m : Nat)
    (blk : Nat → Nat → Nat → Run α → Run α) (i0 j0 : Nat) (hi0 : i0 < 32 * m) (hj0 : j0 < 32 * m)
    (hblk : ∀ si sj sk st, si + 32 ≤ 32 * m →
      (blk si sj sk st).C (i0 + j0 * (32 * m)) =
        if (si ≤ i0 ∧ i0 < si + 32) ∧ (sj ≤ j0 ∧ j0 < sj + 32) then
          (List.range' sk 32).foldl
            (fun a k => a + A (i0 + k * (32 * m)) * B (k + j0 * (32 * m)))
            (st.C (i0 + j0 * (32 * m)))
        else st.C (i0 + j0 * (32 * m)))
    (st : Run α) :
    ((List.range' 0 m 32).foldl (fun C sj => (List.range' 0 m 32).foldl (fun C si =>
        (List.range' 0 m 32).foldl (fun C sk => blk si sj sk C) C) C) st).C (i0 + j0 * (32 * m)) =
      dotFrom A B (32 * m) i0 j0 (st.C (i0 + j0 * (32 * m))) := by
  have hnd : (List.range' 0 m 32).Nodup := List.nodup_range' 0 m 32 (by decide)
  have hsk : ∀ si sj st, si ∈ List.range' 0 m 32 →
      ((List.range' 0 m 32).foldl (fun C sk => blk si sj sk C) st).C (i0 + j0 * (32 * m)) =
        if (si ≤ i0 ∧ i0 < si + 32) ∧ (sj ≤ j0 ∧ j0 < sj + 32) then
          dotFrom A B (32 * m) i0 j0 (st.C (i0 + j0 * (32 * m)))
        else st.C (i0 + j0 * (32 * m)) := by
    intro si sj st hsi
    obtain ⟨t, ht, rfl⟩ := mem_blocks.mp hsi
    have hle : 32 * t + 32 ≤ 32 * m := by omega
    by_cases hin : (32 * t ≤ i0 ∧ i0 < 32 * t + 32) ∧ (sj ≤ j0 ∧ j0 < sj + 32)
    · rw [if_pos hin]
      rw [foldl_acc (fun s : Run α => s.C (i0 + j0 * (32 * m))) _
        (fun a sk => (List.range' sk 32).foldl
          (fun a k => a + A (i0 + k * (32 * m)) * B (k + j0 * (32 * m))) a) _
        (fun sk _ s => by dsimp only; rw [hblk _ _ _ _ hle, if_pos hin]) st]
      rw [foldl_blocks]
      rfl
    · rw [if_neg hin]
      exact foldl_keep (fun s : Run α => s.C (i0 + j0 * (32 * m))) _ _
        (fun sk _ s => by dsimp only; rw [hblk _ _ _ _ hle, if_neg hin]) st
  have hsi : ∀ sj st,
      ((List.range' 0 m 32).foldl (fun C si =>
        (List.range' 0 m 32).foldl (fun C sk => blk si sj sk C) C) st).C (i0 + j0 * (32 * m)) =
        if sj ≤ j0 ∧ j0 < sj + 32 then dotFrom A B (32 * m) i0 j0 (st.C (i0 + j0 * (32 * m)))
        else st.C (i0 + j0 * (32 * m)) := by
    intro sj st
    by_cases hin : sj ≤ j0 ∧ j0 < sj + 32
    · rw [if_pos hin]
      refine foldl_pick (fun s : Run α => s.C (i0 + j0 * (32 * m))) _
        (dotFrom A B (32 * m) i0 j0) (32 * (i0 / 32)) _ hnd
        (mem_blocks.mpr ⟨i0 / 32, by omega, rfl⟩) (fun s => ?_) (fun x hx hne s => ?_) st
      · dsimp only
        rw [hsk _ _ _ (mem_blocks.mpr ⟨i0 / 32, by omega, rfl⟩), if_pos ⟨by omega, hin⟩]
      · dsimp only
        rw [hsk _ _ _ hx, if_neg]
        obtain ⟨t, _, rfl⟩ := mem_blocks.mp hx
        intro h
        exact hne (by omega)
    · rw [if_neg hin]
      refine foldl_keep (fun s : Run α => s.C (i0 + j0 * (32 * m))) _ _ (fun x hx s => ?_) st
      dsimp only
      rw [hsk _ _ _ hx, if_neg (fun h => hin h.2)]
  refine foldl_pick (fun s : Run α => s.C (i0 + j0 * (32 * m))) _
    (dotFrom A B (32 * m) i0 j0) (32 * (j0 / 32)) _ hnd
    (mem_blocks.mpr ⟨j0 / 32, by omega, rfl⟩) (fun s => ?_) (fun x hx hne s => ?_) st
  · dsimp only
    rw [hsi, if_pos (by omega)]
  · dsimp only
    rw [hsi, if_neg]
    obtain ⟨t, _, rfl⟩ := mem_blocks.mp hx
    intro h
    exact hne (by omega)

/-- The block loops leave every offset outside `[0, n*n)` as it was. -/
theorem block_nest_frame {α : Type} (m : Nat) (blk : Nat → Nat → Nat → Run α → Run α) (q : Nat)
    (hblk : ∀ si sj sk st, si + 32 ≤ 32 * m → sj + 32 ≤ 32 * m → (blk si sj sk st).C q = st.C q)
    (st : Run α) :
    ((List.range' 0 m 32).foldl (fun C sj => (List.range' 0 m 32).foldl (fun C si =>
        (List.range' 0 m 32).foldl (fun C sk => blk si sj sk C) C) C) st).C q = st.C q := by
  refine foldl_keep (fun s : Run α => s.C q) _ _ (fun sj hsj s => ?_) st
  refine foldl_keep (fun s : Run α => s.C q) _ _ (fun si hsi s => ?_) s
  refine foldl_keep (fun s : Run α => s.C q) _ _ (fun sk _ s => ?_) s
  obtain ⟨t, ht, rfl⟩ := mem_blocks.mp hsj
  obtain ⟨u, hu, rfl⟩ := mem_blocks.mp hsi
  exact hblk _ _ _ _ (by omega) (by omega)

/-- A block multiply over a block of edge `w` acts on the cells of its block. -/
theorem blockNest_C {α : Type} [Add α] [Mul α] (w n si sj sk : Nat) (A B : Nat → α) (st : Run α)
    (i0 j0 : Nat) (hi0 : i0 < n) (hsi : si + w ≤ n) :
    (blockNest w n si sj sk A B st).C (i0 + j0 * n) =
      if (si ≤ i0 ∧ i0 < si + w) ∧ (sj ≤ j0 ∧ j0 < sj + w) then
        (List.range' sk w).foldl (fun a k => a + A (i0 + k * n) * B (k + j0 * n))
          (st.C (i0 + j0 * n))
      else st.C (i0 + j0 * n) := by
  unfold blockNest
  have key := cell_lists_C n (fun i j C => (List.range' sk w).foldl (fun (C : Run α) k =>
      C.addMul A B (i + j * n) (i + k * n) (k + j * n)) C)
    (fun i j a => (List.range' sk w).foldl (fun a k => a + A (i + k * n) * B (k + j * n)) a)
    (List.range' si w) (List.range' sj w)
    (fun i hi => by have := List.mem_range'_1.mp hi; omega)
    (List.nodup_range' si w 1 (by decide)) (List.nodup_range' sj w 1 (by decide))
    (fun i j st q => acc_loop_C A B n i j (i + j * n) (List.range' sk w) st q) i0 j0 hi0 st
  by_cases hin : (si ≤ i0 ∧ i0 < si + w) ∧ (sj ≤ j0 ∧ j0 < sj + w)
  · rw [if_pos hin, key, if_pos ⟨List.mem_range'_1.mpr hin.1, List.mem_range'_1.mpr hin.2⟩]
  · rw [if_neg hin, key,
      if_neg (fun h => hin ⟨List.mem_range'_1.mp h.1, List.mem_range'_1.mp h.2⟩)]

theorem blockNest_frame {α : Type} [Add α] [Mul α] (w n si sj sk : Nat) (A B : Nat → α)
    (st : Run α) (q : Nat) (hq : n * n ≤ q) (hsi : si + w ≤ n) (hsj : sj + w ≤ n) :
    (blockNest w n si sj sk A B st).C q = st.C q := by
  unfold blockNest
  refine foldl_keep (fun s : Run α => s.C q) _ _ (fun i hi s => ?_) st
  refine foldl_keep (fun s : Run α => s.C q) _ _ (fun j hj s => ?_) s
  refine foldl_keep (fun s : Run α => s.C q) _ _ (fun k _ s => ?_) s
  have h1 := List.mem_range'_1.mp hi
  have h2 := List.mem_range'_1.mp hj
  have : q ≠ i + j * n := fun h => by
    have := @offset_lt n i j (by omega) (by omega)
    omega
  simp [this]

theorem stride_count (m : Nat) : (32 * m + 32 - 1) / 32 = m := by omega

end Gemm

namespace GemmTestBlocking

open Gemm

theorem do_block_eq {α : Type} [Add α] [Mul α] (n si sj sk : Nat) (A B : Nat → α) (st : Run α) :
    do_block n si sj sk A B st = blockNest 32 n si sj sk A B st := by
  unfold do_block blockNest
  simp only [forLoop_block]

theorem do_block_C {α : Type} [Add α] [Mul α] (n si sj sk : Nat) (A B : Nat → α) (st : Run α)
    (i0 j0 : Nat) (hi0 : i0 < n) (hsi : si + 32 ≤ n) :
    (do_block n si sj sk A B st).C (i0 + j0 * n) =
      if (si ≤ i0 ∧ i0 < si + 32) ∧ (sj ≤ j0 ∧ j0 < sj + 32) then
        (List.range' sk 32).foldl (fun a k => a + A (i0 + k * n) * B (k + j0 * n))
          (st.C (i0 + j0 * n))
      else st.C (i0 + j0 * n) := by
  rw [do_block_eq]
  exact blockNest_C 32 n si sj sk A B st i0 j0 hi0 hsi

theorem do_block_frame {α : Type} [Add α] [Mul α] (n si sj sk : Nat) (A B : Nat → α)
    (st : Run α) (q : Nat) (hq : n * n ≤ q) (hsi : si + 32 ≤ n) (hsj : sj + 32 ≤ n) :
    (do_block n si sj sk A B st).C q = st.C q := by
  rw [do_block_eq]
  exact blockNest_frame 32 n si sj sk A B st q hq hsi hsj

theorem dgemm_blocking_eq {α : Type} [Add α] [Mul α] (A B : Nat → α) (C : Run α) (m : Nat) :
    dgemm_blocking A B C (32 * m) =
      (List.range' 0 m 32).foldl (fun C sj => (List.range' 0 m 32).foldl (fun C si =>
        (List.range' 0 m 32).foldl (fun C sk => do_block (32 * m) si sj sk A B C) C) C) C := by
  unfold dgemm_blocking
  simp only [forLoop_stride _ 32 (by decide), stride_count]

/-- Every cell of the output of `dgemm_blocking` is the left fold from the cell's initial value. -/
theorem dgemm_blocking_fold {α : Type} [Add α] [Mul α] (A B : Nat → α) (C : Run α)
    (m i j : Nat) (hi : i < 32 * m) (hj : j < 32 * m) :
    (dgemm_blocking A B C (32 * m)).C (i + j * (32 * m)) =
      dotFrom A B (32 * m) i j (C.C (i + j * (32 * m))) := by
  rw [dgemm_blocking_eq]
  exact block_nest_C A B m (fun si sj sk C => do_block (32 * m) si sj sk A B C) i j hi hj
    (fun si sj sk st hsi => do_block_C (32 * m) si sj sk A B st i j hi hsi) C

theorem dgemm_blocking_frame {α : Type} [Add α] [Mul α] (A B : Nat → α) (C : Run α)
    (m q : Nat) (hq : 32 * m * (32 * m) ≤ q) :
    (dgemm_blocking A B C (32 * m)).C q = C.C q := by
  rw [dgemm_blocking_eq]
  exact block_nest_frame m (fun si sj sk C => do_block (32 * m) si sj sk A B C) q
    (fun si sj sk st hsi hsj => do_block_frame (32 * m) si sj sk A B st q hq hsi hsj) C

/-- C1. For every `n` that is a positive multiple of BLOCKSIZE, all `A`, `B`, and `C` zero on
`[0, n*n)` as `int_mat` leaves it, `dgemm_blocking` leaves every cell of `C` equal to the cell
`dgemm_unopt` computes from the same `A` and `B` (from any initial array), namely
`Σ_{k<n} A[i + k*n] * B[k + j*n]`. -/
theorem C1_dgemm_blocking_eq_unopt {α : Type} [Semiring α] (A B : Nat → α) (C C2 : Run α)
    (n : Nat) (hpos : 0 < n) (hmul : BLOCKSIZE ∣ n) (hzero : ∀ q, q < n * n → C.C q = 0) :
    ∀ i j, i < n → j < n →
      (dgemm_blocking A B C n).C (i + j * n) = (dgemm_unopt A B C2 n).C (i + j * n) ∧
      (dgemm_blocking A B C n).C (i + j * n) =
        ∑ k in Finset.range n, A (i + k * n) * B (k + j * n) := by
  obtain ⟨m, rfl⟩ := hmul
  intro i j hi hj
  rw [dgemm_unopt_fold A B C2 _ i j hi hj, dgemm_blocking_fold A B C m i j hi hj,
    hzero _ (offset_lt hi hj), dotFrom_zero]
  exact ⟨rfl, rfl⟩

/-- Witness for C1 at `n = 64`. -/
theorem C1_dgemm_blocking_eq_unopt_witness :
    (0 < 64 ∧ BLOCKSIZE ∣ 64 ∧ (∀ q, q < 64 * 64 → (exC 0).C q = 0)) ∧
    ∀ i j, i < 64 → j < 64 →
      (dgemm_blocking exA exB (exC 0) 64).C (i + j * 64) =
        (dgemm_unopt exA exB (exC 7) 64).C (i + j * 64) ∧
      (dgemm_blocking exA exB (exC 0) 64).C (i + j * 64) =
        ∑ k in Finset.range 64, exA (i + k * 64) * exB (k + j * 64) :=
  ⟨⟨by decide, ⟨2, rfl⟩, fun _ _ => rfl⟩,
    C1_dgemm_blocking_eq_unopt exA exB (exC 0) (exC 7) 64 (by decide) ⟨2, rfl⟩ (fun _ _ => rfl)⟩

end GemmTestBlocking

/-! ## Loop unrolling -/

namespace Gemm

/-- An unrolled loop: a body that performs `u` consecutive steps of `f`, run while `i + u ≤ hi`.
It leaves at an index within `u` of the bound, having performed the steps below that index. -/
theorem forLoop_unrolled {σ : Type} (f : Nat → σ → σ) (u hi : Nat) (hu : 0 < u)
    (bodyU : Nat → σ → σ)
    (hU : ∀ i s, bodyU i s = (List.range' i u).foldl (fun s x => f x s) s) :
    ∀ (fuel lo : Nat) (s : σ), hi - lo ≤ fuel → lo ≤ hi →
      lo ≤ (forLoop fuel (fun i => decide (i + u ≤ hi)) u bodyU lo s).1 ∧
      (forLoop fuel (fun i => decide (i + u ≤ hi)) u bodyU lo s).1 ≤ hi ∧
      hi < (forLoop fuel (fun i => decide (i + u ≤ hi)) u bodyU lo s).1 + u ∧
      (forLoop fuel (fun i => decide (i + u ≤ hi)) u bodyU lo s).2 =
        (List.range' lo ((forLoop fuel (fun i => decide (i + u ≤ hi)) u bodyU lo s).1 - lo)).foldl
          (fun s x => f x s) s := by
  intro fuel
  induction fuel with
  | zero =>
    intro lo s h1 h2
    have : lo = hi := by omega
    subst this
    simp [forLoop]
    exact hu
  | succ fuel ih =>
    intro lo s h1 h2
    unfold forLoop
    by_cases hc : lo + u ≤ hi
    · simp only [hc, decide_True, if_true]
      obtain ⟨a1, a2, a3, a4⟩ := ih (lo + u) (bodyU lo s) (by omega) hc
      generalize forLoop fuel (fun i => decide (i + u ≤ hi)) u bodyU (lo + u) (bodyU lo s) = r
        at a1 a2 a3 a4 ⊢
      refine ⟨by omega, a2, a3, ?_⟩
      rw [a4, hU, ← List.foldl_append]
      congr 1
      have := List.range'_append lo u (r.1 - (lo + u)) 1
      simp only [Nat.one_mul] at this
      rw [this]
      congr 1
      omega
    · simp only [hc, decide_False, Bool.false_eq_true, if_false]
      refine ⟨le_refl _, h2, by omega, ?_⟩
      simp

/-- An unrolled loop followed by its scalar cleanup loop performs the steps `0, 1, ..., n-1`,
each once and in order. -/
theorem unroll_cleanup {σ : Type} (f : Nat → σ → σ) (u n : Nat) (hu : 0 < u)
    (bodyU : Nat → σ → σ)
    (hU : ∀ i s, bodyU i s = (List.range' i u).foldl (fun s x => f x s) s) (s : σ) :
    (forLoop n (fun i => decide (i < n)) 1 f
        (forLoop n (fun i => decide (i + u ≤ n)) u bodyU 0 s).1
        (forLoop n (fun i => decide (i + u ≤ n)) u bodyU 0 s).2).2 =
      (List.range n).foldl (fun s x => f x s) s := by
  obtain ⟨a1, a2, a3, a4⟩ := forLoop_unrolled f u n hu bodyU hU n 0 s (by omega) (Nat.zero_le _)
  generalize forLoop n (fun i => decide (i + u ≤ n)) u bodyU 0 s = r at a1 a2 a3 a4 ⊢
  rw [forLoop_lt n 1 (by decide) f n _ _ (by omega), a4]
  simp only [Nat.sub_zero, Nat.add_sub_cancel, Nat.div_one]
  rw [← List.foldl_append, List.range_eq_range']
  congr 1
  have := List.range'_append 0 r.1 (n - r.1) 1
  simp only [Nat.one_mul, Nat.zero_add] at this
  rw [this]
  congr 1
  omega

/-- The test `i <= n - u` on C integers is `i + u ≤ n`. -/
theorem unroll_cond (n u : Nat) :
    (fun i : Nat => decide ((i : Int) ≤ (n : Int) - (u : Int))) = fun i => decide (i + u ≤ n) := by
  funext i
  exact decide_eq_decide.mpr (by omega)

end Gemm

namespace GemmTestBlocking

open Gemm

/-- The access log and the output of `dgemm_unroll` are those of updating every row once. -/
theorem dgemm_unroll_eq {α : Type} [Zero α] [Add α] [Mul α] (A B : Nat → α) (C : Run α) (n : Nat) :
    dgemm_unroll A B C n = rowsOnce A B C n := by
  unfold dgemm_unroll rowsOnce
  simp only [unroll_cond]
  have key : ∀ (j k : Nat) (st : Run α),
      (forLoop n (fun i => decide (i < n)) 1
        (fun i (C : Run α) => C.addMulS A (B (k + j * n)) (i + j * n) (i + k * n))
        (forLoop n (fun i => decide (i + 4 ≤ n)) 4 (fun i (C : Run α) =>
          (((C.addMulS A (B (k + j * n)) (i + j * n) (i + k * n)).addMulS A (B (k + j * n))
            ((i + 1) + j * n) ((i + 1) + k * n)).addMulS A (B (k + j * n))
            ((i + 2) + j * n) ((i + 2) + k * n)).addMulS A (B (k + j * n))
            ((i + 3) + j * n) ((i + 3) + k * n)) 0 st).1
        (forLoop n (fun i => decide (i + 4 ≤ n)) 4 (fun i (C : Run α) =>
          (((C.addMulS A (B (k + j * n)) (i + j * n) (i + k * n)).addMulS A (B (k + j * n))
            ((i + 1) + j * n) ((i + 1) + k * n)).addMulS A (B (k + j * n))
            ((i + 2) + j * n) ((i + 2) + k * n)).addMulS A (B (k + j * n))
            ((i + 3) + j * n) ((i + 3) + k * n)) 0 st).2).2 =
      (List.range n).foldl (fun (C : Run α) i =>
        C.addMulS A (B (k + j * n)) (i + j * n) (i + k * n)) st := by
    intro j k st
    exact unroll_cleanup (fun i (C : Run α) => C.addMulS A (B (k + j * n)) (i + j * n) (i + k * n))
      4 n (by decide) _ (fun i s => by simp [List.range'_succ]) st
  simp only [key, forLoop_range]

end GemmTestBlocking

namespace Gemm

@[simp] theorem note_C {α : Type} (st : Run α) (a : Access) : (st.note a).C = st.C := rfl

/-- One pass over the rows with the scalar `b` held in a local. -/
theorem row_passS_C {α : Type} [Add α] [Mul α] (A : Nat → α) (b : α) (n j k i0 j0 : Nat)
    (hi0 : i0 < n) (st : Run α) :
    ((List.range n).foldl (fun (C : Run α) i =>
        C.addMulS A b (i + j * n) (i + k * n)) st).C (i0 + j0 * n) =
      if j = j0 then st.C (i0 + j0 * n) + A (i0 + k * n) * b else st.C (i0 + j0 * n) := by
  by_cases hj : j = j0
  · subst hj
    rw [if_pos rfl]
    exact foldl_pick (fun s : Run α => s.C (i0 + j * n)) _
      (fun a => a + A (i0 + k * n) * b) i0 _ (List.nodup_range n)
      (List.mem_range.mpr hi0) (fun s => by simp)
      (fun x hx hne s => by
        have : i0 + j * n ≠ x + j * n := fun h => hne (by omega)
        simp [this]) st
  · rw [if_neg hj]
    exact foldl_keep (fun s : Run α => s.C (i0 + j0 * n)) _ _
      (fun x hx s => by
        have : i0 + j0 * n ≠ x + j * n := fun h =>
          hj (offset_inj (List.mem_range.mp hx) hi0 h.symm).2
        simp [this]) st

theorem row_passS_frame {α : Type} [Add α] [Mul α] (A : Nat → α) (b : α) (n j k q : Nat)
    (hj : j < n) (hq : n * n ≤ q) (st : Run α) :
    ((List.range n).foldl (fun (C : Run α) i =>
        C.addMulS A b (i + j * n) (i + k * n)) st).C q = st.C q := by
  refine foldl_keep (fun s : Run α => s.C q) _ _ (fun i hi s => ?_) st
  have : q ≠ i + j * n := fun h => by
    have := offset_lt (List.mem_range.mp hi) hj
    omega
  simp [this]

/-- Every cell of `rowsOnce` is the left fold from zero. -/
theorem rowsOnce_fold {α : Type} [Zero α] [Add α] [Mul α] (A B : Nat → α) (C : Run α)
    (n i0 j0 : Nat) (hi0 : i0 < n) (hj0 : j0 < n) :
    (rowsOnce A B C n).C (i0 + j0 * n) = dotFrom A B n i0 j0 0 := by
  unfold rowsOnce
  rw [foldl_pick (fun s : Run α => s.C (i0 + j0 * n)) _ (dotFrom A B n i0 j0) j0 _
    (List.nodup_range n) (List.mem_range.mpr hj0) (fun s => ?_) (fun x hx hne s => ?_),
    zero_loop_C, if_pos (offset_lt hi0 hj0)]
  · exact foldl_acc (fun s : Run α => s.C (i0 + j0 * n)) _
      (fun a k => a + A (i0 + k * n) * B (k + j0 * n)) _
      (fun k _ s => by simp [row_passS_C A _ n j0 k i0 j0 hi0]) s
  · exact foldl_keep (fun s : Run α => s.C (i0 + j0 * n)) _ _
      (fun k _ s => by simp [row_passS_C A _ n x k i0 j0 hi0, hne]) s

theorem rowsOnce_frame {α : Type} [Zero α] [Add α] [Mul α] (A B : Nat → α) (C : Run α)
    (n q : Nat) (hq : n * n ≤ q) : (rowsOnce A B C n).C q = C.C q := by
  unfold rowsOnce
  rw [foldl_keep (fun s : Run α => s.C q) _ _ (fun j hj s => ?_), zero_loop_C,
    if_neg (by omega)]
  refine foldl_keep (fun s : Run α => s.C q) _ _ (fun k _ s => ?_) s
  dsimp only
  rw [row_passS_frame A _ n j k q (List.mem_range.mp hj) hq]
  rfl

end Gemm

namespace GemmTestBlocking

open Gemm

/-- The access log and the output of `dgemm_unroll_optimized` are those of updating every row
once. -/
theorem dgemm_unroll_optimized_eq {α : Type} [Zero α] [Add α] [Mul α] (A B : Nat → α)
    (C : Run α) (n : Nat) : dgemm_unroll_optimized A B C n = rowsOnce A B C n := by
  unfold dgemm_unroll_optimized rowsOnce
  simp only [unroll_cond]
  have key : ∀ (j k : Nat) (st : Run α),
      (forLoop n (fun i => decide (i < n)) 1
        (fun i (C : Run α) => C.addMulS A (B (k + j * n)) (i + j * n) (i + k * n))
        (forLoop n (fun i => decide (i + 8 ≤ n)) 8 (fun i (C : Run α) =>
          (((((((C.addMulS A (B (k + j * n)) (i + j * n) (i + k * n)).addMulS A (B (k + j * n))
            ((i + 1) + j * n) ((i + 1) + k * n)).addMulS A (B (k + j * n))
            ((i + 2) + j * n) ((i + 2) + k * n)).addMulS A (B (k + j * n))
            ((i + 3) + j * n) ((i + 3) + k * n)).addMulS A (B (k + j * n))
            ((i + 4) + j * n) ((i + 4) + k * n)).addMulS A (B (k + j * n))
            ((i + 5) + j * n) ((i + 5) + k * n)).addMulS A (B (k + j * n))
            ((i + 6) + j * n) ((i + 6) + k * n)).addMulS A (B (k + j * n))
            ((i + 7) + j * n) ((i + 7) + k * n)) 0 st).1
        (forLoop n (fun i => decide (i + 8 ≤ n)) 8 (fun i (C : Run α) =>
          (((((((C.addMulS A (B (k + j * n)) (i + j * n) (i + k * n)).addMulS A (B (k + j * n))
            ((i + 1) + j * n) ((i + 1) + k * n)).addMulS A (B (k + j * n))
            ((i + 2) + j * n) ((i + 2) + k * n)).addMulS A (B (k + j * n))
            ((i + 3) + j * n) ((i + 3) + k * n)).addMulS A (B (k + j * n))
            ((i + 4) + j * n) ((i + 4) + k * n)).addMulS A (B (k + j * n))
            ((i + 5) + j * n) ((i + 5) + k * n)).addMulS A (B (k + j * n))
            ((i + 6) + j * n) ((i + 6) + k * n)).addMulS A (B (k + j * n))
            ((i + 7) + j * n) ((i + 7) + k * n)) 0 st).2).2 =
      (List.range n).foldl (fun (C : Run α) i =>
        C.addMulS A (B (k + j * n)) (i + j * n) (i + k * n)) st := by
    intro j k st
    exact unroll_cleanup (fun i (C : Run α) => C.addMulS A (B (k + j * n)) (i + j * n) (i + k * n))
      8 n (by decide) _ (fun i s => by simp [List.range'_succ]) st
  simp only [key, forLoop_range]

end GemmTestBlocking

/-! ## Access logs -/

namespace Gemm

/-- A loop whose every step appends to the log appends the concatenation of the steps. -/
theorem foldl_log {σ ι : Type} (lg : σ → List Access) (body : σ → ι → σ)
    (c : ι → List Access) (xs : List ι) (h : ∀ x ∈ xs, ∀ s, lg (body s x) = lg s ++ c x) :
    ∀ s, lg (xs.foldl body s) = lg s ++ xs.flatMap c := by
  induction xs with
  | nil => intro s; simp
  | cons x xs ih =>
    intro s
    simp only [List.foldl_cons, List.flatMap_cons]
    rw [ih (fun y hy => h y (List.mem_cons_of_mem _ hy)), h x (List.mem_cons_self _ _),
      List.append_assoc]

@[simp] theorem addMul_log {α : Type} [Add α] [Mul α] (st : Run α) (A B : Nat → α)
    (ci ai bi : Nat) :
    (st.addMul A B ci ai bi).log =
      st.log ++ [Access.rd Arr.C ci, Access.rd Arr.A ai, Access.rd Arr.B bi, Access.wr Arr.C ci] :=
  rfl

@[simp] theorem addMulS_log {α : Type} [Add α] [Mul α] (st : Run α) (A : Nat → α) (b : α)
    (ci ai : Nat) :
    (st.addMulS A b ci ai).log =
      st.log ++ [Access.rd Arr.C ci, Access.rd Arr.A ai, Access.wr Arr.C ci] := rfl

@[simp] theorem assign_log {α : Type} (st : Run α) (o : Nat) (v : α) :
    (st.assign o v).log = st.log ++ [Access.wr Arr.C o] := rfl

@[simp] theorem note_log {α : Type} (st : Run α) (a : Access) :
    (st.note a).log = st.log ++ [a] := rfl

/-- The accesses of a block multiply over a block of edge `w`. -/
theorem blockNest_log {α : Type} [Add α] [Mul α] (w n si sj sk : Nat) (A B : Nat → α)
    (st : Run α) :
    (blockNest w n si sj sk A B st).log = st.log ++ blockAccesses w n si sj sk := by
  unfold blockNest blockAccesses
  refine foldl_log (fun s : Run α => s.log) _ _ _ (fun i _ s => ?_) st
  refine foldl_log (fun s : Run α => s.log) _ _ _ (fun j _ s => ?_) s
  exact foldl_log (fun s : Run α => s.log) _ _ _ (fun k _ s => by simp) s

theorem blockNestS_log {α : Type} [Add α] [Mul α] (w n si sj sk : Nat) (A B : Nat → α)
    (st : Run α) :
    (blockNestS w n si sj sk A B st).log = st.log ++ blockAccessesS w n si sj sk := by
  unfold blockNestS blockAccessesS
  refine foldl_log (fun s : Run α => s.log) _ _ _ (fun i _ s => ?_) st
  refine foldl_log (fun s : Run α => s.log) _ _ _ (fun j _ s => ?_) s
  dsimp only
  rw [foldl_log (fun c : SRun α => c.log) _
    (fun k => [Access.rd Arr.A (i + k * n), Access.rd Arr.B (k + j * n)]) _
    (fun k _ c => rfl)]
  simp

/-- The accesses of `rowsOnce`. -/
theorem rowsOnce_log {α : Type} [Zero α] [Add α] [Mul α] (A B : Nat → α) (C : Run α) (n : Nat) :
    (rowsOnce A B C n).log =
      (C.log ++ (List.range (n * n)).flatMap (fun i => [Access.wr Arr.C i])) ++
        (List.range n).flatMap (fun j => (List.range n).flatMap (fun k =>
          [Access.rd Arr.B (k + j * n)] ++ (List.range n).flatMap (fun i =>
            [Access.rd Arr.C (i + j * n), Access.rd Arr.A (i + k * n),
              Access.wr Arr.C (i + j * n)]))) := by
  unfold rowsOnce
  rw [foldl_log (fun s : Run α => s.log) _ _ _ (fun j _ s => ?_),
    foldl_log (fun s : Run α => s.log) _ (fun i => [Access.wr Arr.C i]) _
      (fun i _ s => by simp)]
  refine foldl_log (fun s : Run α => s.log) _ _ _ (fun k _ s => ?_) s
  dsimp only
  rw [foldl_log (fun s : Run α => s.log) _
    (fun i => [Access.rd Arr.C (i + j * n), Access.rd Arr.A (i + k * n),
      Access.wr Arr.C (i + j * n)]) _ (fun i _ s => by simp)]
  simp

/-- Every access of `rowsOnce` beyond the initial log lies in `[0, n*n)`. -/
theorem rowsOnce_bounds {α : Type} [Zero α] [Add α] [Mul α] (A B : Nat → α) (C : Run α) (n : Nat)
    (a : Access) (ha : a ∈ (rowsOnce A B C n).log) : a ∈ C.log ∨ a.off < n * n := by
  rw [rowsOnce_log] at ha
  simp only [List.mem_append, List.mem_flatMap, List.mem_range, List.mem_cons,
    List.mem_singleton, List.not_mem_nil, or_false] at ha
  rcases ha with (h | ⟨i, hi, rfl⟩) | ⟨j, hj, k, hk, h⟩
  · exact Or.inl h
  · exact Or.inr hi
  · right
    rcases h with rfl | ⟨i, hi, rfl | rfl | rfl⟩
    · exact offset_lt hk hj
    · exact offset_lt hi hj
    · exact offset_lt hi hk
    · exact offset_lt hi hj

end Gemm

namespace GemmTestBlocking

open Gemm

/-- C4. For every `n` (also `n` below the unroll factor or not a multiple of it), all `A`, `B`
and every initial `C`, `dgemm_unroll` (factor 4) and `dgemm_unroll_optimized` (factor 8) leave the
same output array as `dgemm_unopt`.  Both are, access for access, the nest that for each `(j, k)`
updates every row `i` of `[0, n)` exactly once (`rowsOnce`), and no access they make lies outside
`[0, n*n)`. -/
theorem C4_unrolled_eq_unopt {α : Type} [Semiring α] (A B : Nat → α) (C : Run α) (n : Nat) :
    (dgemm_unroll A B C n).C = (dgemm_unopt A B C n).C ∧
    (dgemm_unroll_optimized A B C n).C = (dgemm_unopt A B C n).C ∧
    dgemm_unroll A B C n = rowsOnce A B C n ∧
    dgemm_unroll_optimized A B C n = rowsOnce A B C n ∧
    (∀ a, a ∈ (dgemm_unroll A B C n).log → a ∈ C.log ∨ a.off < n * n) ∧
    (∀ a, a ∈ (dgemm_unroll_optimized A B C n).log → a ∈ C.log ∨ a.off < n * n) := by
  have h : (rowsOnce A B C n).C = (dgemm_unopt A B C n).C := by
    refine ext_of_cells n _ _ (fun i j hi hj => ?_) (fun q hq => ?_)
    · rw [rowsOnce_fold A B C n i j hi hj, dgemm_unopt_fold A B C n i j hi hj]
    · rw [rowsOnce_frame A B C n q hq, dgemm_unopt_frame A B C n q hq]
  refine ⟨?_, ?_, dgemm_unroll_eq A B C n, dgemm_unroll_optimized_eq A B C n, ?_, ?_⟩
  · rw [dgemm_unroll_eq, h]
  · rw [dgemm_unroll_optimized_eq, h]
  · intro a ha
    rw [dgemm_unroll_eq] at ha
    exact rowsOnce_bounds A B C n a ha
  · intro a ha
    rw [dgemm_unroll_optimized_eq] at ha
    exact rowsOnce_bounds A B C n a ha

end GemmTestBlocking

/-! ## Bounds of the blocked kernels -/

namespace Gemm

theorem mem_origins {cnt s : Nat} : s ∈ List.range' 0 cnt 32 ↔ ∃ t, t < cnt ∧ s = 32 * t :=
  mem_blocks

theorem mem_blockAccesses {w n si sj sk : Nat} {a : Access} :
    a ∈ blockAccesses w n si sj sk ↔
      ∃ i, (si ≤ i ∧ i < si + w) ∧ ∃ j, (sj ≤ j ∧ j < sj + w) ∧ ∃ k, (sk ≤ k ∧ k < sk + w) ∧
        (a = Access.rd Arr.C (i + j * n) ∨ a = Access.rd Arr.A (i + k * n) ∨
          a = Access.rd Arr.B (k + j * n) ∨ a = Access.wr Arr.C (i + j * n)) := by
  unfold blockAccesses
  simp only [List.mem_flatMap, List.mem_range'_1, List.mem_cons, List.mem_singleton,
    List.not_mem_nil, or_false]

theorem mem_blockAccessesS {w n si sj sk : Nat} {a : Access} :
    a ∈ blockAccessesS w n si sj sk ↔
      ∃ i, (si ≤ i ∧ i < si + w) ∧ ∃ j, (sj ≤ j ∧ j < sj + w) ∧
        ((a = Access.rd Arr.C (i + j * n) ∨ ∃ k, (sk ≤ k ∧ k < sk + w) ∧
          (a = Access.rd Arr.A (i + k * n) ∨ a = Access.rd Arr.B (k + j * n))) ∨
          a = Access.wr Arr.C (i + j * n)) := by
  unfold blockAccessesS
  simp only [List.mem_flatMap, List.mem_range'_1, List.mem_cons, List.mem_singleton,
    List.not_mem_nil, or_false, List.mem_append]

/-- With `n` a multiple of 32 every access of a block with origins inside `[0, n)` is in
bounds. -/
theorem blockAccesses_bounds {n si sj sk : Nat} {a : Access} (hsi : si + 32 ≤ n)
    (hsj : sj + 32 ≤ n) (hsk : sk + 32 ≤ n) (ha : a ∈ blockAccesses 32 n si sj sk) :
    a.off < n * n := by
  obtain ⟨i, hi, j, hj, k, hk, h⟩ := mem_blockAccesses.mp ha
  have hi2 : i < n := by omega
  have hj2 : j < n := by omega
  have hk2 : k < n := by omega
  rcases h with rfl | rfl | rfl | rfl
  · exact offset_lt hi2 hj2
  · exact offset_lt hi2 hk2
  · exact offset_lt hk2 hj2
  · exact offset_lt hi2 hj2

theorem blockAccessesS_bounds {n si sj sk : Nat} {a : Access} (hsi : si + 32 ≤ n)
    (hsj : sj + 32 ≤ n) (hsk : sk + 32 ≤ n) (ha : a ∈ blockAccessesS 32 n si sj sk) :
    a.off < n * n := by
  obtain ⟨i, hi, j, hj, h⟩ := mem_blockAccessesS.mp ha
  have hi2 : i < n := by omega
  have hj2 : j < n := by omega
  rcases h with (rfl | ⟨k, hk, rfl | rfl⟩) | rfl
  · exact offset_lt hi2 hj2
  · exact offset_lt hi2 (by omega)
  · exact offset_lt (by omega) hj2
  · exact offset_lt hi2 hj2

/-- The accesses of three loops over block origins around a block multiply. -/
theorem origins_log {α : Type} (cnt : Nat) (blk : Nat → Nat → Nat → Run α → Run α)
    (acc : Nat → Nat → Nat → List Access)
    (hblk : ∀ si sj sk st, (blk si sj sk st).log = st.log ++ acc si sj sk) (st : Run α) :
    ((List.range' 0 cnt 32).foldl (fun C sj => (List.range' 0 cnt 32).foldl (fun C si =>
        (List.range' 0 cnt 32).foldl (fun C sk => blk si sj sk C) C) C) st).log =
      st.log ++ (List.range' 0 cnt 32).flatMap (fun sj => (List.range' 0 cnt 32).flatMap
        (fun si => (List.range' 0 cnt 32).flatMap (fun sk => acc si sj sk))) := by
  refine foldl_log (fun s : Run α => s.log) _ _ _ (fun sj _ s => ?_) st
  refine foldl_log (fun s : Run α => s.log) _ _ _ (fun si _ s => ?_) s
  exact foldl_log (fun s : Run α => s.log) _ _ _ (fun sk _ s => hblk si sj sk s) s

theorem mem_origins_log {cnt : Nat} {acc : Nat → Nat → Nat → List Access} {a : Access} :
    a ∈ (List.range' 0 cnt 32).flatMap (fun sj => (List.range' 0 cnt 32).flatMap
        (fun si => (List.range' 0 cnt 32).flatMap (fun sk => acc si sj sk))) ↔
      ∃ tj, tj < cnt ∧ ∃ ti, ti < cnt ∧ ∃ tk, tk < cnt ∧
        a ∈ acc (32 * ti) (32 * tj) (32 * tk) := by
  simp only [List.mem_flatMap, mem_origins]
  constructor
  · rintro ⟨sj, ⟨tj, htj, rfl⟩, si, ⟨ti, hti, rfl⟩, sk, ⟨tk, htk, rfl⟩, h⟩
    exact ⟨tj, htj, ti, hti, tk, htk, h⟩
  · rintro ⟨tj, htj, ti, hti, tk, htk, h⟩
    exact ⟨_, ⟨tj, htj, rfl⟩, _, ⟨ti, hti, rfl⟩, _, ⟨tk, htk, rfl⟩, h⟩

end Gemm

namespace GemmTestBlocking

open Gemm

/-- The accesses of `dgemm_blocking` for any `n`: the blocks with origins `0, 32, ...` below `n`. -/
theorem dgemm_blocking_log {α : Type} [Add α] [Mul α] (A B : Nat → α) (C : Run α) (n : Nat) :
    (dgemm_blocking A B C n).log =
      C.log ++ (List.range' 0 ((n + 32 - 1) / 32) 32).flatMap (fun sj =>
        (List.range' 0 ((n + 32 - 1) / 32) 32).flatMap (fun si =>
          (List.range' 0 ((n + 32 - 1) / 32) 32).flatMap (fun sk =>
            blockAccesses 32 n si sj sk))) := by
  unfold dgemm_blocking
  simp only [forLoop_stride _ 32 (by decide)]
  exact origins_log _ (fun si sj sk C => do_block n si sj sk A B C) _
    (fun si sj sk st => by dsimp only; rw [do_block_eq, blockNest_log]) C

end GemmTestBlocking

namespace GemmTest

open Gemm

theorem gt_do_block_eq {α : Type} [Add α] [Mul α] (n si sj sk : Nat) (A B : Nat → α) (st : Run α) :
    do_block n si sj sk A B st = blockNestS 32 n si sj sk A B st := by
  unfold do_block blockNestS
  simp only [forLoop_block]

/-- The accesses of `dgemm_blocking` of `gemm-test.c` for any `n`. -/
theorem gt_dgemm_blocking_log {α : Type} [Add α] [Mul α] (A B : Nat → α) (C : Run α) (n : Nat) :
    (dgemm_blocking A B C n).log =
      C.log ++ (List.range' 0 ((n + 32 - 1) / 32) 32).flatMap (fun sj =>
        (List.range' 0 ((n + 32 - 1) / 32) 32).flatMap (fun si =>
          (List.range' 0 ((n + 32 - 1) / 32) 32).flatMap (fun sk =>
            blockAccessesS 32 n si sj sk))) := by
  unfold dgemm_blocking
  simp only [forLoop_stride _ 32 (by decide)]
  exact origins_log _ (fun si sj sk C => do_block n si sj sk A B C) _
    (fun si sj sk st => by dsimp only; rw [gt_do_block_eq, blockNestS_log]) C

end GemmTest

namespace Gemm

/-- C5. For every `n > 0`, every offset that `dgemm_blocking` reads or writes (through
`do_block`, in either file) lies in `[0, n*n)` if and only if `n` is a multiple of BLOCKSIZE;
for `n = 50` the kernel writes offset `63 + 63*50 = 3213 ≥ 2500`. -/
theorem C5_blocking_in_bounds_iff {α : Type} [Add α] [Mul α] (A B C0 : Nat → α) (n : Nat)
    (hn : 0 < n) :
    ((∀ a, a ∈ (GemmTestBlocking.dgemm_blocking A B ⟨C0, []⟩ n).log → a.off < n * n) ↔ 32 ∣ n) ∧
    ((∀ a, a ∈ (GemmTest.dgemm_blocking A B ⟨C0, []⟩ n).log → a.off < n * n) ↔ 32 ∣ n) ∧
    (n = 50 → Access.wr Arr.C (63 + 63 * 50) ∈
        (GemmTestBlocking.dgemm_blocking A B ⟨C0, []⟩ n).log ∧
      Access.wr Arr.C (63 + 63 * 50) ∈ (GemmTest.dgemm_blocking A B ⟨C0, []⟩ n).log ∧
      ¬ (63 + 63 * 50 < n * n)) := by
  have hcnt : 0 < (n + 32 - 1) / 32 := by omega
  have hlast : 32 * ((n + 32 - 1) / 32 - 1) < n := by omega
  refine ⟨⟨fun h => ?_, fun h a ha => ?_⟩, ⟨fun h => ?_, fun h a ha => ?_⟩, fun h50 => ?_⟩
  · by_contra hnd
    have hover : n ≤ 32 * ((n + 32 - 1) / 32 - 1) + 31 := by omega
    have hmem : Access.wr Arr.C (0 + (32 * ((n + 32 - 1) / 32 - 1) + 31) * n) ∈
        (GemmTestBlocking.dgemm_blocking A B ⟨C0, []⟩ n).log := by
      rw [GemmTestBlocking.dgemm_blocking_log]
      simp only [List.nil_append]
      refine mem_origins_log.mpr ⟨(n + 32 - 1) / 32 - 1, by omega, 0, hcnt, 0, hcnt, ?_⟩
      exact mem_blockAccesses.mpr ⟨0, by omega, 32 * ((n + 32 - 1) / 32 - 1) + 31, by omega, 0,
        by omega, Or.inr (Or.inr (Or.inr rfl))⟩
    have := h _ hmem
    have h2 := @offset_ge n 0 (32 * ((n + 32 - 1) / 32 - 1) + 31) hover
    simp only [Access.off] at this
    omega
  · rw [GemmTestBlocking.dgemm_blocking_log] at ha
    simp only [List.nil_append] at ha
    obtain ⟨tj, htj, ti, hti, tk, htk, hmem⟩ := mem_origins_log.mp ha
    exact blockAccesses_bounds (by omega) (by omega) (by omega) hmem
  · by_contra hnd
    have hover : n ≤ 32 * ((n + 32 - 1) / 32 - 1) + 31 := by omega
    have hmem : Access.wr Arr.C (0 + (32 * ((n + 32 - 1) / 32 - 1) + 31) * n) ∈
        (GemmTest.dgemm_blocking A B ⟨C0, []⟩ n).log := by
      rw [GemmTest.gt_dgemm_blocking_log]
      simp only [List.nil_append]
      refine mem_origins_log.mpr ⟨(n + 32 - 1) / 32 - 1, by omega, 0, hcnt, 0, hcnt, ?_⟩
      exact mem_blockAccessesS.mpr ⟨0, by omega, 32 * ((n + 32 - 1) / 32 - 1) + 31, by omega,
        Or.inr rfl⟩
    have := h _ hmem
    have h2 := @offset_ge n 0 (32 * ((n + 32 - 1) / 32 - 1) + 31) hover
    simp only [Access.off] at this
    omega
  · rw [GemmTest.gt_dgemm_blocking_log] at ha
    simp only [List.nil_append] at ha
    obtain ⟨tj, htj, ti, hti, tk, htk, hmem⟩ := mem_origins_log.mp ha
    exact blockAccessesS_bounds (by omega) (by omega) (by omega) hmem
  · subst h50
    refine ⟨?_, ?_, by decide⟩
    · rw [GemmTestBlocking.dgemm_blocking_log]
      simp only [List.nil_append]
      refine mem_origins_log.mpr ⟨1, by decide, 1, by decide, 0, by decide, ?_⟩
      exact mem_blockAccesses.mpr ⟨63, by decide, 63, by decide, 0, by decide,
        Or.inr (Or.inr (Or.inr rfl))⟩
    · rw [GemmTest.gt_dgemm_blocking_log]
      simp only [List.nil_append]
      refine mem_origins_log.mpr ⟨1, by decide, 1, by decide, 0, by decide, ?_⟩
      exact mem_blockAccessesS.mpr ⟨63, by decide, 63, by decide, Or.inr rfl⟩

/-- Witness for C5 at `n = 50`. -/
theorem C5_blocking_in_bounds_iff_witness :
    (0 < 50) ∧
    (((∀ a, a ∈ (GemmTestBlocking.dgemm_blocking exA exB ⟨exA, []⟩ 50).log → a.off < 50 * 50) ↔
        32 ∣ 50) ∧
      ((∀ a, a ∈ (GemmTest.dgemm_blocking exA exB ⟨exA, []⟩ 50).log → a.off < 50 * 50) ↔
        32 ∣ 50) ∧
      (50 = 50 → Access.wr Arr.C (63 + 63 * 50) ∈
          (GemmTestBlocking.dgemm_blocking exA exB ⟨exA, []⟩ 50).log ∧
        Access.wr Arr.C (63 + 63 * 50) ∈ (GemmTest.dgemm_blocking exA exB ⟨exA, []⟩ 50).log ∧
        ¬ (63 + 63 * 50 < 50 * 50))) :=
  ⟨by decide, C5_blocking_in_bounds_iff exA exB exA 50 (by decide)⟩

end Gemm

/-! ## The scalar kernels of `gemm-test.c` -/

namespace GemmTest

open Gemm

theorem cij_loop {α : Type} [Add α] [Mul α] (A B : Nat → α) (n i j : Nat) (ks : List Nat)
    (c : SRun α) :
    (ks.foldl (fun (cij : SRun α) k =>
        ({ cij := cij.cij + A (i + k * n) * B (k + j * n),
           log := cij.log ++ [Access.rd Arr.A (i + k * n), Access.rd Arr.B (k + j * n)] } :
          SRun α)) c).cij =
      ks.foldl (fun a k => a + A (i + k * n) * B (k + j * n)) c.cij :=
  foldl_acc (fun c : SRun α => c.cij) _ (fun a k => a + A (i + k * n) * B (k + j * n)) ks
    (fun _ _ _ => rfl) c

/-- Every cell of the output of `dgemm_unopt` of `gemm-test.c` is the left fold from the value
the cell held on entry. -/
theorem gt_dgemm_unopt_fold {α : Type} [Add α] [Mul α] (A B : Nat → α) (C : Run α)
    (n i j : Nat) (hi : i < n) (hj : j < n) :
    (dgemm_unopt A B C n).C (i + j * n) = dotFrom A B n i j (C.C (i + j * n)) := by
  unfold dgemm_unopt
  simp only [forLoop_range]
  exact cell_nest_C n _ (fun i j a => dotFrom A B n i j a)
    (fun i j st q => by
      by_cases hq : q = i + j * n
      · subst hq
        simp only [write, if_true, cij_loop]
        rfl
      · simp only [write, if_neg hq]) i j hi hj C

theorem gt_dgemm_jki_fold {α : Type} [Add α] [Mul α] (A B : Nat → α) (C : Run α)
    (n i j : Nat) (hi : i < n) (hj : j < n) :
    (dgemm_jki A B C n).C (i + j * n) = dotFrom A B n i j (C.C (i + j * n)) := by
  unfold dgemm_jki
  simp only [forLoop_range]
  exact jki_nest_C A B n i j hi hj C

/-- C7, as the code has it. For every `n`, all `A`, `B` and every initial `C`, `dgemm_unopt` of
`gemm-test.c` leaves `C[i + j*n] = C0[i + j*n] + Σ_{k<n} A[i + k*n] * B[k + j*n]`, where `C0`
is the content of `C` on entry; where the cell is zero on entry this is the inner product. -/
theorem C7_dgemm_unopt_accumulates {α : Type} [Semiring α] (A B : Nat → α) (C : Run α) (n : Nat) :
    ∀ i j, i < n → j < n →
      (dgemm_unopt A B C n).C (i + j * n) =
        C.C (i + j * n) + ∑ k in Finset.range n, A (i + k * n) * B (k + j * n) ∧
      (C.C (i + j * n) = 0 →
        (dgemm_unopt A B C n).C (i + j * n) =
          ∑ k in Finset.range n, A (i + k * n) * B (k + j * n)) := by
  intro i j hi hj
  rw [gt_dgemm_unopt_fold A B C n i j hi hj, dotFrom_eq]
  exact ⟨rfl, fun h => by rw [h, zero_add]; rfl⟩

/-- Witness for C7 at `n = 2`, cell `(1, 0)`. -/
theorem C7_dgemm_unopt_accumulates_witness :
    ((1 : Nat) < 2 ∧ (0 : Nat) < 2) ∧
    ((dgemm_unopt exA exB (exC 7) 2).C (1 + 0 * 2) =
        (exC 7).C (1 + 0 * 2) + ∑ k in Finset.range 2, exA (1 + k * 2) * exB (k + 0 * 2) ∧
      ((exC 7).C (1 + 0 * 2) = 0 →
        (dgemm_unopt exA exB (exC 7) 2).C (1 + 0 * 2) =
          ∑ k in Finset.range 2, exA (1 + k * 2) * exB (k + 0 * 2))) :=
  ⟨⟨by decide, by decide⟩, C7_dgemm_unopt_accumulates exA exB (exC 7) 2 1 0 (by decide) (by decide)⟩

/-- Counterexample to C7 as stated: with `n = 1`, `A = B = 1` and `C = 5` on entry,
`dgemm_unopt` of `gemm-test.c` leaves `C[0] = 6`, while the inner product is `1`. -/
theorem C7_counterexample :
    (dgemm_unopt ones ones fives 1).C (0 + 0 * 1) = 6 ∧
    (∑ k in Finset.range 1, ones (0 + k * 1) * ones (k + 0 * 1)) = 1 ∧
    (dgemm_unopt ones ones fives 1).C (0 + 0 * 1) ≠
      ∑ k in Finset.range 1, ones (0 + k * 1) * ones (k + 0 * 1) := by
  refine ⟨by decide, by decide, by decide⟩

/-- C8, as the code has it. The loop-exchanged kernel `dgemm_jki` of `gemm-test.c` does not
zero `C`: for every `n`, `A`, `B` and initial `C` it leaves
`C[i + j*n] = C0[i + j*n] + Σ_{k<n} A[i + k*n] * B[k + j*n]`; where the cell is zero on entry
(as `int_mat` leaves it) this is the inner product. -/
theorem C8_dgemm_jki_accumulates {α : Type} [Semiring α] (A B : Nat → α) (C : Run α) (n : Nat) :
    ∀ i j, i < n → j < n →
      (dgemm_jki A B C n).C (i + j * n) =
        C.C (i + j * n) + ∑ k in Finset.range n, A (i + k * n) * B (k + j * n) ∧
      (C.C (i + j * n) = 0 →
        (dgemm_jki A B C n).C (i + j * n) =
          ∑ k in Finset.range n, A (i + k * n) * B (k + j * n)) := by
  intro i j hi hj
  rw [gt_dgemm_jki_fold A B C n i j hi hj, dotFrom_eq]
  exact ⟨rfl, fun h => by rw [h, zero_add]; rfl⟩

/-- Witness for C8 at `n = 2`, cell `(1, 1)`. -/
theorem C8_dgemm_jki_accumulates_witness :
    ((1 : Nat) < 2 ∧ (1 : Nat) < 2) ∧
    ((dgemm_jki exA exB (exC 3) 2).C (1 + 1 * 2) =
        (exC 3).C (1 + 1 * 2) + ∑ k in Finset.range 2, exA (1 + k * 2) * exB (k + 1 * 2) ∧
      ((exC 3).C (1 + 1 * 2) = 0 →
        (dgemm_jki exA exB (exC 3) 2).C (1 + 1 * 2) =
          ∑ k in Finset.range 2, exA (1 + k * 2) * exB (k + 1 * 2))) :=
  ⟨⟨by decide, by decide⟩, C8_dgemm_jki_accumulates exA exB (exC 3) 2 1 1 (by decide) (by decide)⟩

/-- Counterexample to C8 as stated: with `n = 1`, `A = B = 1`, the output of `dgemm_jki` of
`gemm-test.c` depends on the content of `C` on entry: from `C = 5` it leaves `6`, from `C = 0`
it leaves `1`. -/
theorem C8_counterexample :
    (dgemm_jki ones ones fives 1).C (0 + 0 * 1) = 6 ∧
    (dgemm_jki ones ones ⟨fun _ => 0, []⟩ 1).C (0 + 0 * 1) = 1 ∧
    (dgemm_jki ones ones fives 1).C (0 + 0 * 1) ≠
      ∑ k in Finset.range 1, ones (0 + k * 1) * ones (k + 0 * 1) := by
  refine ⟨by decide, by decide, by decide⟩

end GemmTest

/-! ## The vectorised kernel -/

namespace Gemm

theorem store_at {α : Type} (M : Nat → α) (o : Nat) (v : Vec4 α) (q : Nat) :
    mm256_store_pd M o v q =
      if q = o + 3 then v 3 else if q = o + 2 then v 2 else if q = o + 1 then v 1
      else if q = o then v 0 else M q := rfl

/-- Lane `l` of the vector reduction over `k` is the scalar reduction of row `i + l`. -/
theorem lane_loop {α : Type} [Add α] [Mul α] (A B : Nat → α) (n i j : Nat) (ks : List Nat)
    (c : VRun α) (l : Fin 4) :
    (ks.foldl (fun (c0 : VRun α) k =>
        ({ c0 := mm256_add_pd c0.c0
            (mm256_mul_pd (mm256_load_pd A (i + k * n)) (mm256_broadcast_sd B (k + j * n))),
           log := c0.log ++ vecAccess false Arr.A (i + k * n) ++ [Access.rd Arr.B (k + j * n)] } :
          VRun α)) c).c0 l =
      ks.foldl (fun a k => a + A (i + k * n + l.val) * B (k + j * n)) (c.c0 l) :=
  foldl_acc (fun c : VRun α => c.c0 l) _
    (fun a k => a + A (i + k * n + l.val) * B (k + j * n)) ks (fun _ _ _ => rfl) c

theorem lane_fold_eq {α : Type} [Add α] [Mul α] (A B : Nat → α) (n i j l : Nat) (a : α) :
    (List.range n).foldl (fun a k => a + A (i + k * n + l) * B (k + j * n)) a =
      dotFrom A B n (i + l) j a := by
  unfold dotFrom
  congr 1
  funext a k
  have : i + k * n + l = i + l + k * n := by omega
  rw [this]

end Gemm

namespace Gemm

theorem vecBody_C {α : Type} [Add α] [Mul α] (A B : Nat → α) (n i j i0 j0 : Nat)
    (hi : i + 4 ≤ n) (hi0 : i0 < n) (st : Run α) :
    (vecBody A B n i j st).C (i0 + j0 * n) =
      if j = j0 ∧ i ≤ i0 ∧ i0 < i + 4 then dotFrom A B n i0 j0 (st.C (i0 + j0 * n))
      else st.C (i0 + j0 * n) := by
  unfold vecBody
  simp only [store_at, lane_loop, mm256_load_pd]
  by_cases hin : j = j0 ∧ i ≤ i0 ∧ i0 < i + 4
  · rw [if_pos hin]
    obtain ⟨rfl, h1, h2⟩ := hin
    have hc : i0 = i ∨ i0 = i + 1 ∨ i0 = i + 2 ∨ i0 = i + 3 := by omega
    rcases hc with rfl | rfl | rfl | rfl
    · have e3 : ¬ (i0 + j * n = i0 + j * n + 3) := by omega
      have e2 : ¬ (i0 + j * n = i0 + j * n + 2) := by omega
      have e1 : ¬ (i0 + j * n = i0 + j * n + 1) := by omega
      rw [if_neg e3, if_neg e2, if_neg e1, if_pos rfl]
      exact lane_fold_eq A B n i0 j 0 _
    · have e0 : i + 1 + j * n = i + j * n + 1 := by omega
      have e3 : ¬ (i + j * n + 1 = i + j * n + 3) := by omega
      have e2 : ¬ (i + j * n + 1 = i + j * n + 2) := by omega
      rw [e0, if_neg e3, if_neg e2, if_pos rfl]
      exact lane_fold_eq A B n i j 1 _
    · have e0 : i + 2 + j * n = i + j * n + 2 := by omega
      have e3 : ¬ (i + j * n + 2 = i + j * n + 3) := by omega
      rw [e0, if_neg e3, if_pos rfl]
      exact lane_fold_eq A B n i j 2 _
    · have e0 : i + 3 + j * n = i + j * n + 3 := by omega
      rw [e0, if_pos rfl]
      exact lane_fold_eq A B n i j 3 _
  · rw [if_neg hin]
    have hne : ∀ l, l < 4 → ¬ (i0 + j0 * n = i + j * n + l) := by
      intro l hl h
      have h2 : i0 + j0 * n = (i + l) + j * n := by omega
      have h3 := offset_inj hi0 (by omega : i + l < n) h2
      exact hin ⟨h3.2.symm, by omega, by omega⟩
    rw [if_neg (hne 3 (by decide)), if_neg (hne 2 (by decide)), if_neg (hne 1 (by decide)),
      if_neg (fun h => hne 0 (by decide) (by omega))]

theorem vecBody_frame {α : Type} [Add α] [Mul α] (A B : Nat → α) (n i j q : Nat)
    (hi : i + 4 ≤ n) (hj : j < n) (hq : n * n ≤ q) (st : Run α) :
    (vecBody A B n i j st).C q = st.C q := by
  unfold vecBody
  simp only [store_at]
  have hne : ∀ l, l < 4 → ¬ (q = i + j * n + l) := by
    intro l hl h
    have := @offset_lt n (i + l) j (by omega) hj
    omega
  rw [if_neg (hne 3 (by decide)), if_neg (hne 2 (by decide)), if_neg (hne 1 (by decide)),
    if_neg (fun h => hne 0 (by decide) (by omega))]

theorem vecAccess_off {w : Bool} {r : Arr} {o : Nat} {a : Access} (ha : a ∈ vecAccess w r o) :
    o ≤ a.off ∧ a.off < o + 4 := by
  unfold vecAccess at ha
  cases w
  · simp only [Bool.false_eq_true, if_false, List.mem_cons, List.mem_singleton,
      List.not_mem_nil, or_false] at ha
    rcases ha with rfl | rfl | rfl | rfl <;> simp [Access.off]
  · simp only [if_true, List.mem_cons, List.mem_singleton, List.not_mem_nil, or_false] at ha
    rcases ha with rfl | rfl | rfl | rfl <;> simp [Access.off]

/-- The accesses of the body of the vectorised kernel: four-wide loads of `C` and `A`, scalar
reads of `B`, and a four-wide store to `C`, all within `[0, n*n)` when `i + 4 ≤ n`. -/
theorem vecBody_log {α : Type} [Add α] [Mul α] (A B : Nat → α) (n i j : Nat) (st : Run α) :
    (vecBody A B n i j st).log =
      st.log ++ (vecAccess false Arr.C (i + j * n) ++
        (List.range n).flatMap (fun k =>
          vecAccess false Arr.A (i + k * n) ++ [Access.rd Arr.B (k + j * n)]) ++
        vecAccess true Arr.C (i + j * n)) := by
  unfold vecBody
  dsimp only
  rw [foldl_log (fun c : VRun α => c.log) _
    (fun k => vecAccess false Arr.A (i + k * n) ++ [Access.rd Arr.B (k + j * n)]) _
    (fun k _ c => by simp)]
  simp

theorem vecBody_bounds {n i j : Nat} (hi : i + 4 ≤ n) (hj : j < n) {a : Access}
    (ha : a ∈ vecAccess false Arr.C (i + j * n) ++
        (List.range n).flatMap (fun k =>
          vecAccess false Arr.A (i + k * n) ++ [Access.rd Arr.B (k + j * n)]) ++
        vecAccess true Arr.C (i + j * n)) : a.off < n * n := by
  simp only [List.mem_append, List.mem_flatMap, List.mem_range, List.mem_singleton] at ha
  have hb : ∀ c, c < n → i + c * n + 4 ≤ n * n := by
    intro c hc
    have := @offset_lt n (i + 3) c (by omega) hc
    omega
  rcases ha with (h | ⟨k, hk, h | rfl⟩) | h
  · have := vecAccess_off h
    have := hb j hj
    omega
  · have := vecAccess_off h
    have := hb k hk
    omega
  · exact offset_lt hk hj
  · have := vecAccess_off h
    have := hb j hj
    omega

end Gemm

namespace Gemm

theorem mem_quads {m s : Nat} : s ∈ List.range' 0 m 4 ↔ ∃ t, t < m ∧ s = 4 * t := by
  rw [List.mem_range']
  constructor
  · rintro ⟨t, ht, rfl⟩; exact ⟨t, ht, by omega⟩
  · rintro ⟨t, ht, rfl⟩; exact ⟨t, ht, by omega⟩

/-- The nest of the vectorised kernel over row quadruples and columns, for `n = 4 * m`. -/
theorem vec_nest_C {α : Type} [Add α] [Mul α] (A B : Nat → α) (m i0 j0 : Nat)
    (hi0 : i0 < 4 * m) (hj0 : j0 < 4 * m) (st : Run α) :
    ((List.range' 0 m 4).foldl (fun C i => (List.range (4 * m)).foldl (fun C j =>
        vecBody A B (4 * m) i j C) C) st).C (i0 + j0 * (4 * m)) =
      dotFrom A B (4 * m) i0 j0 (st.C (i0 + j0 * (4 * m))) := by
  refine foldl_pick (fun s : Run α => s.C (i0 + j0 * (4 * m))) _ (dotFrom A B (4 * m) i0 j0)
    (4 * (i0 / 4)) _ (List.nodup_range' 0 m 4 (by decide))
    (mem_quads.mpr ⟨i0 / 4, by omega, rfl⟩) (fun s => ?_) (fun x hx hne s => ?_) st
  · refine foldl_pick (fun s : Run α => s.C (i0 + j0 * (4 * m))) _ (dotFrom A B (4 * m) i0 j0)
      j0 _ (List.nodup_range _) (List.mem_range.mpr hj0) (fun s => ?_) (fun y hy hne s => ?_) s
    · dsimp only
      rw [vecBody_C A B (4 * m) _ j0 i0 j0 (by omega) hi0, if_pos ⟨rfl, by omega, by omega⟩]
    · dsimp only
      rw [vecBody_C A B (4 * m) _ y i0 j0 (by omega) hi0, if_neg (fun h => hne h.1)]
  · obtain ⟨t, ht, rfl⟩ := mem_quads.mp hx
    refine foldl_keep (fun s : Run α => s.C (i0 + j0 * (4 * m))) _ _ (fun y hy s => ?_) s
    dsimp only
    rw [vecBody_C A B (4 * m) _ y i0 j0 (by omega) hi0,
      if_neg (fun h => hne (by omega))]

theorem vec_nest_frame {α : Type} [Add α] [Mul α] (A B : Nat → α) (m q : Nat)
    (hq : 4 * m * (4 * m) ≤ q) (st : Run α) :
    ((List.range' 0 m 4).foldl (fun C i => (List.range (4 * m)).foldl (fun C j =>
        vecBody A B (4 * m) i j C) C) st).C q = st.C q := by
  refine foldl_keep (fun s : Run α => s.C q) _ _ (fun x hx s => ?_) st
  obtain ⟨t, ht, rfl⟩ := mem_quads.mp hx
  refine foldl_keep (fun s : Run α => s.C q) _ _ (fun y hy s => ?_) s
  exact vecBody_frame A B (4 * m) _ y q (by omega) (List.mem_range.mp hy) hq s

theorem vec_nest_bounds {α : Type} [Add α] [Mul α] (A B : Nat → α) (m : Nat) (st : Run α)
    (a : Access)
    (ha : a ∈ ((List.range' 0 m 4).foldl (fun C i => (List.range (4 * m)).foldl (fun C j =>
        vecBody A B (4 * m) i j C) C) st).log) :
    a ∈ st.log ∨ a.off < 4 * m * (4 * m) := by
  rw [foldl_log (fun s : Run α => s.log) _
    (fun i => (List.range (4 * m)).flatMap (fun j =>
      vecAccess false Arr.C (i + j * (4 * m)) ++
        (List.range (4 * m)).flatMap (fun k =>
          vecAccess false Arr.A (i + k * (4 * m)) ++ [Access.rd Arr.B (k + j * (4 * m))]) ++
        vecAccess true Arr.C (i + j * (4 * m)))) _
    (fun i _ s => foldl_log (fun s : Run α => s.log) _ _ _
      (fun j _ s => vecBody_log A B (4 * m) i j s) s)] at ha
  rcases List.mem_append.mp ha with h | h
  · exact Or.inl h
  · right
    obtain ⟨i, hi, h2⟩ := List.mem_flatMap.mp h
    obtain ⟨j, hj, h3⟩ := List.mem_flatMap.mp h2
    obtain ⟨t, ht, rfl⟩ := mem_quads.mp hi
    exact vecBody_bounds (by omega) (List.mem_range.mp hj) h3

theorem quad_count (m : Nat) : (4 * m + 4 - 1) / 4 = m := by omega

end Gemm

namespace GemmTestBlocking

open Gemm

theorem dgemm_AVX2_eq {α : Type} [Add α] [Mul α] (A B : Nat → α) (C : Run α) (m : Nat) :
    dgemm_AVX2 A B C (4 * m) =
      (List.range' 0 m 4).foldl (fun C i => (List.range (4 * m)).foldl (fun C j =>
        vecBody A B (4 * m) i j C) C) C := by
  unfold dgemm_AVX2
  simp only [forLoop_stride _ 4 (by decide), forLoop_range, quad_count]
  rfl

end GemmTestBlocking

namespace GemmTest

open Gemm

/-- The double-precision branch of `dgemm_AVX2` has the same loop nest in both files. -/
theorem dgemm_AVX2_same {α : Type} [Add α] [Mul α] (A B : Nat → α) (C : Run α) (n : Nat) :
    dgemm_AVX2 A B C n = GemmTestBlocking.dgemm_AVX2 A B C n := rfl

/-- C6. Modelling a 256-bit register as four lanes holding rows `i .. i+3`: for every `n` that
is a multiple of 4 and all `A`, `B`, `C0`, `dgemm_AVX2` (either file) leaves
`C[i + j*n] = C0[i + j*n] + Σ_{k<n} A[i + k*n] * B[k + j*n]` for all `i, j < n`, every access
of its four-wide loads and stores lies in `[0, n*n)`, and on a `C` that is zero on `[0, n*n)`
its output equals that of the reference kernel `dgemm_unopt`. -/
theorem C6_dgemm_AVX2_contract {α : Type} [Semiring α] (A B : Nat → α) (C : Run α) (n : Nat)
    (h4 : 4 ∣ n) :
    (∀ i j, i < n → j < n →
      (dgemm_AVX2 A B C n).C (i + j * n) =
        C.C (i + j * n) + ∑ k in Finset.range n, A (i + k * n) * B (k + j * n) ∧
      (GemmTestBlocking.dgemm_AVX2 A B C n).C (i + j * n) =
        C.C (i + j * n) + ∑ k in Finset.range n, A (i + k * n) * B (k + j * n)) ∧
    (∀ a, a ∈ (dgemm_AVX2 A B C n).log → a ∈ C.log ∨ a.off < n * n) ∧
    (∀ a, a ∈ (GemmTestBlocking.dgemm_AVX2 A B C n).log → a ∈ C.log ∨ a.off < n * n) ∧
    ((∀ q, q < n * n → C.C q = 0) →
      (dgemm_AVX2 A B C n).C = (dgemm_unopt A B C n).C ∧
      (GemmTestBlocking.dgemm_AVX2 A B C n).C = (GemmTestBlocking.dgemm_unopt A B C n).C) := by
  obtain ⟨m, rfl⟩ := h4
  have hcell : ∀ i j, i < 4 * m → j < 4 * m →
      (GemmTestBlocking.dgemm_AVX2 A B C (4 * m)).C (i + j * (4 * m)) =
        dotFrom A B (4 * m) i j (C.C (i + j * (4 * m))) := by
    intro i j hi hj
    rw [GemmTestBlocking.dgemm_AVX2_eq]
    exact vec_nest_C A B m i j hi hj C
  have hframe : ∀ q, 4 * m * (4 * m) ≤ q →
      (GemmTestBlocking.dgemm_AVX2 A B C (4 * m)).C q = C.C q := by
    intro q hq
    rw [GemmTestBlocking.dgemm_AVX2_eq]
    exact vec_nest_frame A B m q hq C
  have hlog : ∀ a, a ∈ (GemmTestBlocking.dgemm_AVX2 A B C (4 * m)).log →
      a ∈ C.log ∨ a.off < 4 * m * (4 * m) := by
    intro a ha
    rw [GemmTestBlocking.dgemm_AVX2_eq] at ha
    exact vec_nest_bounds A B m C a ha
  rw [dgemm_AVX2_same]
  refine ⟨fun i j hi hj => ?_, hlog, hlog, fun hz => ⟨?_, ?_⟩⟩
  · rw [hcell i j hi hj, dotFrom_eq]
    exact ⟨rfl, rfl⟩
  · refine GemmTestBlocking.ext_of_cells (4 * m) _ _ (fun i j hi hj => ?_) (fun q hq => ?_)
    · rw [hcell i j hi hj, gt_dgemm_unopt_fold A B C _ i j hi hj]
    · rw [hframe q hq]
      unfold dgemm_unopt
      simp only [forLoop_range]
      exact (cell_nest_frame (4 * m) _ (fun i j a => dotFrom A B (4 * m) i j a)
        (fun i j st q => by
          by_cases hq : q = i + j * (4 * m)
          · subst hq
            simp only [write, if_true, cij_loop]
            rfl
          · simp only [write, if_neg hq]) q hq C).symm
  · refine GemmTestBlocking.ext_of_cells (4 * m) _ _ (fun i j hi hj => ?_) (fun q hq => ?_)
    · rw [hcell i j hi hj, GemmTestBlocking.dgemm_unopt_fold A B C _ i j hi hj,
        hz _ (offset_lt hi hj)]
    · rw [hframe q hq, GemmTestBlocking.dgemm_unopt_frame A B C _ q hq]

/-- Witness for C6 at `n = 8`. -/
theorem C6_dgemm_AVX2_contract_witness :
    (4 ∣ 8) ∧
    ((∀ i j, i < 8 → j < 8 →
      (dgemm_AVX2 exA exB (exC 2) 8).C (i + j * 8) =
        (exC 2).C (i + j * 8) + ∑ k in Finset.range 8, exA (i + k * 8) * exB (k + j * 8) ∧
      (GemmTestBlocking.dgemm_AVX2 exA exB (exC 2) 8).C (i + j * 8) =
        (exC 2).C (i + j * 8) + ∑ k in Finset.range 8, exA (i + k * 8) * exB (k + j * 8)) ∧
    (∀ a, a ∈ (dgemm_AVX2 exA exB (exC 2) 8).log → a ∈ (exC 2).log ∨ a.off < 8 * 8) ∧
    (∀ a, a ∈ (GemmTestBlocking.dgemm_AVX2 exA exB (exC 2) 8).log →
      a ∈ (exC 2).log ∨ a.off < 8 * 8) ∧
    ((∀ q, q < 8 * 8 → (exC 2).C q = 0) →
      (dgemm_AVX2 exA exB (exC 2) 8).C = (dgemm_unopt exA exB (exC 2) 8).C ∧
      (GemmTestBlocking.dgemm_AVX2 exA exB (exC 2) 8).C =
        (GemmTestBlocking.dgemm_unopt exA exB (exC 2) 8).C)) :=
  ⟨⟨2, rfl⟩, C6_dgemm_AVX2_contract exA exB (exC 2) 8 ⟨2, rfl⟩⟩

end GemmTest

/-! ## Initialisation -/

namespace Gemm

/-- Invariant rule for a counted loop. -/
theorem foldl_range_inv {σ : Type} (P : Nat → σ → Prop) (body : σ → Nat → σ) (n : Nat) (s : σ)
    (h0 : P 0 s) (hstep : ∀ i, i < n → ∀ s, P i s → P (i + 1) (body s i)) :
    P n ((List.range n).foldl body s) := by
  induction n with
  | zero => simpa using h0
  | succ n ih =>
    rw [List.range_succ, List.foldl_append]
    exact hstep n (Nat.lt_succ_self n) _
      (ih (fun i hi s hs => hstep i (Nat.lt_succ_of_lt hi) s hs))

end Gemm

namespace Gemm

theorem Filled_write {α : Type} {M M0 val : Nat → α} {W W2 : Nat → Prop} {o : Nat} {v : α}
    (h : Filled M M0 val W) (hv : val o = v) (hW : ∀ q, W2 q ↔ (W q ∨ q = o)) :
    Filled (write M o v) M0 val W2 := by
  intro q
  by_cases hq : q = o
  · subst hq
    refine ⟨fun _ => ?_, fun hn => absurd ((hW q).mpr (Or.inr rfl)) hn⟩
    simp [write, hv]
  · constructor
    · intro hw
      rcases (hW q).mp hw with h1 | h1
      · simp [write, hq, (h q).1 h1]
      · exact absurd h1 hq
    · intro hn
      have : ¬ W q := fun h1 => hn ((hW q).mpr (Or.inl h1))
      simp [write, hq, (h q).2 this]

theorem Filled_congr {α : Type} {M M0 val : Nat → α} {W W2 : Nat → Prop}
    (h : Filled M M0 val W) (hW : ∀ q, W2 q ↔ W q) : Filled M M0 val W2 := by
  intro q
  exact ⟨fun hw => (h q).1 ((hW q).mp hw), fun hn => (h q).2 (fun h1 => hn ((hW q).mpr h1))⟩

theorem drawState_two {G : Type} (R : Rng G) (t : Nat) :
    (R.rand (R.rand (drawState R t)).2).2 = drawState R (t + 2) := rfl

theorem split_offset {N i j : Nat} (hi : i < N) : (i + j * N) % N = i ∧ (i + j * N) / N = j := by
  have hN : 0 < N := by omega
  constructor
  · rw [Nat.add_mul_mod_self_right, Nat.mod_eq_of_lt hi]
  · rw [Nat.add_mul_div_right _ _ hN, Nat.div_eq_of_lt hi, Nat.zero_add]

theorem offset_iff {N i j q : Nat} (hi : i < N) : q = i + j * N ↔ (q % N = i ∧ q / N = j) := by
  constructor
  · rintro rfl
    exact split_offset hi
  · rintro ⟨h1, h2⟩
    have := Nat.mod_add_div q N
    rw [h1, h2, Nat.mul_comm] at this
    exact this.symm

end Gemm

namespace GemmTestBlocking

open Gemm

/-- What `int_mat` leaves: the generator has made `2*N*N` draws since `srand(1)`; on `[0, N*N)`
the arrays hold the values determined by the draws and zero; elsewhere they are as on entry. -/
theorem int_mat_spec {α G : Type} [Zero α] [NatCast α] [Div α] (R : Rng G) (A B C : Nat → α)
    (g : G) (N : Nat) :
    (int_mat R A B C g N).g = drawState R (2 * (N * N)) ∧
    Filled (int_mat R A B C g N).A A (fun q => cellA R N (q % N) (q / N)) (fun q => q < N * N) ∧
    Filled (int_mat R A B C g N).B B (fun q => cellB R N (q % N) (q / N)) (fun q => q < N * N) ∧
    Filled (int_mat R A B C g N).C C (fun _ => 0) (fun q => q < N * N) := by
  unfold int_mat
  simp only [forLoop_range]
  have hW : ∀ i j q, i < N → j < N →
      ((q < N * N ∧ (q % N < i ∨ (q % N = i ∧ q / N < j + 1))) ↔
        ((q < N * N ∧ (q % N < i ∨ (q % N = i ∧ q / N < j))) ∨ q = i + j * N)) := by
    intro i j q hi hj
    rw [offset_iff hi]
    constructor
    · rintro ⟨h1, h2 | ⟨h2, h3⟩⟩
      · exact Or.inl ⟨h1, Or.inl h2⟩
      · by_cases h4 : q / N = j
        · exact Or.inr ⟨h2, h4⟩
        · exact Or.inl ⟨h1, Or.inr ⟨h2, by omega⟩⟩
    · rintro (⟨h1, h2 | ⟨h2, h3⟩⟩ | ⟨h2, h3⟩)
      · exact ⟨h1, Or.inl h2⟩
      · exact ⟨h1, Or.inr ⟨h2, by omega⟩⟩
      · refine ⟨?_, Or.inr ⟨h2, by omega⟩⟩
        have h5 := (offset_iff hi).mpr ⟨h2, h3⟩
        rw [h5]
        exact offset_lt hi hj
  have key := foldl_range_inv
    (fun i (s : Init α G) => s.g = drawState R (2 * (i * N)) ∧
      Filled s.A A (fun q => cellA R N (q % N) (q / N)) (fun q => q < N * N ∧ q % N < i) ∧
      Filled s.B B (fun q => cellB R N (q % N) (q / N)) (fun q => q < N * N ∧ q % N < i) ∧
      Filled s.C C (fun _ => 0) (fun q => q < N * N ∧ q % N < i))
    (fun (s : Init α G) i => (List.range N).foldl (fun (s : Init α G) j =>
      ({ A := write s.A (i + j * N) (((R.rand s.g).1 : α) / ((10000 + i + j : Nat) : α)),
         B := write s.B (i + j * N)
          (((R.rand (R.rand s.g).2).1 : α) / ((10000 + i + j : Nat) : α)),
         C := write s.C (i + j * N) 0,
         g := (R.rand (R.rand s.g).2).2,
         log := s.log ++ [Access.wr Arr.A (i + j * N), Access.wr Arr.B (i + j * N),
           Access.wr Arr.C (i + j * N)] } : Init α G)) s)
    N ({ A := A, B := B, C := C, g := R.srand 1, log := [] } : Init α G)
    ⟨by simp [drawState], fun q => ⟨fun h => by omega, fun _ => rfl⟩,
      fun q => ⟨fun h => by omega, fun _ => rfl⟩, fun q => ⟨fun h => by omega, fun _ => rfl⟩⟩
    (fun i hi s hs => by
      have inner := foldl_range_inv
        (fun j (s : Init α G) => s.g = drawState R (2 * (i * N + j)) ∧
          Filled s.A A (fun q => cellA R N (q % N) (q / N))
            (fun q => q < N * N ∧ (q % N < i ∨ (q % N = i ∧ q / N < j))) ∧
          Filled s.B B (fun q => cellB R N (q % N) (q / N))
            (fun q => q < N * N ∧ (q % N < i ∨ (q % N = i ∧ q / N < j))) ∧
          Filled s.C C (fun _ => 0)
            (fun q => q < N * N ∧ (q % N < i ∨ (q % N = i ∧ q / N < j))))
        (fun (s : Init α G) j =>
          ({ A := write s.A (i + j * N) (((R.rand s.g).1 : α) / ((10000 + i + j : Nat) : α)),
             B := write s.B (i + j * N)
              (((R.rand (R.rand s.g).2).1 : α) / ((10000 + i + j : Nat) : α)),
             C := write s.C (i + j * N) 0,
             g := (R.rand (R.rand s.g).2).2,
             log := s.log ++ [Access.wr Arr.A (i + j * N), Access.wr Arr.B (i + j * N),
               Access.wr Arr.C (i + j * N)] } : Init α G))
        N s
        ⟨by simpa using hs.1,
          Filled_congr hs.2.1 (fun q => by simp),
          Filled_congr hs.2.2.1 (fun q => by simp),
          Filled_congr hs.2.2.2 (fun q => by simp)⟩
        (fun j hj s hs => by
          obtain ⟨h1, h2, h3, h4⟩ := hs
          have e := split_offset (j := j) hi
          refine ⟨?_, Filled_write h2 ?_ (fun q => hW i j q hi hj),
            Filled_write h3 ?_ (fun q => hW i j q hi hj),
            Filled_write h4 rfl (fun q => hW i j q hi hj)⟩
          · show (R.rand (R.rand s.g).2).2 = _
            rw [h1, drawState_two]
            congr 1
          · show cellA R N ((i + j * N) % N) ((i + j * N) / N) = _
            rw [e.1, e.2, h1]
            rfl
          · show cellB R N ((i + j * N) % N) ((i + j * N) / N) = _
            rw [e.1, e.2, h1]
            rfl)
      obtain ⟨h1, h2, h3, h4⟩ := inner
      have hN : ∀ q, q < N * N → q / N < N := fun q hq => (offset_split hq).2.1
      have hW2 : ∀ q, (q < N * N ∧ q % N < i + 1) ↔
          (q < N * N ∧ (q % N < i ∨ (q % N = i ∧ q / N < N))) := by
        intro q
        constructor
        · rintro ⟨a, b⟩
          have := hN q a
          refine ⟨a, ?_⟩
          by_cases hlt : q % N < i
          · exact Or.inl hlt
          · exact Or.inr ⟨by omega, this⟩
        · rintro ⟨a, b | ⟨b, _⟩⟩
          · exact ⟨a, by omega⟩
          · exact ⟨a, by omega⟩
      refine ⟨?_, Filled_congr h2 hW2, Filled_congr h3 hW2, Filled_congr h4 hW2⟩
      rw [h1]
      congr 1
      rw [Nat.add_mul]
      omega)
  obtain ⟨h1, h2, h3, h4⟩ := key
  have hW3 : ∀ q, q < N * N ↔ (q < N * N ∧ q % N < N) := by
    intro q
    constructor
    · intro h
      exact ⟨h, (offset_split h).1⟩
    · exact fun h => h.1
  exact ⟨h1, Filled_congr h2 hW3, Filled_congr h3 hW3, Filled_congr h4 hW3⟩

end GemmTestBlocking

namespace GemmTest

open Gemm

/-- The routine `int_mat` has the same text in both files. -/
theorem int_mat_same {α G : Type} [Zero α] [NatCast α] [Div α] (R : Rng G) (A B C : Nat → α)
    (g : G) (N : Nat) : int_mat R A B C g N = GemmTestBlocking.int_mat R A B C g N := rfl

end GemmTest

namespace GemmTestBlocking

open Gemm

/-- The writes of `int_mat`, in order. -/
theorem int_mat_log {α G : Type} [Zero α] [NatCast α] [Div α] (R : Rng G) (A B C : Nat → α)
    (g : G) (N : Nat) :
    (int_mat R A B C g N).log =
      (List.range N).flatMap (fun i => (List.range N).flatMap (fun j =>
        [Access.wr Arr.A (i + j * N), Access.wr Arr.B (i + j * N), Access.wr Arr.C (i + j * N)])) := by
  unfold int_mat
  simp only [forLoop_range]
  rw [foldl_log (fun s : Init α G => s.log) _
    (fun i => (List.range N).flatMap (fun j =>
      [Access.wr Arr.A (i + j * N), Access.wr Arr.B (i + j * N), Access.wr Arr.C (i + j * N)])) _
    (fun i _ s => foldl_log (fun s : Init α G => s.log) _
      (fun j => [Access.wr Arr.A (i + j * N), Access.wr Arr.B (i + j * N),
        Access.wr Arr.C (i + j * N)]) _ (fun j _ s => rfl) s)]
  rfl

theorem int_mat_writes {α G : Type} [Zero α] [NatCast α] [Div α] (R : Rng G) (A B C : Nat → α)
    (g : G) (N q : Nat) (hq : q < N * N) :
    Access.wr Arr.A q ∈ (int_mat R A B C g N).log ∧ Access.wr Arr.B q ∈ (int_mat R A B C g N).log ∧
      Access.wr Arr.C q ∈ (int_mat R A B C g N).log := by
  rw [int_mat_log]
  obtain ⟨h1, h2, h3⟩ := offset_split hq
  simp only [List.mem_flatMap, List.mem_range, List.mem_cons, List.mem_singleton,
    List.not_mem_nil, or_false]
  exact ⟨⟨q % N, h1, q / N, h2, Or.inl (by rw [← h3])⟩,
    ⟨q % N, h1, q / N, h2, Or.inr (Or.inl (by rw [← h3]))⟩,
    ⟨q % N, h1, q / N, h2, Or.inr (Or.inr (by rw [← h3]))⟩⟩

/-- C9. Treating `rand` as a deterministic generator reseeded by `srand(1)`: for every `N`, what
`int_mat(A, B, C, N)` leaves on `[0, N*N)` of the three arrays, and the generator state, do not
depend on the previous contents of `A`, `B`, `C` nor on the generator state before the call; it
writes every offset of `[0, N*N)` of all three arrays; and calling it a second time leaves the
same arrays and generator state as calling it once.  The routine is the same in both files. -/
theorem C9_int_mat_idempotent {α G : Type} [Zero α] [NatCast α] [Div α] (R : Rng G)
    (A B C A2 B2 C2 : Nat → α) (g g2 : G) (N : Nat) :
    ((int_mat R A B C g N).g = (int_mat R A2 B2 C2 g2 N).g ∧
      ∀ q, q < N * N →
        ((int_mat R A B C g N).A q = (int_mat R A2 B2 C2 g2 N).A q ∧
         (int_mat R A B C g N).B q = (int_mat R A2 B2 C2 g2 N).B q ∧
         (int_mat R A B C g N).C q = (int_mat R A2 B2 C2 g2 N).C q) ∧
        (Access.wr Arr.A q ∈ (int_mat R A B C g N).log ∧
         Access.wr Arr.B q ∈ (int_mat R A B C g N).log ∧
         Access.wr Arr.C q ∈ (int_mat R A B C g N).log)) ∧
    ((int_mat R (int_mat R A B C g N).A (int_mat R A B C g N).B (int_mat R A B C g N).C
        (int_mat R A B C g N).g N).A = (int_mat R A B C g N).A ∧
     (int_mat R (int_mat R A B C g N).A (int_mat R A B C g N).B (int_mat R A B C g N).C
        (int_mat R A B C g N).g N).B = (int_mat R A B C g N).B ∧
     (int_mat R (int_mat R A B C g N).A (int_mat R A B C g N).B (int_mat R A B C g N).C
        (int_mat R A B C g N).g N).C = (int_mat R A B C g N).C ∧
     (int_mat R (int_mat R A B C g N).A (int_mat R A B C g N).B (int_mat R A B C g N).C
        (int_mat R A B C g N).g N).g = (int_mat R A B C g N).g) ∧
    GemmTest.int_mat R A B C g N = int_mat R A B C g N := by
  obtain ⟨a1, a2, a3, a4⟩ := int_mat_spec R A B C g N
  obtain ⟨b1, b2, b3, b4⟩ := int_mat_spec R A2 B2 C2 g2 N
  obtain ⟨c1, c2, c3, c4⟩ := int_mat_spec R (int_mat R A B C g N).A (int_mat R A B C g N).B
    (int_mat R A B C g N).C (int_mat R A B C g N).g N
  refine ⟨⟨by rw [a1, b1], fun q hq => ⟨⟨?_, ?_, ?_⟩, int_mat_writes R A B C g N q hq⟩⟩,
    ⟨?_, ?_, ?_, by rw [c1, a1]⟩, rfl⟩
  · rw [(a2 q).1 hq, (b2 q).1 hq]
  · rw [(a3 q).1 hq, (b3 q).1 hq]
  · rw [(a4 q).1 hq, (b4 q).1 hq]
  · funext q
    by_cases hq : q < N * N
    · rw [(c2 q).1 hq, (a2 q).1 hq]
    · rw [(c2 q).2 hq]
  · funext q
    by_cases hq : q < N * N
    · rw [(c3 q).1 hq, (a3 q).1 hq]
    · rw [(c3 q).2 hq]
  · funext q
    by_cases hq : q < N * N
    · rw [(c4 q).1 hq, (a4 q).1 hq]
    · rw [(c4 q).2 hq]

end GemmTestBlocking

/-! ## The driver loop -/

namespace Gemm

/-- The left fold of a cell reads `A` and `B` inside `[0, n*n)` only. -/
theorem dotFrom_congr {α : Type} [Add α] [Mul α] (A B A2 B2 : Nat → α) (n i j : Nat) (c : α)
    (hi : i < n) (hj : j < n) (hA : ∀ q, q < n * n → A q = A2 q)
    (hB : ∀ q, q < n * n → B q = B2 q) : dotFrom A B n i j c = dotFrom A2 B2 n i j c := by
  unfold dotFrom
  refine List.foldl_ext _ _ _ (fun a k hk => ?_)
  have hk2 := List.mem_range.mp hk
  rw [hA _ (offset_lt hi hk2), hB _ (offset_lt hk2 hj)]

end Gemm

namespace GemmTestBlocking

open Gemm

/-- Re-initialising leaves `A` as the first initialisation left it. -/
theorem int_mat_A_again {α G : Type} [Zero α] [NatCast α] [Div α] (R : Rng G)
    (A B C B2 C2 : Nat → α) (g g2 : G) (N : Nat) :
    (int_mat R (int_mat R A B C g N).A B2 C2 g2 N).A = (int_mat R A B C g N).A := by
  obtain ⟨_, a2, _, _⟩ := int_mat_spec R A B C g N
  obtain ⟨_, c2, _, _⟩ := int_mat_spec R (int_mat R A B C g N).A B2 C2 g2 N
  funext q
  by_cases hq : q < N * N
  · rw [(c2 q).1 hq, (a2 q).1 hq]
  · rw [(c2 q).2 hq]

theorem int_mat_B_again {α G : Type} [Zero α] [NatCast α] [Div α] (R : Rng G)
    (A B C A2 C2 : Nat → α) (g g2 : G) (N : Nat) :
    (int_mat R A2 (int_mat R A B C g N).B C2 g2 N).B = (int_mat R A B C g N).B := by
  obtain ⟨_, _, a3, _⟩ := int_mat_spec R A B C g N
  obtain ⟨_, _, c3, _⟩ := int_mat_spec R A2 (int_mat R A B C g N).B C2 g2 N
  funext q
  by_cases hq : q < N * N
  · rw [(c3 q).1 hq, (a3 q).1 hq]
  · rw [(c3 q).2 hq]

/-- Two initialisations agree on `[0, N*N)`. -/
theorem int_mat_agree {α G : Type} [Zero α] [NatCast α] [Div α] (R : Rng G)
    (A B C A2 B2 C2 : Nat → α) (g g2 : G) (N q : Nat) (hq : q < N * N) :
    (int_mat R A B C g N).A q = (int_mat R A2 B2 C2 g2 N).A q ∧
    (int_mat R A B C g N).B q = (int_mat R A2 B2 C2 g2 N).B q ∧
    (int_mat R A B C g N).C q = 0 := by
  obtain ⟨_, a2, a3, a4⟩ := int_mat_spec R A B C g N
  obtain ⟨_, b2, b3, _⟩ := int_mat_spec R A2 B2 C2 g2 N
  exact ⟨by rw [(a2 q).1 hq, (b2 q).1 hq], by rw [(a3 q).1 hq, (b3 q).1 hq], (a4 q).1 hq⟩

end GemmTestBlocking

/-! ## Accesses of a driver iteration -/

namespace Gemm

theorem inBounds_iff (n : Nat) (log : List Access) :
    inBounds n log = true ↔ ∀ a, a ∈ log → a.off < n * n := by
  unfold inBounds
  simp only [List.all_eq_true, decide_eq_true_eq]

/-- A loop whose every step keeps a property of the logged accesses keeps it. -/
theorem foldl_log_all {σ ι : Type} (lg : σ → List Access) (P : Access → Prop) (body : σ → ι → σ)
    (xs : List ι)
    (h : ∀ x ∈ xs, ∀ s, (∀ a, a ∈ lg s → P a) → ∀ a, a ∈ lg (body s x) → P a) :
    ∀ s, (∀ a, a ∈ lg s → P a) → ∀ a, a ∈ lg (xs.foldl body s) → P a := by
  induction xs with
  | nil => intro s hs; exact hs
  | cons x xs ih =>
    intro s hs
    simp only [List.foldl_cons]
    exact ih (fun y hy => h y (List.mem_cons_of_mem _ hy)) _ (h x (List.mem_cons_self _ _) s hs)

/-- The four accesses of `C[i + j*n] += A[i + k*n] * B[k + j*n]` are in bounds for indices
below `n`. -/
theorem addMul_bounds {α : Type} [Add α] [Mul α] (A B : Nat → α) {n i j k : Nat} (hi : i < n)
    (hj : j < n) (hk : k < n) (s : Run α) (hs : ∀ a, a ∈ s.log → a.off < n * n) :
    ∀ a, a ∈ (s.addMul A B (i + j * n) (i + k * n) (k + j * n)).log → a.off < n * n := by
  intro a ha
  simp only [addMul_log, List.mem_append, List.mem_cons, List.mem_singleton, List.not_mem_nil,
    or_false] at ha
  rcases ha with h1 | rfl | rfl | rfl | rfl
  · exact hs a h1
  · exact offset_lt hi hj
  · exact offset_lt hi hk
  · exact offset_lt hk hj
  · exact offset_lt hi hj

/-- The zeroing loop over `[0, n*n)` stays in bounds. -/
theorem zero_loop_bounds {α : Type} [Zero α] (n : Nat) (s : Run α)
    (hs : ∀ a, a ∈ s.log → a.off < n * n) :
    ∀ a, a ∈ ((List.range (n * n)).foldl (fun (C : Run α) i => C.assign i 0) s).log →
      a.off < n * n := by
  refine foldl_log_all (fun s : Run α => s.log) (fun a => a.off < n * n) _ _
    (fun i hi s hs a ha => ?_) s hs
  simp only [assign_log, List.mem_append, List.mem_singleton] at ha
  rcases ha with h1 | rfl
  · exact hs a h1
  · exact List.mem_range.mp hi

/-- The accumulation of a cell in the local `cij` stays in bounds for indices below `n`. -/
theorem cij_bounds {α : Type} [Add α] [Mul α] (A B : Nat → α) {n i j : Nat} (hi : i < n)
    (hj : j < n) (c : SRun α) (hc : ∀ a, a ∈ c.log → a.off < n * n) :
    ∀ a, a ∈ ((List.range n).foldl (fun (cij : SRun α) k =>
        ({ cij := cij.cij + A (i + k * n) * B (k + j * n),
           log := cij.log ++ [Access.rd Arr.A (i + k * n), Access.rd Arr.B (k + j * n)] } :
          SRun α)) c).log → a.off < n * n := by
  refine foldl_log_all (fun c : SRun α => c.log) (fun a => a.off < n * n) _ _
    (fun k hk c hc a ha => ?_) c hc
  simp only [List.mem_append, List.mem_cons, List.mem_singleton, List.not_mem_nil,
    or_false] at ha
  rcases ha with h1 | rfl | rfl
  · exact hc a h1
  · exact offset_lt hi (List.mem_range.mp hk)
  · exact offset_lt (List.mem_range.mp hk) hj

end Gemm

namespace GemmTestBlocking

open Gemm

/-- Every access of `dgemm_unopt` is in bounds, for every `n`. -/
theorem dgemm_unopt_bounds {α : Type} [Zero α] [Add α] [Mul α] (A B : Nat → α) (C : Run α)
    (n : Nat) (h : ∀ a, a ∈ C.log → a.off < n * n) :
    ∀ a, a ∈ (dgemm_unopt A B C n).log → a.off < n * n := by
  unfold dgemm_unopt
  simp only [forLoop_range]
  refine foldl_log_all (fun s : Run α => s.log) (fun a => a.off < n * n) _ _
    (fun i hi s hs => ?_) C h
  refine foldl_log_all (fun s : Run α => s.log) (fun a => a.off < n * n) _ _
    (fun j hj s hs => ?_) s hs
  have hi2 := List.mem_range.mp hi
  have hj2 := List.mem_range.mp hj
  refine foldl_log_all (fun s : Run α => s.log) (fun a => a.off < n * n) _ _
    (fun k hk s hs => addMul_bounds A B hi2 hj2 (List.mem_range.mp hk) s hs) _ ?_
  intro a ha
  simp only [assign_log, List.mem_append, List.mem_singleton] at ha
  rcases ha with h1 | rfl
  · exact hs a h1
  · exact offset_lt hi2 hj2

/-- Every access of `dgemm_jki` is in bounds, for every `n`. -/
theorem dgemm_jki_bounds {α : Type} [Zero α] [Add α] [Mul α] (A B : Nat → α) (C : Run α)
    (n : Nat) (h : ∀ a, a ∈ C.log → a.off < n * n) :
    ∀ a, a ∈ (dgemm_jki A B C n).log → a.off < n * n := by
  unfold dgemm_jki
  simp only [forLoop_range]
  refine foldl_log_all (fun s : Run α => s.log) (fun a => a.off < n * n) _ _
    (fun j hj s hs => ?_) _ (zero_loop_bounds n C h)
  refine foldl_log_all (fun s : Run α => s.log) (fun a => a.off < n * n) _ _
    (fun k hk s hs => ?_) s hs
  exact foldl_log_all (fun s : Run α => s.log) (fun a => a.off < n * n) _ _
    (fun i hi s hs => addMul_bounds A B (List.mem_range.mp hi) (List.mem_range.mp hj)
      (List.mem_range.mp hk) s hs) s hs

/-- With `n` a multiple of 32 every access of `dgemm_blocking` is in bounds. -/
theorem dgemm_blocking_bounds {α : Type} [Add α] [Mul α] (A B C0 : Nat → α) (n : Nat)
    (hn : 32 ∣ n) : ∀ a, a ∈ (dgemm_blocking A B ⟨C0, []⟩ n).log → a.off < n * n := by
  intro a ha
  rw [dgemm_blocking_log] at ha
  simp only [List.nil_append] at ha
  obtain ⟨tj, htj, ti, hti, tk, htk, hmem⟩ := mem_origins_log.mp ha
  exact blockAccesses_bounds (by omega) (by omega) (by omega) hmem

/-- With `n > 0` not a multiple of 32, `dgemm_blocking` writes `C` at an offset `≥ n*n`. -/
theorem dgemm_blocking_escapes {α : Type} [Add α] [Mul α] (A B C0 : Nat → α) (n : Nat)
    (hn : 0 < n) (hnd : ¬ 32 ∣ n) :
    ∃ a, a ∈ (dgemm_blocking A B ⟨C0, []⟩ n).log ∧ n * n ≤ a.off := by
  have hcnt : 0 < (n + 32 - 1) / 32 := by omega
  have hover : n ≤ 32 * ((n + 32 - 1) / 32 - 1) + 31 := by omega
  refine ⟨Access.wr Arr.C (0 + (32 * ((n + 32 - 1) / 32 - 1) + 31) * n), ?_, offset_ge hover⟩
  rw [dgemm_blocking_log]
  simp only [List.nil_append]
  refine mem_origins_log.mpr ⟨(n + 32 - 1) / 32 - 1, by omega, 0, hcnt, 0, hcnt, ?_⟩
  exact mem_blockAccesses.mpr ⟨0, by omega, 32 * ((n + 32 - 1) / 32 - 1) + 31, by omega, 0,
    by omega, Or.inr (Or.inr (Or.inr rfl))⟩

/-- Every write of `int_mat` is in bounds. -/
theorem int_mat_bounds {α G : Type} [Zero α] [NatCast α] [Div α] (R : Rng G) (A B C : Nat → α)
    (g : G) (N : Nat) : ∀ a, a ∈ (int_mat R A B C g N).log → a.off < N * N := by
  intro a ha
  rw [int_mat_log] at ha
  simp only [List.mem_flatMap, List.mem_range, List.mem_cons, List.mem_singleton,
    List.not_mem_nil, or_false] at ha
  obtain ⟨i, hi, j, hj, rfl | rfl | rfl⟩ := ha <;> exact offset_lt hi hj

/-- Every read of `check_mat` is in bounds, for every `N`. -/
theorem check_mat_bounds {β : Type} [LinearOrderedField β] (C Cu : Nat → β) (N : Nat) :
    ∀ a, a ∈ (check_mat C Cu N).log → a.off < N * N := by
  unfold check_mat
  simp only [forLoop_range]
  refine foldl_log_all (fun s : Check => s.log) (fun a => a.off < N * N) _ _
    (fun n hn s hs => ?_) _ (fun a h => absurd h (List.not_mem_nil a))
  refine foldl_log_all (fun s : Check => s.log) (fun a => a.off < N * N) _ _
    (fun m hm s hs a ha => ?_) s hs
  have hb : n + N * m < N * N := by
    have h := offset_lt (List.mem_range.mp hn) (List.mem_range.mp hm)
    rwa [Nat.mul_comm m N] at h
  have hlog : a ∈ s.log ++ [Access.rd Arr.C (n + N * m), Access.rd Arr.C_unopt (n + N * m)] := by
    dsimp only at ha
    split at ha <;> exact ha
  simp only [List.mem_append, List.mem_cons, List.mem_singleton, List.not_mem_nil,
    or_false] at hlog
  rcases hlog with h1 | rfl | rfl
  · exact hs a h1
  · exact hb
  · exact hb

/-- An iteration of the driver loop of `gemm-test-blocking.c` stays inside the allocations
exactly when `N` is a multiple of 32 (or zero). -/
theorem main_iteration_defined {α G : Type} [Zero α] [Add α] [Mul α] [NatCast α] [Div α]
    (R : Rng G) (d : Driver α G) (N : Nat) :
    (32 ∣ N → (main_iteration R d N).2.defined = true) ∧
    (0 < N → (main_iteration R d N).2.defined = true → 32 ∣ N) := by
  unfold main_iteration
  dsimp only
  rw [inBounds_iff]
  refine ⟨fun hN a ha => ?_, fun hpos h => ?_⟩
  · simp only [List.mem_append] at ha
    rcases ha with ((((h | h) | h) | h) | h) | h
    · exact int_mat_bounds _ _ _ _ _ _ a h
    · exact dgemm_unopt_bounds _ _ _ _ (fun a h => absurd h (List.not_mem_nil a)) a h
    · exact int_mat_bounds _ _ _ _ _ _ a h
    · exact dgemm_jki_bounds _ _ _ _ (fun a h => absurd h (List.not_mem_nil a)) a h
    · exact int_mat_bounds _ _ _ _ _ _ a h
    · exact dgemm_blocking_bounds _ _ _ _ hN a h
  · by_contra hnd
    obtain ⟨a, ha, hge⟩ := dgemm_blocking_escapes
      (int_mat R (int_mat R (int_mat R d.A d.B d.C_unopt d.g N).A
        (int_mat R d.A d.B d.C_unopt d.g N).B
        (dgemm_unopt (int_mat R d.A d.B d.C_unopt d.g N).A (int_mat R d.A d.B d.C_unopt d.g N).B
          ⟨(int_mat R d.A d.B d.C_unopt d.g N).C, []⟩ N).C
        (int_mat R d.A d.B d.C_unopt d.g N).g N).A
        (int_mat R (int_mat R d.A d.B d.C_unopt d.g N).A
        (int_mat R d.A d.B d.C_unopt d.g N).B
        (dgemm_unopt (int_mat R d.A d.B d.C_unopt d.g N).A (int_mat R d.A d.B d.C_unopt d.g N).B
          ⟨(int_mat R d.A d.B d.C_unopt d.g N).C, []⟩ N).C
        (int_mat R d.A d.B d.C_unopt d.g N).g N).B d.C
        (int_mat R (int_mat R d.A d.B d.C_unopt d.g N).A
        (int_mat R d.A d.B d.C_unopt d.g N).B
        (dgemm_unopt (int_mat R d.A d.B d.C_unopt d.g N).A (int_mat R d.A d.B d.C_unopt d.g N).B
          ⟨(int_mat R d.A d.B d.C_unopt d.g N).C, []⟩ N).C
        (int_mat R d.A d.B d.C_unopt d.g N).g N).g N).A _ _ N hpos hnd
    have := h a (List.mem_append_right _ ha)
    omega

end GemmTestBlocking

namespace GemmTest

open Gemm

/-- Every access of `dgemm_unopt` of `gemm-test.c` is in bounds, for every `n`. -/
theorem gt_dgemm_unopt_bounds {α : Type} [Add α] [Mul α] (A B : Nat → α) (C : Run α)
    (n : Nat) (h : ∀ a, a ∈ C.log → a.off < n * n) :
    ∀ a, a ∈ (dgemm_unopt A B C n).log → a.off < n * n := by
  unfold dgemm_unopt
  simp only [forLoop_range]
  refine foldl_log_all (fun s : Run α => s.log) (fun a => a.off < n * n) _ _
    (fun i hi s hs => ?_) C h
  refine foldl_log_all (fun s : Run α => s.log) (fun a => a.off < n * n) _ _
    (fun j hj s hs a ha => ?_) s hs
  have hi2 := List.mem_range.mp hi
  have hj2 := List.mem_range.mp hj
  simp only [List.mem_append, List.mem_singleton] at ha
  rcases ha with h1 | rfl
  · refine cij_bounds A B hi2 hj2 _ (fun a ha => ?_) a h1
    simp only [List.mem_append, List.mem_singleton] at ha
    rcases ha with h2 | rfl
    · exact hs a h2
    · exact offset_lt hi2 hj2
  · exact offset_lt hi2 hj2

/-- Every access of `dgemm_jki` of `gemm-test.c` is in bounds, for every `n`. -/
theorem gt_dgemm_jki_bounds {α : Type} [Add α] [Mul α] (A B : Nat → α) (C : Run α)
    (n : Nat) (h : ∀ a, a ∈ C.log → a.off < n * n) :
    ∀ a, a ∈ (dgemm_jki A B C n).log → a.off < n * n := by
  unfold dgemm_jki
  simp only [forLoop_range]
  refine foldl_log_all (fun s : Run α => s.log) (fun a => a.off < n * n) _ _
    (fun j hj s hs => ?_) C h
  refine foldl_log_all (fun s : Run α => s.log) (fun a => a.off < n * n) _ _
    (fun k hk s hs => ?_) s hs
  exact foldl_log_all (fun s : Run α => s.log) (fun a => a.off < n * n) _ _
    (fun i hi s hs => addMul_bounds A B (List.mem_range.mp hi) (List.mem_range.mp hj)
      (List.mem_range.mp hk) s hs) s hs

/-- With `n` a multiple of 32 every access of `dgemm_blocking` of `gemm-test.c` is in bounds. -/
theorem gt_dgemm_blocking_bounds {α : Type} [Add α] [Mul α] (A B C0 : Nat → α) (n : Nat)
    (hn : 32 ∣ n) : ∀ a, a ∈ (dgemm_blocking A B ⟨C0, []⟩ n).log → a.off < n * n := by
  intro a ha
  rw [gt_dgemm_blocking_log] at ha
  simp only [List.nil_append] at ha
  obtain ⟨tj, htj, ti, hti, tk, htk, hmem⟩ := mem_origins_log.mp ha
  exact blockAccessesS_bounds (by omega) (by omega) (by omega) hmem

/-- Every read of `check_mat` of `gemm-test.c` is in bounds, for every `N`. -/
theorem gt_check_mat_bounds {β : Type} [LinearOrderedField β] (C Cu : Nat → β) (N : Nat) :
    ∀ a, a ∈ (check_mat C Cu N).log → a.off < N * N :=
  GemmTestBlocking.check_mat_bounds C Cu N

/-- Every write of `int_mat` of `gemm-test.c` is in bounds. -/
theorem gt_int_mat_bounds {α G : Type} [Zero α] [NatCast α] [Div α] (R : Rng G) (A B C : Nat → α)
    (g : G) (N : Nat) : ∀ a, a ∈ (int_mat R A B C g N).log → a.off < N * N :=
  GemmTestBlocking.int_mat_bounds R A B C g N

/-- With `N` a multiple of 32 an iteration of the driver loop of `gemm-test.c` stays inside the
allocations, with or without the `BLOCKING` section. -/
theorem gt_main_iteration_defined {α G : Type} [Zero α] [Add α] [Mul α] [NatCast α] [Div α]
    (R : Rng G) (BLOCKING : Bool) (d : Driver α G) (N : Nat) (hN : 32 ∣ N) :
    (main_iteration R BLOCKING d N).2.defined = true := by
  unfold main_iteration
  cases BLOCKING
  · simp only [Bool.false_eq_true, if_false]
    rw [inBounds_iff]
    intro a ha
    simp only [List.mem_append] at ha
    rcases ha with ((h | h) | h) | h
    · exact gt_int_mat_bounds _ _ _ _ _ _ a h
    · exact gt_dgemm_unopt_bounds _ _ _ _ (fun a h => absurd h (List.not_mem_nil a)) a h
    · exact gt_int_mat_bounds _ _ _ _ _ _ a h
    · exact gt_dgemm_jki_bounds _ _ _ _ (fun a h => absurd h (List.not_mem_nil a)) a h
  · simp only [if_true]
    rw [inBounds_iff]
    intro a ha
    simp only [List.mem_append] at ha
    rcases ha with ((((h | h) | h) | h) | h) | h
    · exact gt_int_mat_bounds _ _ _ _ _ _ a h
    · exact gt_dgemm_unopt_bounds _ _ _ _ (fun a h => absurd h (List.not_mem_nil a)) a h
    · exact gt_int_mat_bounds _ _ _ _ _ _ a h
    · exact gt_dgemm_jki_bounds _ _ _ _ (fun a h => absurd h (List.not_mem_nil a)) a h
    · exact gt_int_mat_bounds _ _ _ _ _ _ a h
    · exact gt_dgemm_blocking_bounds _ _ _ _ hN a h

end GemmTest

namespace GemmTestBlocking

open Gemm

/-- The calls of one iteration of the driver loop of `gemm-test-blocking.c`. -/
theorem main_iteration_ok {α G : Type} [Zero α] [Add α] [Mul α] [NatCast α] [Div α] (R : Rng G)
    (d : Driver α G) (N : Nat) (A2 B2 C2 : Nat → α) (g2 : G) (X : Run α) (c : CheckCall α)
    (hc : (main_iteration R d N).2.blocking = some c) :
    (∀ q, q < N * N → c.checkRef q =
      (dgemm_unopt (int_mat R A2 B2 C2 g2 N).A (int_mat R A2 B2 C2 g2 N).B X N).C q) ∧
    c.blkA = (main_iteration R d N).2.unoptA ∧ c.blkB = (main_iteration R d N).2.unoptB := by
  unfold main_iteration at hc ⊢
  simp only [Option.some.injEq] at hc
  subst hc
  refine ⟨fun q hq => ?_, ?_, ?_⟩
  · obtain ⟨h1, h2, h3⟩ := offset_split hq
    rw [h3]
    dsimp only
    rw [dgemm_jki_fold _ _ _ N _ _ h1 h2, dgemm_unopt_fold _ _ _ N _ _ h1 h2]
    exact dotFrom_congr _ _ _ _ N _ _ 0 h1 h2
      (fun q hq => (int_mat_agree R _ _ _ A2 B2 C2 _ g2 N q hq).1)
      (fun q hq => (int_mat_agree R _ _ _ A2 B2 C2 _ g2 N q hq).2.1)
  · dsimp only
    rw [int_mat_A_again, int_mat_A_again]
  · dsimp only
    rw [int_mat_B_again, int_mat_B_again]

end GemmTestBlocking

namespace GemmTest

open Gemm

/-- The calls of one iteration of the driver loop of `gemm-test.c`. -/
theorem gt_main_iteration_ok {α G : Type} [Zero α] [Add α] [Mul α] [NatCast α] [Div α]
    (R : Rng G) (BLOCKING : Bool) (d : Driver α G) (N : Nat) (A2 B2 C2 : Nat → α) (g2 : G)
    (c : CheckCall α) (hc : (main_iteration R BLOCKING d N).2.blocking = some c) :
    (∀ q, q < N * N → c.checkRef q =
      (dgemm_unopt (int_mat R A2 B2 C2 g2 N).A (int_mat R A2 B2 C2 g2 N).B
        ⟨(int_mat R A2 B2 C2 g2 N).C, []⟩ N).C q) ∧
    c.blkA = (main_iteration R BLOCKING d N).2.unoptA ∧
    c.blkB = (main_iteration R BLOCKING d N).2.unoptB := by
  unfold main_iteration at hc ⊢
  cases BLOCKING
  · simp at hc
  · simp only [if_true, Option.some.injEq] at hc
    subst hc
    simp only [int_mat_same, if_true]
    refine ⟨fun q hq => ?_, ?_, ?_⟩
    · obtain ⟨h1, h2, h3⟩ := offset_split hq
      rw [h3]
      rw [gt_dgemm_jki_fold _ _ _ N _ _ h1 h2, gt_dgemm_unopt_fold _ _ _ N _ _ h1 h2, ← h3]
      dsimp only
      rw [ (GemmTestBlocking.int_mat_agree R _ _ _ A2 B2 C2 _ g2 N q hq).2.2,
        (GemmTestBlocking.int_mat_agree R A2 B2 C2 A2 B2 C2 g2 g2 N q hq).2.2]
      exact dotFrom_congr _ _ _ _ N _ _ 0 h1 h2
        (fun q hq => (GemmTestBlocking.int_mat_agree R _ _ _ A2 B2 C2 _ g2 N q hq).1)
        (fun q hq => (GemmTestBlocking.int_mat_agree R _ _ _ A2 B2 C2 _ g2 N q hq).2.1)
    · dsimp only
      rw [GemmTestBlocking.int_mat_A_again, GemmTestBlocking.int_mat_A_again]
    · dsimp only
      rw [GemmTestBlocking.int_mat_B_again, GemmTestBlocking.int_mat_B_again]

end GemmTest

namespace GemmTestBlocking

open Gemm

/-- The driver loop runs `itr` iterations. -/
theorem main_loop_length {α G : Type} [Zero α] [Add α] [Mul α] [NatCast α] [Div α] (R : Rng G)
    (d : Driver α G) (N itr : Nat) : (main_loop R d N itr).2.length = itr := by
  unfold main_loop
  rw [forLoop_range]
  exact foldl_range_inv
    (fun i (st : Driver α G × List (IterTrace α)) => st.2.length = i)
    _ itr (d, []) rfl (fun i _ st hst => by simp [hst])

/-- Every entry of the trace of the driver loop is the trace of one iteration. -/
theorem main_loop_traces {α G : Type} [Zero α] [Add α] [Mul α] [NatCast α] [Div α] (R : Rng G)
    (d : Driver α G) (N itr : Nat) (t : IterTrace α) (ht : t ∈ (main_loop R d N itr).2) :
    ∃ d2, t = (main_iteration R d2 N).2 := by
  unfold main_loop at ht
  rw [forLoop_range] at ht
  exact foldl_range_inv
    (fun _ (st : Driver α G × List (IterTrace α)) =>
      ∀ t, t ∈ st.2 → ∃ d2, t = (main_iteration R d2 N).2)
    _ itr (d, []) (fun t h => absurd h (List.not_mem_nil t))
    (fun i _ st hst t h => by
      rcases List.mem_append.mp h with h1 | h1
      · exact hst t h1
      · exact ⟨st.1, List.mem_singleton.mp h1⟩) t ht

end GemmTestBlocking

namespace GemmTest

open Gemm

/-- The driver loop of `gemm-test.c` runs `itr` iterations. -/
theorem gt_main_loop_length {α G : Type} [Zero α] [Add α] [Mul α] [NatCast α] [Div α]
    (R : Rng G) (BLOCKING : Bool) (d : Driver α G) (N itr : Nat) :
    (main_loop R BLOCKING d N itr).2.length = itr := by
  unfold main_loop
  rw [forLoop_range]
  exact foldl_range_inv
    (fun i (st : Driver α G × List (IterTrace α)) => st.2.length = i)
    _ itr (d, []) rfl (fun i _ st hst => by simp [hst])

/-- Every entry of the trace of the driver loop of `gemm-test.c` is the trace of one
iteration. -/
theorem gt_main_loop_traces {α G : Type} [Zero α] [Add α] [Mul α] [NatCast α] [Div α]
    (R : Rng G) (BLOCKING : Bool) (d : Driver α G) (N itr : Nat) (t : IterTrace α)
    (ht : t ∈ (main_loop R BLOCKING d N itr).2) :
    ∃ d2, t = (main_iteration R BLOCKING d2 N).2 := by
  unfold main_loop at ht
  rw [forLoop_range] at ht
  exact foldl_range_inv
    (fun _ (st : Driver α G × List (IterTrace α)) =>
      ∀ t, t ∈ st.2 → ∃ d2, t = (main_iteration R BLOCKING d2 N).2)
    _ itr (d, []) (fun t h => absurd h (List.not_mem_nil t))
    (fun i _ st hst t h => by
      rcases List.mem_append.mp h with h1 | h1
      · exact hst t h1
      · exact ⟨st.1, List.mem_singleton.mp h1⟩) t ht

end GemmTest

/-! ## The comparison routine -/

namespace Gemm

/-- A loop whose every step appends to a list held in the state appends the concatenation of
the steps. -/
theorem foldl_appends {σ ι β : Type} (lg : σ → List β) (body : σ → ι → σ)
    (c : ι → List β) (xs : List ι) (h : ∀ x ∈ xs, ∀ s, lg (body s x) = lg s ++ c x) :
    ∀ s, lg (xs.foldl body s) = lg s ++ xs.flatMap c := by
  induction xs with
  | nil => intro s; simp
  | cons x xs ih =>
    intro s
    simp only [List.foldl_cons, List.flatMap_cons]
    rw [ih (fun y hy => h y (List.mem_cons_of_mem _ hy)), h x (List.mem_cons_self _ _),
      List.append_assoc]

end Gemm

namespace GemmTestBlocking

open Gemm

/-- The diagnostics of `check_mat`, in print order. -/
theorem check_mat_printed {α : Type} [LinearOrderedField α] (C Cu : Nat → α) (N : Nat) :
    (check_mat C Cu N).printed =
      (List.range N).flatMap (fun n => (List.range N).flatMap (fun m =>
        if abs ((C (n + N * m) - Cu (n + N * m)) / Cu (n + N * m)) > 1 / 100000
        then [(n, m)] else [])) := by
  unfold check_mat
  simp only [forLoop_range]
  rw [foldl_appends (fun s : Check => s.printed) _
    (fun n => (List.range N).flatMap (fun m =>
      if abs ((C (n + N * m) - Cu (n + N * m)) / Cu (n + N * m)) > 1 / 100000
      then [(n, m)] else [])) _
    (fun n _ s => foldl_appends (fun s : Check => s.printed) _
      (fun m => if abs ((C (n + N * m) - Cu (n + N * m)) / Cu (n + N * m)) > 1 / 100000
        then [(n, m)] else []) _
      (fun m _ s => by
        dsimp only
        split <;> simp) s)]
  rfl

/-- The reads of `check_mat`, in order. -/
theorem check_mat_log {α : Type} [LinearOrderedField α] (C Cu : Nat → α) (N : Nat) :
    (check_mat C Cu N).log =
      (List.range N).flatMap (fun n => (List.range N).flatMap (fun m =>
        [Access.rd Arr.C (n + N * m), Access.rd Arr.C_unopt (n + N * m)])) := by
  unfold check_mat
  simp only [forLoop_range]
  rw [foldl_appends (fun s : Check => s.log) _
    (fun n => (List.range N).flatMap (fun m =>
      [Access.rd Arr.C (n + N * m), Access.rd Arr.C_unopt (n + N * m)])) _
    (fun n _ s => foldl_appends (fun s : Check => s.log) _
      (fun m => [Access.rd Arr.C (n + N * m), Access.rd Arr.C_unopt (n + N * m)]) _
      (fun m _ s => by
        dsimp only
        split <;> rfl) s)]
  rfl

end GemmTestBlocking

namespace GemmTest

open Gemm

/-- The routine `check_mat` has the same text in both files. -/
theorem check_mat_same {α : Type} [LinearOrderedField α] (C Cu : Nat → α) (N : Nat) :
    check_mat C Cu N = GemmTestBlocking.check_mat C Cu N := rfl

end GemmTest

namespace GemmTestBlocking

open Gemm

/-- C11. In exact arithmetic, for every `N` and all `C`, `C_unopt` whose reference entries are
non-zero on `[0, N*N)`: `check_mat` prints a diagnostic for `(n, m)` if and only if `n, m < N` and
`|(C[n + N*m] - C_unopt[n + N*m]) / C_unopt[n + N*m]| > 1e-5`, that is, if and only if
`|C - C_unopt| > 1e-5 * |C_unopt|` at that offset; it reads both arrays at every `(n, m)` of
`[0,N) × [0,N)` and makes no write; and it prints nothing when `C` equals `C_unopt`.  The routine
is total and is the same in both files. -/
theorem C11_check_mat_reports {α : Type} [LinearOrderedField α] (C Cu : Nat → α) (N : Nat)
    (hnz : ∀ q, q < N * N → Cu q ≠ 0) :
    (∀ n m, (n, m) ∈ (check_mat C Cu N).printed ↔
      (n < N ∧ m < N ∧
        abs ((C (n + N * m) - Cu (n + N * m)) / Cu (n + N * m)) > 1 / 100000)) ∧
    (∀ n m, (n, m) ∈ (check_mat C Cu N).printed ↔
      (n < N ∧ m < N ∧
        abs (C (n + N * m) - Cu (n + N * m)) > 1 / 100000 * abs (Cu (n + N * m)))) ∧
    (∀ n m, n < N → m < N →
      Access.rd Arr.C (n + N * m) ∈ (check_mat C Cu N).log ∧
      Access.rd Arr.C_unopt (n + N * m) ∈ (check_mat C Cu N).log) ∧
    (∀ a, a ∈ (check_mat C Cu N).log → ∃ r o, a = Access.rd r o) ∧
    ((∀ q, q < N * N → C q = Cu q) → (check_mat C Cu N).printed = []) ∧
    GemmTest.check_mat C Cu N = check_mat C Cu N := by
  have hmem : ∀ n m, (n, m) ∈ (check_mat C Cu N).printed ↔
      (n < N ∧ m < N ∧
        abs ((C (n + N * m) - Cu (n + N * m)) / Cu (n + N * m)) > 1 / 100000) := by
    intro n m
    rw [check_mat_printed]
    simp only [List.mem_flatMap, List.mem_range]
    constructor
    · rintro ⟨n2, hn2, m2, hm2, h⟩
      split at h
      · rename_i hc
        simp only [List.mem_singleton, Prod.mk.injEq] at h
        obtain ⟨rfl, rfl⟩ := h
        exact ⟨hn2, hm2, hc⟩
      · exact absurd h (List.not_mem_nil _)
    · rintro ⟨hn, hm, hc⟩
      exact ⟨n, hn, m, hm, by rw [if_pos hc]; exact List.mem_singleton.mpr rfl⟩
  have hoff : ∀ n m, n < N → m < N → n + N * m < N * N := by
    intro n m hn hm
    have := offset_lt hn hm
    rw [Nat.mul_comm m N] at this
    exact this
  refine ⟨hmem, fun n m => ?_, fun n m hn hm => ?_, fun a ha => ?_, fun heq => ?_, rfl⟩
  · rw [hmem]
    constructor
    · rintro ⟨hn, hm, hc⟩
      refine ⟨hn, hm, ?_⟩
      have hpos : 0 < abs (Cu (n + N * m)) := abs_pos.mpr (hnz _ (hoff n m hn hm))
      rw [abs_div] at hc
      exact (lt_div_iff₀ hpos).mp hc
    · rintro ⟨hn, hm, hc⟩
      refine ⟨hn, hm, ?_⟩
      have hpos : 0 < abs (Cu (n + N * m)) := abs_pos.mpr (hnz _ (hoff n m hn hm))
      rw [abs_div]
      exact (lt_div_iff₀ hpos).mpr hc
  · rw [check_mat_log]
    simp only [List.mem_flatMap, List.mem_range, List.mem_cons, List.mem_singleton,
      List.not_mem_nil, or_false]
    exact ⟨⟨n, hn, m, hm, Or.inl rfl⟩, ⟨n, hn, m, hm, Or.inr rfl⟩⟩
  · rw [check_mat_log] at ha
    simp only [List.mem_flatMap, List.mem_range, List.mem_cons, List.mem_singleton,
      List.not_mem_nil, or_false] at ha
    obtain ⟨n, _, m, _, rfl | rfl⟩ := ha
    · exact ⟨_, _, rfl⟩
    · exact ⟨_, _, rfl⟩
  · apply List.eq_nil_iff_forall_not_mem.mpr
    rintro ⟨n, m⟩ h
    obtain ⟨hn, hm, hc⟩ := (hmem n m).mp h
    rw [heq _ (hoff n m hn hm), sub_self, zero_div, abs_zero] at hc
    exact absurd hc (by norm_num)

/-- Witness for C11 at `N = 2` over the rationals. -/
theorem C11_check_mat_reports_witness :
    (∀ q, q < 2 * 2 → exQ 1 q ≠ 0) ∧
    ((∀ n m, (n, m) ∈ (check_mat (exQ 2) (exQ 1) 2).printed ↔
      (n < 2 ∧ m < 2 ∧
        abs ((exQ 2 (n + 2 * m) - exQ 1 (n + 2 * m)) / exQ 1 (n + 2 * m)) > 1 / 100000)) ∧
    (∀ n m, (n, m) ∈ (check_mat (exQ 2) (exQ 1) 2).printed ↔
      (n < 2 ∧ m < 2 ∧
        abs (exQ 2 (n + 2 * m) - exQ 1 (n + 2 * m)) > 1 / 100000 * abs (exQ 1 (n + 2 * m)))) ∧
    (∀ n m, n < 2 → m < 2 →
      Access.rd Arr.C (n + 2 * m) ∈ (check_mat (exQ 2) (exQ 1) 2).log ∧
      Access.rd Arr.C_unopt (n + 2 * m) ∈ (check_mat (exQ 2) (exQ 1) 2).log) ∧
    (∀ a, a ∈ (check_mat (exQ 2) (exQ 1) 2).log → ∃ r o, a = Access.rd r o) ∧
    ((∀ q, q < 2 * 2 → exQ 2 q = exQ 1 q) → (check_mat (exQ 2) (exQ 1) 2).printed = []) ∧
    GemmTest.check_mat (exQ 2) (exQ 1) 2 = check_mat (exQ 2) (exQ 1) 2) :=
  ⟨fun q _ => ne_of_gt (by unfold exQ; positivity),
    C11_check_mat_reports (exQ 2) (exQ 1) 2 (fun q _ => ne_of_gt (by unfold exQ; positivity))⟩

end GemmTestBlocking

/-! ## Argument handling of the drivers -/

namespace GemmTestBlocking

open Gemm

/-- C12, the code at `N = 50`. With two arguments given and `N = 50`, `main` of
`gemm-test-blocking.c` prints no precondition message, allocates, and in its single iteration
calls `dgemm_blocking` with `n = 50`, which writes offset `3213` of `C`, outside `[0, 2500)`. -/
theorem C12_main_runs_blocked_kernel_at_50 {α G : Type} [Zero α] [Add α] [Mul α] [NatCast α]
    [Div α] (R : Rng G) (d : Driver α G) :
    (main R 3 50 1 d).status = 0 ∧ (main R 3 50 1 d).messages = [] ∧
    (main R 3 50 1 d).allocated = true ∧
    (main R 3 50 1 d).iters = [(main_iteration R d 50).2] ∧
    (∃ A B C0 ref, (main_iteration R d 50).2.blocking =
      some ⟨A, B, (dgemm_blocking A B ⟨C0, []⟩ 50).C, ref⟩) ∧
    (∀ (A B C0 : Nat → α), Access.wr Arr.C 3213 ∈ (dgemm_blocking A B ⟨C0, []⟩ 50).log) ∧
    ¬ (3213 < 50 * 50) ∧ ¬ (BLOCKSIZE ∣ 50) := by
  refine ⟨rfl, rfl, rfl, rfl, ⟨_, _, _, _, rfl⟩, fun A B C0 => ?_, by decide, by decide⟩
  rw [dgemm_blocking_log]
  simp only [List.nil_append]
  refine mem_origins_log.mpr ⟨1, by decide, 1, by decide, 0, by decide, ?_⟩
  exact mem_blockAccesses.mpr ⟨63, by decide, 63, by decide, 0, by decide,
    Or.inr (Or.inr (Or.inr rfl))⟩

end GemmTestBlocking

namespace GemmTest

open Gemm

/-- C13. In `gemm-test.c`, with at least two arguments given, `main` proceeds to allocation and
the driver loop if and only if `N % 32 == 0` under the truncating remainder of C (so `0` and
negative multiples are accepted, and the `N % 8` check is subsumed); for every other `N` it
prints a guidance message and returns status 0 without allocating or running any kernel. -/
theorem C13_main_accepts_iff {α G : Type} [Zero α] [Add α] [Mul α] [NatCast α] [Div α]
    (R : Rng G) (BLOCKING : Bool) (argc : Nat) (N itr : Int) (d : Driver α G) (hargc : 3 ≤ argc) :
    ((main R BLOCKING argc N itr d).allocated = true ↔ Int.tmod N 32 = 0) ∧
    (Int.tmod N 32 = 0 → Int.tmod N 8 = 0) ∧
    (Int.tmod N 32 = 0 →
      (main R BLOCKING argc N itr d).status = 0 ∧ (main R BLOCKING argc N itr d).messages = [] ∧
      (main R BLOCKING argc N itr d).iters = (main_loop R BLOCKING d N.toNat itr.toNat).2) ∧
    (Int.tmod N 32 ≠ 0 →
      (main R BLOCKING argc N itr d).status = 0 ∧
      ((main R BLOCKING argc N itr d).messages = [Msg.multipleOf8] ∨
        (main R BLOCKING argc N itr d).messages = [Msg.multipleOfBlock]) ∧
      (main R BLOCKING argc N itr d).allocated = false ∧
      (main R BLOCKING argc N itr d).iters = []) ∧
    (Int.tmod 0 32 = 0 ∧ Int.tmod (-32) 32 = 0 ∧ Int.tmod (-64) 32 = 0) := by
  have h8 : Int.tmod N 32 = 0 → Int.tmod N 8 = 0 := fun h => by
    have := Int.dvd_of_tmod_eq_zero h
    exact Int.tmod_eq_zero_of_dvd (by omega)
  have hlt : ¬ argc < 3 := by omega
  refine ⟨?_, h8, fun h => ?_, fun h => ?_, by decide, by decide, by decide⟩
  · unfold main
    by_cases h32 : Int.tmod N 32 = 0
    · simp [hlt, h8 h32, h32]
    · by_cases h8b : Int.tmod N 8 = 0
      · simp [hlt, h8b, h32]
      · simp [hlt, h8b, h32]
  · unfold main
    simp [hlt, h8 h, h]
  · unfold main
    by_cases h8b : Int.tmod N 8 = 0
    · simp [hlt, h8b, h]
    · simp [hlt, h8b]

/-- Witness for C13 at `argc = 3`, `N = 50`. -/
theorem C13_main_accepts_iff_witness :
    (3 ≤ 3) ∧
    (((main exRng false 3 50 1 exDriver).allocated = true ↔ Int.tmod 50 32 = 0) ∧
    (Int.tmod 50 32 = 0 → Int.tmod 50 8 = 0) ∧
    (Int.tmod 50 32 = 0 →
      (main exRng false 3 50 1 exDriver).status = 0 ∧
      (main exRng false 3 50 1 exDriver).messages = [] ∧
      (main exRng false 3 50 1 exDriver).iters =
        (main_loop exRng false exDriver (Int.toNat 50) (Int.toNat 1)).2) ∧
    (Int.tmod 50 32 ≠ 0 →
      (main exRng false 3 50 1 exDriver).status = 0 ∧
      ((main exRng false 3 50 1 exDriver).messages = [Msg.multipleOf8] ∨
        (main exRng false 3 50 1 exDriver).messages = [Msg.multipleOfBlock]) ∧
      (main exRng false 3 50 1 exDriver).allocated = false ∧
      (main exRng false 3 50 1 exDriver).iters = []) ∧
    (Int.tmod 0 32 = 0 ∧ Int.tmod (-32) 32 = 0 ∧ Int.tmod (-64) 32 = 0)) :=
  ⟨by decide, C13_main_accepts_iff exRng false 3 50 1 exDriver (by decide)⟩

/-- C14. For every argument vector with `argc < 3`, `main` of either driver terminates with exit
status 1 after the usage message, whatever the arguments would parse to, without allocating or
running any kernel. -/
theorem C14_main_usage_exit {α G : Type} [Zero α] [Add α] [Mul α] [NatCast α] [Div α]
    (R : Rng G) (BLOCKING : Bool) (argc : Nat) (N itr : Int) (d : Driver α G) (hargc : argc < 3) :
    ((main R BLOCKING argc N itr d).status = 1 ∧
      (main R BLOCKING argc N itr d).messages = [Msg.usage] ∧
      (main R BLOCKING argc N itr d).allocated = false ∧
      (main R BLOCKING argc N itr d).iters = []) ∧
    ((GemmTestBlocking.main R argc N itr d).status = 1 ∧
      (GemmTestBlocking.main R argc N itr d).messages = [Msg.usage] ∧
      (GemmTestBlocking.main R argc N itr d).allocated = false ∧
      (GemmTestBlocking.main R argc N itr d).iters = []) := by
  unfold main GemmTestBlocking.main
  simp [hargc]

/-- Witness for C14 at `argc = 2`. -/
theorem C14_main_usage_exit_witness :
    (2 < 3) ∧
    (((main exRng true 2 64 1 exDriver).status = 1 ∧
      (main exRng true 2 64 1 exDriver).messages = [Msg.usage] ∧
      (main exRng true 2 64 1 exDriver).allocated = false ∧
      (main exRng true 2 64 1 exDriver).iters = []) ∧
    ((GemmTestBlocking.main exRng 2 64 1 exDriver).status = 1 ∧
      (GemmTestBlocking.main exRng 2 64 1 exDriver).messages = [Msg.usage] ∧
      (GemmTestBlocking.main exRng 2 64 1 exDriver).allocated = false ∧
      (GemmTestBlocking.main exRng 2 64 1 exDriver).iters = [])) :=
  ⟨by decide, C14_main_usage_exit exRng true 2 64 1 exDriver (by decide)⟩

end GemmTest

/-! ## The degenerate size -/

namespace Gemm

/-- C15. For `n = 0` every kernel of either file returns its run state as it was (the array `C`
unchanged and no access added to the log), `int_mat` leaves the three arrays unchanged and logs
no access (it still reseeds the generator), and `check_mat` reads nothing and prints nothing. -/
theorem C15_zero_size_noop {α β G : Type} [Zero α] [Add α] [Mul α] [NatCast α] [Div α]
    [LinearOrderedField β] (R : Rng G) (A B : Nat → α) (C : Run α) (M : Nat → α) (g : G)
    (X Y : Nat → β) :
    (GemmTestBlocking.dgemm_unopt A B C 0 = C ∧ GemmTestBlocking.dgemm_jki A B C 0 = C ∧
      GemmTestBlocking.dgemm_blocking A B C 0 = C ∧ GemmTestBlocking.dgemm_unroll A B C 0 = C ∧
      GemmTestBlocking.dgemm_unroll_optimized A B C 0 = C ∧
      GemmTestBlocking.dgemm_blocking_unroll A B C 0 = C ∧
      GemmTestBlocking.dgemm_OMP A B C 0 = C ∧ GemmTestBlocking.dgemm_OMP_unroll A B C 0 = C ∧
      GemmTestBlocking.dgemm_AVX2 A B C 0 = C) ∧
    (GemmTest.dgemm_unopt A B C 0 = C ∧ GemmTest.dgemm_jki A B C 0 = C ∧
      GemmTest.dgemm_blocking A B C 0 = C ∧ GemmTest.dgemm_OMP A B C 0 = C ∧
      GemmTest.dgemm_AVX2 A B C 0 = C) ∧
    ((GemmTestBlocking.int_mat R A B M g 0).A = A ∧ (GemmTestBlocking.int_mat R A B M g 0).B = B ∧
      (GemmTestBlocking.int_mat R A B M g 0).C = M ∧
      (GemmTestBlocking.int_mat R A B M g 0).log = [] ∧
      (GemmTestBlocking.int_mat R A B M g 0).g = R.srand 1 ∧
      GemmTest.int_mat R A B M g 0 = GemmTestBlocking.int_mat R A B M g 0) ∧
    ((GemmTestBlocking.check_mat X Y 0).printed = [] ∧
      (GemmTestBlocking.check_mat X Y 0).log = [] ∧
      (GemmTest.check_mat X Y 0).printed = [] ∧ (GemmTest.check_mat X Y 0).log = []) :=
  ⟨⟨rfl, rfl, rfl, rfl, rfl, rfl, rfl, rfl, rfl⟩, ⟨rfl, rfl, rfl, rfl, rfl⟩,
    ⟨rfl, rfl, rfl, rfl, rfl, rfl⟩, ⟨rfl, rfl, rfl, rfl⟩⟩

end Gemm

/-! ## Throughput report -/

namespace Gemm

/-- C16, as the code has it. The throughput the driver prints is
`N*N*N*2 / t / 1000 / 1000 / 1000` with no guard on `t`: when `t = 0` the driver divides by zero
and the value is not finite; when `t > 0` the value is finite, and it is strictly positive exactly
when `N > 0` (for `N = 0` it is `0`). -/
theorem C16_gflops_value (N : Int) (t : Rat) :
    (t = 0 → gflops N t = none) ∧
    (t ≠ 0 → gflops N t = some ((N : Rat) * N * N * 2 / t / 1000 / 1000 / 1000)) ∧
    (0 < t → ∃ v, gflops N t = some v ∧ (0 < v ↔ 0 < N) ∧ (N = 0 → v = 0)) := by
  refine ⟨fun h => by simp [gflops, fdiv, h], fun h => by simp [gflops, fdiv, h], fun h => ?_⟩
  refine ⟨(N : Rat) * N * N * 2 / t / 1000 / 1000 / 1000,
    by simp [gflops, fdiv, ne_of_gt h], ?_, fun h0 => by simp [h0]⟩
  have hN3 : (0 : Rat) < (N : Rat) * N * N * 2 ↔ 0 < N := by
    constructor
    · intro hp
      by_contra hn
      have hn2 : (N : Rat) ≤ 0 := by exact_mod_cast not_lt.mp hn
      have : (N : Rat) * N * N ≤ 0 := by
        have h2 : 0 ≤ (N : Rat) * N := mul_self_nonneg _
        exact mul_nonpos_of_nonneg_of_nonpos h2 hn2
      linarith
    · intro hp
      have hq : (0 : Rat) < N := by exact_mod_cast hp
      positivity
  rw [← hN3]
  constructor
  · intro hv
    by_contra hn
    have h1 : (N : Rat) * N * N * 2 ≤ 0 := not_lt.mp hn
    have : (N : Rat) * N * N * 2 / t / 1000 / 1000 / 1000 ≤ 0 := by
      apply div_nonpos_of_nonpos_of_nonneg _ (by norm_num)
      apply div_nonpos_of_nonpos_of_nonneg _ (by norm_num)
      apply div_nonpos_of_nonpos_of_nonneg _ (by norm_num)
      exact div_nonpos_of_nonpos_of_nonneg h1 (le_of_lt h)
    linarith
  · intro hp
    positivity

/-- Witness for C16 at `N = 32`, `t = 1/2`. -/
theorem C16_gflops_value_witness :
    ((1 / 2 : Rat) = 0 → gflops 32 (1 / 2) = none) ∧
    ((1 / 2 : Rat) ≠ 0 →
      gflops 32 (1 / 2) = some (((32 : Int) : Rat) * (32 : Int) * (32 : Int) * 2 / (1 / 2) / 1000 /
        1000 / 1000)) ∧
    ((0 : Rat) < 1 / 2 →
      ∃ v, gflops 32 (1 / 2) = some v ∧ (0 < v ↔ (0 : Int) < 32) ∧ ((32 : Int) = 0 → v = 0)) :=
  C16_gflops_value 32 (1 / 2)

/-- Counterexample to C16 as stated: `N = 0` is accepted by both drivers and with elapsed time
`1` the printed throughput is `0`, not strictly positive; and with elapsed time `0` the driver
divides by zero, so the value printed for `N = 32` is not finite. -/
theorem C16_counterexample :
    Int.tmod 0 32 = 0 ∧ gflops 0 1 = some 0 ∧ ¬ ((0 : Rat) < 0) ∧ gflops 32 0 = none := by
  refine ⟨by decide, ?_, by norm_num, ?_⟩
  · simp [gflops, fdiv]
  · simp [gflops, fdiv]

end Gemm

/-! ## Data sharing of the thread-parallel kernel -/

namespace GemmTest

open Gemm

/-- C17, the code of `gemm-test.c`. In `dgemm_OMP` of `gemm-test.c` the variables `j`, `k` and
`cij` are shared: two different workers running two different iterations of the outer loop both
write them, for every `n`; in `gemm-test-blocking.c`, where the pragma has `private(j, k)`,
two different workers running different iterations `i1, i2 < n` write disjoint locations. -/
theorem C17_dgemm_OMP_shared_scalars (n w1 w2 i1 i2 : Nat) (hw : w1 ≠ w2) (hi : i1 ≠ i2)
    (h1 : i1 < n) (h2 : i2 < n) :
    (Loc.shared "j" ∈ dgemm_OMP_pragma.writes n w1 i1 ∧
      Loc.shared "j" ∈ dgemm_OMP_pragma.writes n w2 i2 ∧
      Loc.shared "k" ∈ dgemm_OMP_pragma.writes n w1 i1 ∧
      Loc.shared "k" ∈ dgemm_OMP_pragma.writes n w2 i2 ∧
      Loc.shared "cij" ∈ dgemm_OMP_pragma.writes n w1 i1 ∧
      Loc.shared "cij" ∈ dgemm_OMP_pragma.writes n w2 i2) ∧
    (∀ l, l ∈ GemmTestBlocking.dgemm_OMP_pragma.writes n w1 i1 →
      l ∉ GemmTestBlocking.dgemm_OMP_pragma.writes n w2 i2) := by
  refine ⟨?_, fun l hl hl2 => ?_⟩
  · simp [OmpFor.writes, OmpFor.scalarWrites, dgemm_OMP_pragma]
  · simp only [OmpFor.writes, OmpFor.scalarWrites, GemmTestBlocking.dgemm_OMP_pragma,
      List.mem_append, List.mem_map, List.mem_range, List.mem_cons, List.mem_singleton,
      List.not_mem_nil, or_false] at hl hl2
    rcases hl with ⟨j, hj, rfl⟩ | ⟨v, hv, rfl⟩
    · rcases hl2 with ⟨j2, hj2, h⟩ | ⟨v, hv, h⟩
      · simp only [Loc.cell.injEq] at h
        exact hi (offset_inj h2 h1 h).1.symm
      · rcases hv with rfl | rfl <;> simp at h
    · rcases hl2 with ⟨j2, hj2, h⟩ | ⟨v2, hv2, h⟩
      · rcases hv with rfl | rfl <;> simp at h
      · rcases hv with rfl | rfl <;> rcases hv2 with rfl | rfl <;> simp at h <;>
          exact hw h.symm

/-- Witness for C17: `n = 2`, workers `0` and `1` running iterations `0` and `1`. -/
theorem C17_dgemm_OMP_shared_scalars_witness :
    ((0 : Nat) ≠ 1 ∧ (0 : Nat) ≠ 1 ∧ 0 < 2 ∧ 1 < 2) ∧
    ((Loc.shared "j" ∈ dgemm_OMP_pragma.writes 2 0 0 ∧
      Loc.shared "j" ∈ dgemm_OMP_pragma.writes 2 1 1 ∧
      Loc.shared "k" ∈ dgemm_OMP_pragma.writes 2 0 0 ∧
      Loc.shared "k" ∈ dgemm_OMP_pragma.writes 2 1 1 ∧
      Loc.shared "cij" ∈ dgemm_OMP_pragma.writes 2 0 0 ∧
      Loc.shared "cij" ∈ dgemm_OMP_pragma.writes 2 1 1) ∧
    (∀ l, l ∈ GemmTestBlocking.dgemm_OMP_pragma.writes 2 0 0 →
      l ∉ GemmTestBlocking.dgemm_OMP_pragma.writes 2 1 1)) :=
  ⟨⟨by decide, by decide, by decide, by decide⟩,
    C17_dgemm_OMP_shared_scalars 2 0 1 0 1 (by decide) (by decide) (by decide) (by decide)⟩

end GemmTest

/-! ## The k-unrolled kernels -/

namespace Gemm

/-- An unrolled loop entered at `lo`, followed by its cleanup loop, performs the steps
`lo, lo+1, ..., hi-1`, each once and in order. -/
theorem unroll_cleanup_from {σ : Type} (f : Nat → σ → σ) (u hi : Nat) (hu : 0 < u)
    (bodyU : Nat → σ → σ)
    (hU : ∀ i s, bodyU i s = (List.range' i u).foldl (fun s x => f x s) s)
    (fuel fuel2 lo : Nat) (s : σ) (h1 : hi - lo ≤ fuel) (h2 : hi - lo ≤ fuel2) (hlo : lo ≤ hi) :
    (forLoop fuel2 (fun i => decide (i < hi)) 1 f
        (forLoop fuel (fun i => decide (i + u ≤ hi)) u bodyU lo s).1
        (forLoop fuel (fun i => decide (i + u ≤ hi)) u bodyU lo s).2).2 =
      (List.range' lo (hi - lo)).foldl (fun s x => f x s) s := by
  obtain ⟨a1, a2, a3, a4⟩ := forLoop_unrolled f u hi hu bodyU hU fuel lo s h1 hlo
  generalize forLoop fuel (fun i => decide (i + u ≤ hi)) u bodyU lo s = r at a1 a2 a3 a4 ⊢
  rw [forLoop_lt hi 1 (by decide) f fuel2 _ _ (by omega), a4]
  simp only [Nat.add_sub_cancel, Nat.div_one]
  rw [← List.foldl_append]
  congr 1
  have := List.range'_append lo (r.1 - lo) (hi - r.1) 1
  simp only [Nat.one_mul] at this
  have e : lo + (r.1 - lo) = r.1 := by omega
  rw [e] at this
  rw [this]
  congr 1
  omega

theorem termsOnce_fold {α : Type} [Zero α] [Add α] [Mul α] (A B : Nat → α) (C : Run α)
    (n i j : Nat) (hi : i < n) (hj : j < n) :
    (termsOnce A B C n).C (i + j * n) = dotFrom A B n i j 0 := by
  unfold termsOnce
  rw [cell_nest_C n (fun i j C => (List.range n).foldl (fun (C : Run α) k =>
      C.addMul A B (i + j * n) (i + k * n) (k + j * n)) C)
    (fun i j a => dotFrom A B n i j a)
    (fun i j st q => by
      rw [acc_loop_C]
      rfl) i j hi hj, zero_loop_C, if_pos (offset_lt hi hj)]

theorem termsOnce_frame {α : Type} [Zero α] [Add α] [Mul α] (A B : Nat → α) (C : Run α)
    (n q : Nat) (hq : n * n ≤ q) : (termsOnce A B C n).C q = C.C q := by
  unfold termsOnce
  rw [cell_nest_frame n (fun i j C => (List.range n).foldl (fun (C : Run α) k =>
      C.addMul A B (i + j * n) (i + k * n) (k + j * n)) C)
    (fun i j a => dotFrom A B n i j a)
    (fun i j st q => by
      rw [acc_loop_C]
      rfl) q hq, zero_loop_C, if_neg (by omega)]

/-- The accesses of `termsOnce`. -/
theorem termsOnce_log {α : Type} [Zero α] [Add α] [Mul α] (A B : Nat → α) (C : Run α) (n : Nat) :
    (termsOnce A B C n).log =
      (C.log ++ (List.range (n * n)).flatMap (fun i => [Access.wr Arr.C i])) ++
        (List.range n).flatMap (fun i => (List.range n).flatMap (fun j =>
          (List.range n).flatMap (fun k =>
            [Access.rd Arr.C (i + j * n), Access.rd Arr.A (i + k * n),
              Access.rd Arr.B (k + j * n), Access.wr Arr.C (i + j * n)]))) := by
  unfold termsOnce
  rw [foldl_log (fun s : Run α => s.log) _ _ _ (fun i _ s => ?_),
    foldl_log (fun s : Run α => s.log) _ (fun i => [Access.wr Arr.C i]) _
      (fun i _ s => by simp)]
  refine foldl_log (fun s : Run α => s.log) _ _ _ (fun j _ s => ?_) s
  exact foldl_log (fun s : Run α => s.log) _ _ _ (fun k _ s => by simp) s

/-- Every access of `termsOnce` beyond the initial log lies in `[0, n*n)`, and every `k` it
reads is below `n`. -/
theorem termsOnce_bounds {α : Type} [Zero α] [Add α] [Mul α] (A B : Nat → α) (C : Run α)
    (n : Nat) (a : Access) (ha : a ∈ (termsOnce A B C n).log) : a ∈ C.log ∨ a.off < n * n := by
  rw [termsOnce_log] at ha
  simp only [List.mem_append, List.mem_flatMap, List.mem_range, List.mem_cons,
    List.mem_singleton, List.not_mem_nil, or_false] at ha
  rcases ha with (h | ⟨i, hi, rfl⟩) | ⟨i, hi, j, hj, k, hk, h⟩
  · exact Or.inl h
  · exact Or.inr hi
  · right
    rcases h with rfl | rfl | rfl | rfl
    · exact offset_lt hi hj
    · exact offset_lt hi hk
    · exact offset_lt hk hj
    · exact offset_lt hi hj

end Gemm

namespace GemmTestBlocking

open Gemm

theorem dgemm_OMP_eq {α : Type} [Zero α] [Add α] [Mul α] (A B : Nat → α) (C : Run α) (n : Nat) :
    dgemm_OMP A B C n = termsOnce A B C n := by
  unfold dgemm_OMP termsOnce
  simp only [forLoop_range]

/-- The access log and the output of `dgemm_OMP_unroll` are those of adding every term once. -/
theorem dgemm_OMP_unroll_eq {α : Type} [Zero α] [Add α] [Mul α] (A B : Nat → α) (C : Run α)
    (n : Nat) : dgemm_OMP_unroll A B C n = termsOnce A B C n := by
  unfold dgemm_OMP_unroll termsOnce
  simp only [unroll_cond]
  have key : ∀ (i j : Nat) (st : Run α),
      (forLoop n (fun k => decide (k < n)) 1
        (fun k (C : Run α) => C.addMul A B (i + j * n) (i + k * n) (k + j * n))
        (forLoop n (fun k => decide (k + 4 ≤ n)) 4 (fun k (C : Run α) =>
          (((C.addMul A B (i + j * n) (i + k * n) (k + j * n)).addMul A B (i + j * n)
            (i + (k + 1) * n) ((k + 1) + j * n)).addMul A B (i + j * n)
            (i + (k + 2) * n) ((k + 2) + j * n)).addMul A B (i + j * n)
            (i + (k + 3) * n) ((k + 3) + j * n)) 0 st).1
        (forLoop n (fun k => decide (k + 4 ≤ n)) 4 (fun k (C : Run α) =>
          (((C.addMul A B (i + j * n) (i + k * n) (k + j * n)).addMul A B (i + j * n)
            (i + (k + 1) * n) ((k + 1) + j * n)).addMul A B (i + j * n)
            (i + (k + 2) * n) ((k + 2) + j * n)).addMul A B (i + j * n)
            (i + (k + 3) * n) ((k + 3) + j * n)) 0 st).2).2 =
      (List.range n).foldl (fun (C : Run α) k =>
        C.addMul A B (i + j * n) (i + k * n) (k + j * n)) st := by
    intro i j st
    exact unroll_cleanup (fun k (C : Run α) => C.addMul A B (i + j * n) (i + k * n) (k + j * n))
      4 n (by decide) _ (fun i s => by simp [List.range'_succ]) st
  simp only [key, forLoop_range]

theorem block_unroll_cond (sk : Nat) :
    (fun k : Nat => decide (k < sk + BLOCKSIZE - 4 + 1)) = fun k => decide (k + 4 ≤ sk + 32) := by
  funext k
  exact decide_eq_decide.mpr (by show k < sk + 32 - 4 + 1 ↔ k + 4 ≤ sk + 32; omega)

/-- The block multiply with the unrolled `k` loop is, access for access, `do_block`. -/
theorem do_block_unroll_eq {α : Type} [Add α] [Mul α] (n si sj sk : Nat) (A B : Nat → α)
    (st : Run α) : do_block_unroll n si sj sk A B st = blockNest 32 n si sj sk A B st := by
  unfold do_block_unroll blockNest
  simp only [block_unroll_cond]
  have key : ∀ (i j : Nat) (st : Run α),
      (forLoop BLOCKSIZE (fun k => decide (k < sk + BLOCKSIZE)) 1
        (fun k (C : Run α) => C.addMul A B (i + j * n) (i + k * n) (k + j * n))
        (forLoop BLOCKSIZE (fun k => decide (k + 4 ≤ sk + 32)) 4 (fun k (C : Run α) =>
          (((C.addMul A B (i + j * n) (i + k * n) (k + j * n)).addMul A B (i + j * n)
            (i + (k + 1) * n) ((k + 1) + j * n)).addMul A B (i + j * n)
            (i + (k + 2) * n) ((k + 2) + j * n)).addMul A B (i + j * n)
            (i + (k + 3) * n) ((k + 3) + j * n)) sk st).1
        (forLoop BLOCKSIZE (fun k => decide (k + 4 ≤ sk + 32)) 4 (fun k (C : Run α) =>
          (((C.addMul A B (i + j * n) (i + k * n) (k + j * n)).addMul A B (i + j * n)
            (i + (k + 1) * n) ((k + 1) + j * n)).addMul A B (i + j * n)
            (i + (k + 2) * n) ((k + 2) + j * n)).addMul A B (i + j * n)
            (i + (k + 3) * n) ((k + 3) + j * n)) sk st).2).2 =
      (List.range' sk 32).foldl (fun (C : Run α) k =>
        C.addMul A B (i + j * n) (i + k * n) (k + j * n)) st := by
    intro i j st
    have h := unroll_cleanup_from
      (fun k (C : Run α) => C.addMul A B (i + j * n) (i + k * n) (k + j * n))
      4 (sk + 32) (by decide)
      (fun k (C : Run α) =>
        (((C.addMul A B (i + j * n) (i + k * n) (k + j * n)).addMul A B (i + j * n)
          (i + (k + 1) * n) ((k + 1) + j * n)).addMul A B (i + j * n)
          (i + (k + 2) * n) ((k + 2) + j * n)).addMul A B (i + j * n)
          (i + (k + 3) * n) ((k + 3) + j * n))
      (fun i s => by simp [List.range'_succ]) 32 32 sk st
      (by omega) (by omega) (by omega)
    rw [Nat.add_sub_cancel_left] at h
    exact h
  simp only [key, forLoop_block]

end GemmTestBlocking

namespace GemmTestBlocking

open Gemm

theorem dgemm_blocking_unroll_fold {α : Type} [Add α] [Mul α] (A B : Nat → α) (C : Run α)
    (m i j : Nat) (hi : i < 32 * m) (hj : j < 32 * m) :
    (dgemm_blocking_unroll A B C (32 * m)).C (i + j * (32 * m)) =
      dotFrom A B (32 * m) i j (C.C (i + j * (32 * m))) := by
  unfold dgemm_blocking_unroll
  simp only [forLoop_stride _ 32 (by decide), stride_count]
  exact block_nest_C A B m (fun si sj sk C => do_block_unroll (32 * m) si sj sk A B C) i j hi hj
    (fun si sj sk st hsi => by
      dsimp only
      rw [do_block_unroll_eq]
      exact blockNest_C 32 (32 * m) si sj sk A B st i j hi hsi) C

/-- C18. All scalar kernels of `gemm-test-blocking.c` use the same accumulation order per output
element: for every `n` that is a positive multiple of 32, all `A`, `B` and `C` zero on
`[0, n*n)`, each of `dgemm_unopt`, `dgemm_jki`, `dgemm_blocking`, `dgemm_unroll`,
`dgemm_unroll_optimized`, `dgemm_blocking_unroll` and (read sequentially) `dgemm_OMP_unroll`
leaves in `C[i + j*n]` the left fold `((0 + A[i,0]*B[0,j]) + A[i,1]*B[1,j]) + ...` with `k`
increasing.  The addition and the multiplication are arbitrary operations: no associativity or
commutativity is assumed. -/
theorem C18_same_accumulation_order {α : Type} [Zero α] [Add α] [Mul α] (A B : Nat → α)
    (C : Run α) (n : Nat) (hpos : 0 < n) (hmul : 32 ∣ n) (hzero : ∀ q, q < n * n → C.C q = 0) :
    ∀ i j, i < n → j < n →
      (dgemm_unopt A B C n).C (i + j * n) =
        (List.range n).foldl (fun acc k => acc + A (i + k * n) * B (k + j * n)) 0 ∧
      (dgemm_jki A B C n).C (i + j * n) = (dgemm_unopt A B C n).C (i + j * n) ∧
      (dgemm_blocking A B C n).C (i + j * n) = (dgemm_unopt A B C n).C (i + j * n) ∧
      (dgemm_unroll A B C n).C (i + j * n) = (dgemm_unopt A B C n).C (i + j * n) ∧
      (dgemm_unroll_optimized A B C n).C (i + j * n) = (dgemm_unopt A B C n).C (i + j * n) ∧
      (dgemm_blocking_unroll A B C n).C (i + j * n) = (dgemm_unopt A B C n).C (i + j * n) ∧
      (dgemm_OMP_unroll A B C n).C (i + j * n) = (dgemm_unopt A B C n).C (i + j * n) := by
  obtain ⟨m, rfl⟩ := hmul
  intro i j hi hj
  have hz := hzero _ (offset_lt hi hj)
  rw [dgemm_unopt_fold A B C _ i j hi hj, dgemm_jki_fold A B C _ i j hi hj,
    dgemm_blocking_fold A B C m i j hi hj, dgemm_blocking_unroll_fold A B C m i j hi hj, hz,
    dgemm_unroll_eq, dgemm_unroll_optimized_eq, dgemm_OMP_unroll_eq,
    rowsOnce_fold A B C _ i j hi hj, termsOnce_fold A B C _ i j hi hj]
  exact ⟨rfl, rfl, rfl, rfl, rfl, rfl, rfl⟩

/-- Witness for C18 at `n = 32`, cell `(3, 5)`. -/
theorem C18_same_accumulation_order_witness :
    (0 < 32 ∧ 32 ∣ 32 ∧ (∀ q, q < 32 * 32 → zeros.C q = 0) ∧ 3 < 32 ∧ 5 < 32) ∧
    ((dgemm_unopt ones ones zeros 32).C (3 + 5 * 32) =
        (List.range 32).foldl (fun acc k => acc + ones (3 + k * 32) * ones (k + 5 * 32)) 0 ∧
      (dgemm_jki ones ones zeros 32).C (3 + 5 * 32) =
        (dgemm_unopt ones ones zeros 32).C (3 + 5 * 32) ∧
      (dgemm_blocking ones ones zeros 32).C (3 + 5 * 32) =
        (dgemm_unopt ones ones zeros 32).C (3 + 5 * 32) ∧
      (dgemm_unroll ones ones zeros 32).C (3 + 5 * 32) =
        (dgemm_unopt ones ones zeros 32).C (3 + 5 * 32) ∧
      (dgemm_unroll_optimized ones ones zeros 32).C (3 + 5 * 32) =
        (dgemm_unopt ones ones zeros 32).C (3 + 5 * 32) ∧
      (dgemm_blocking_unroll ones ones zeros 32).C (3 + 5 * 32) =
        (dgemm_unopt ones ones zeros 32).C (3 + 5 * 32) ∧
      (dgemm_OMP_unroll ones ones zeros 32).C (3 + 5 * 32) =
        (dgemm_unopt ones ones zeros 32).C (3 + 5 * 32)) :=
  ⟨⟨by decide, ⟨1, rfl⟩, fun _ _ => rfl, by decide, by decide⟩,
    C18_same_accumulation_order ones ones zeros 32 (by decide) ⟨1, rfl⟩ (fun _ _ => rfl) 3 5
      (by decide) (by decide)⟩

/-- C19. For every `n` (also `n` below 4 or not a multiple of 4), all `A`, `B` and every initial
`C`, the k-unrolled kernel `dgemm_OMP_unroll`, read sequentially, leaves the same output array as
`dgemm_unopt`: it is, access for access, the nest that adds each term `A[i + k*n] * B[k + j*n]`,
`k` in `[0, n)`, exactly once (`termsOnce`), and no access it makes lies outside `[0, n*n)`. -/
theorem C19_OMP_unroll_eq_unopt {α : Type} [Semiring α] (A B : Nat → α) (C : Run α) (n : Nat) :
    (dgemm_OMP_unroll A B C n).C = (dgemm_unopt A B C n).C ∧
    dgemm_OMP_unroll A B C n = termsOnce A B C n ∧
    (∀ a, a ∈ (dgemm_OMP_unroll A B C n).log → a ∈ C.log ∨ a.off < n * n) := by
  refine ⟨?_, dgemm_OMP_unroll_eq A B C n, fun a ha => ?_⟩
  · rw [dgemm_OMP_unroll_eq]
    refine ext_of_cells n _ _ (fun i j hi hj => ?_) (fun q hq => ?_)
    · rw [termsOnce_fold A B C n i j hi hj, dgemm_unopt_fold A B C n i j hi hj]
    · rw [termsOnce_frame A B C n q hq, dgemm_unopt_frame A B C n q hq]
  · rw [dgemm_OMP_unroll_eq] at ha
    exact termsOnce_bounds A B C n a ha

end GemmTestBlocking

/-! ## The values of the initialisation -/

namespace GemmTestBlocking

open Gemm

/-- C20. For every `N > 0`, writing `draw R t` for the `t`-th value (`t = 0, 1, ...`) returned by
`rand` after `srand(1)`, `int_mat` (the same in both files) sets for all `i, j < N`:
`A[i + j*N] = draw (2*(i*N + j)) / (10000 + i + j)`,
`B[i + j*N] = draw (2*(i*N + j) + 1) / (10000 + i + j)` and `C[i + j*N] = 0`; in particular
`A[0] = draw 0 / 10000` and `B[0] = draw 1 / 10000`; and the value at a position `(i, j)` depends
on `N` through the draw index: with the sample generator, position `(1, 0)` of `A` receives draw
4 for `N = 2` and draw 6 for `N = 3`, which differ. -/
theorem C20_int_mat_values {α G : Type} [Zero α] [NatCast α] [Div α] (R : Rng G)
    (A B C : Nat → α) (g : G) (N : Nat) (hN : 0 < N) :
    (∀ i j, i < N → j < N →
      (int_mat R A B C g N).A (i + j * N) =
        ((draw R (2 * (i * N + j)) : Nat) : α) / ((10000 + i + j : Nat) : α) ∧
      (int_mat R A B C g N).B (i + j * N) =
        ((draw R (2 * (i * N + j) + 1) : Nat) : α) / ((10000 + i + j : Nat) : α) ∧
      (int_mat R A B C g N).C (i + j * N) = 0) ∧
    ((int_mat R A B C g N).A 0 = ((draw R 0 : Nat) : α) / ((10000 : Nat) : α) ∧
      (int_mat R A B C g N).B 0 = ((draw R 1 : Nat) : α) / ((10000 : Nat) : α)) ∧
    GemmTest.int_mat R A B C g N = int_mat R A B C g N ∧
    ((int_mat exRng (exQ 1) (exQ 2) (exQ 3) 0 2).A (1 + 0 * 2) =
        ((draw exRng 4 : Nat) : Rat) / ((10001 : Nat) : Rat) ∧
      (int_mat exRng (exQ 1) (exQ 2) (exQ 3) 0 3).A (1 + 0 * 3) =
        ((draw exRng 6 : Nat) : Rat) / ((10001 : Nat) : Rat) ∧
      (int_mat exRng (exQ 1) (exQ 2) (exQ 3) 0 2).A (1 + 0 * 2) ≠
        (int_mat exRng (exQ 1) (exQ 2) (exQ 3) 0 3).A (1 + 0 * 3)) := by
  have hcell : ∀ {β H : Type} [Zero β] [NatCast β] [Div β] (R : Rng H) (A B C : Nat → β) (g : H)
      (N i j : Nat), i < N → j < N →
      (int_mat R A B C g N).A (i + j * N) = cellA R N i j ∧
      (int_mat R A B C g N).B (i + j * N) = cellB R N i j ∧
      (int_mat R A B C g N).C (i + j * N) = 0 := by
    intro β H _ _ _ R A B C g N i j hi hj
    obtain ⟨_, a2, a3, a4⟩ := int_mat_spec R A B C g N
    have hq := offset_lt hi hj
    have e := split_offset (j := j) hi
    refine ⟨?_, ?_, (a4 _).1 hq⟩
    · rw [(a2 _).1 hq]
      show cellA R N ((i + j * N) % N) ((i + j * N) / N) = _
      rw [e.1, e.2]
    · rw [(a3 _).1 hq]
      show cellB R N ((i + j * N) % N) ((i + j * N) / N) = _
      rw [e.1, e.2]
  refine ⟨fun i j hi hj => hcell R A B C g N i j hi hj, ?_, rfl, ?_⟩
  · have h := hcell R A B C g N 0 0 hN hN
    simp only [cellA, cellB, Nat.zero_mul, Nat.add_zero, Nat.mul_zero, Nat.zero_add] at h
    exact ⟨h.1, h.2.1⟩
  · have h2 := (hcell exRng (exQ 1) (exQ 2) (exQ 3) 0 2 1 0 (by decide) (by decide)).1
    have h3 := (hcell exRng (exQ 1) (exQ 2) (exQ 3) 0 3 1 0 (by decide) (by decide)).1
    refine ⟨h2, h3, ?_⟩
    rw [h2, h3]
    have d4 : draw exRng 4 = 2035015474 := by decide
    have d6 : draw exRng 6 = 1508029952 := by decide
    simp only [cellA, d4, d6]
    norm_num

end GemmTestBlocking

namespace GemmTestBlocking

open Gemm

/-- Witness for C20 at `N = 2` with the sample generator. -/
theorem C20_int_mat_values_witness :
    (0 < 2) ∧
    ((∀ i j, i < 2 → j < 2 →
      (int_mat exRng (exQ 1) (exQ 2) (exQ 3) 5 2).A (i + j * 2) =
        ((draw exRng (2 * (i * 2 + j)) : Nat) : Rat) / ((10000 + i + j : Nat) : Rat) ∧
      (int_mat exRng (exQ 1) (exQ 2) (exQ 3) 5 2).B (i + j * 2) =
        ((draw exRng (2 * (i * 2 + j) + 1) : Nat) : Rat) / ((10000 + i + j : Nat) : Rat) ∧
      (int_mat exRng (exQ 1) (exQ 2) (exQ 3) 5 2).C (i + j * 2) = 0) ∧
    ((int_mat exRng (exQ 1) (exQ 2) (exQ 3) 5 2).A 0 =
        ((draw exRng 0 : Nat) : Rat) / ((10000 : Nat) : Rat) ∧
      (int_mat exRng (exQ 1) (exQ 2) (exQ 3) 5 2).B 0 =
        ((draw exRng 1 : Nat) : Rat) / ((10000 : Nat) : Rat)) ∧
    GemmTest.int_mat exRng (exQ 1) (exQ 2) (exQ 3) 5 2 =
      int_mat exRng (exQ 1) (exQ 2) (exQ 3) 5 2 ∧
    ((int_mat exRng (exQ 1) (exQ 2) (exQ 3) 0 2).A (1 + 0 * 2) =
        ((draw exRng 4 : Nat) : Rat) / ((10001 : Nat) : Rat) ∧
      (int_mat exRng (exQ 1) (exQ 2) (exQ 3) 0 3).A (1 + 0 * 3) =
        ((draw exRng 6 : Nat) : Rat) / ((10001 : Nat) : Rat) ∧
      (int_mat exRng (exQ 1) (exQ 2) (exQ 3) 0 2).A (1 + 0 * 2) ≠
        (int_mat exRng (exQ 1) (exQ 2) (exQ 3) 0 3).A (1 + 0 * 3))) :=
  ⟨by decide, C20_int_mat_values exRng (exQ 1) (exQ 2) (exQ 3) 5 2 (by decide)⟩

end GemmTestBlocking

/-! ## Independence of the outer iterations of the thread-parallel kernel -/

namespace GemmTestBlocking

open Gemm

/-- The kernel is its outer iterations executed in the order `0, 1, ..., n-1`. -/
theorem dgemm_OMP_sequential {α : Type} [Zero α] [Add α] [Mul α] (A B : Nat → α) (C : Run α)
    (n : Nat) : dgemm_OMP A B C n = dgemm_OMP_in_order A B C n (List.range n) := by
  unfold dgemm_OMP dgemm_OMP_in_order dgemm_OMP_iteration
  simp only [forLoop_range]

theorem dgemm_OMP_iteration_eq {α : Type} [Add α] [Mul α] (A B : Nat → α) (n i : Nat)
    (st : Run α) :
    dgemm_OMP_iteration A B n i st =
      (List.range n).foldl (fun C j => (List.range n).foldl (fun (C : Run α) k =>
        C.addMul A B (i + j * n) (i + k * n) (k + j * n)) C) st := by
  unfold dgemm_OMP_iteration
  simp only [forLoop_range]

/-- Iteration `i` acts on the cells of row `i` by the reduction over `k`, and on nothing else. -/
theorem dgemm_OMP_iteration_C {α : Type} [Add α] [Mul α] (A B : Nat → α) (n i i0 j0 : Nat)
    (hi : i < n) (hi0 : i0 < n) (hj0 : j0 < n) (st : Run α) :
    (dgemm_OMP_iteration A B n i st).C (i0 + j0 * n) =
      if i = i0 then dotFrom A B n i0 j0 (st.C (i0 + j0 * n)) else st.C (i0 + j0 * n) := by
  rw [dgemm_OMP_iteration_eq]
  by_cases h : i = i0
  · subst h
    rw [if_pos rfl]
    refine foldl_pick (fun s : Run α => s.C (i + j0 * n)) _ (dotFrom A B n i j0) j0 _
      (List.nodup_range n) (List.mem_range.mpr hj0) (fun s => ?_) (fun y hy hne s => ?_) st
    · dsimp only
      rw [acc_loop_C, if_pos rfl]
      rfl
    · dsimp only
      rw [acc_loop_C, if_neg (fun h => hne (offset_inj hi hi h).2.symm)]
  · rw [if_neg h]
    refine foldl_keep (fun s : Run α => s.C (i0 + j0 * n)) _ _ (fun y hy s => ?_) st
    dsimp only
    rw [acc_loop_C, if_neg (fun h2 => h (offset_inj hi0 hi h2).1.symm)]

theorem dgemm_OMP_iteration_frame {α : Type} [Add α] [Mul α] (A B : Nat → α) (n i q : Nat)
    (hq : ∀ j, j < n → q ≠ i + j * n) (st : Run α) :
    (dgemm_OMP_iteration A B n i st).C q = st.C q := by
  rw [dgemm_OMP_iteration_eq]
  refine foldl_keep (fun s : Run α => s.C q) _ _ (fun y hy s => ?_) st
  dsimp only
  rw [acc_loop_C, if_neg (hq y (List.mem_range.mp hy))]

/-- The accesses of iteration `i`. -/
theorem dgemm_OMP_iteration_log {α : Type} [Add α] [Mul α] (A B : Nat → α) (n i : Nat)
    (st : Run α) :
    (dgemm_OMP_iteration A B n i st).log =
      st.log ++ (List.range n).flatMap (fun j => (List.range n).flatMap (fun k =>
        [Access.rd Arr.C (i + j * n), Access.rd Arr.A (i + k * n), Access.rd Arr.B (k + j * n),
          Access.wr Arr.C (i + j * n)])) := by
  rw [dgemm_OMP_iteration_eq]
  refine foldl_log (fun s : Run α => s.log) _ _ _ (fun j _ s => ?_) st
  exact foldl_log (fun s : Run α => s.log) _ _ _ (fun k _ s => by simp) s

end GemmTestBlocking

namespace GemmTest

open Gemm

theorem gt_dgemm_OMP_sequential {α : Type} [Add α] [Mul α] (A B : Nat → α) (C : Run α)
    (n : Nat) : dgemm_OMP A B C n = dgemm_OMP_in_order A B C n (List.range n) := by
  unfold dgemm_OMP dgemm_OMP_in_order dgemm_OMP_iteration
  simp only [forLoop_range]

/-- The step of iteration `i` for column `j`: load the cell into `cij`, reduce over `k`, store. -/
theorem gt_cell_step_C {α : Type} [Add α] [Mul α] (A B : Nat → α) (n i j : Nat) (st : Run α)
    (q : Nat) :
    (({ C := write st.C (i + j * n)
          ((List.range n).foldl (fun (cij : SRun α) k =>
            ({ cij := cij.cij + A (i + k * n) * B (k + j * n),
               log := cij.log ++ [Access.rd Arr.A (i + k * n), Access.rd Arr.B (k + j * n)] } :
              SRun α))
            (⟨st.C (i + j * n), st.log ++ [Access.rd Arr.C (i + j * n)]⟩ : SRun α)).cij,
        log := ((List.range n).foldl (fun (cij : SRun α) k =>
            ({ cij := cij.cij + A (i + k * n) * B (k + j * n),
               log := cij.log ++ [Access.rd Arr.A (i + k * n), Access.rd Arr.B (k + j * n)] } :
              SRun α))
            (⟨st.C (i + j * n), st.log ++ [Access.rd Arr.C (i + j * n)]⟩ : SRun α)).log ++
              [Access.wr Arr.C (i + j * n)] } : Run α)).C q =
      if q = i + j * n then dotFrom A B n i j (st.C q) else st.C q := by
  by_cases hq : q = i + j * n
  · subst hq
    simp only [write, if_true, cij_loop]
    rfl
  · simp only [write, if_neg hq]

theorem gt_dgemm_OMP_iteration_eq {α : Type} [Add α] [Mul α] (A B : Nat → α) (n i : Nat)
    (st : Run α) :
    dgemm_OMP_iteration A B n i st =
      (List.range n).foldl (fun (C : Run α) j =>
        ({ C := write C.C (i + j * n)
            ((List.range n).foldl (fun (cij : SRun α) k =>
              ({ cij := cij.cij + A (i + k * n) * B (k + j * n),
                 log := cij.log ++ [Access.rd Arr.A (i + k * n), Access.rd Arr.B (k + j * n)] } :
                SRun α))
              (⟨C.C (i + j * n), C.log ++ [Access.rd Arr.C (i + j * n)]⟩ : SRun α)).cij,
           log := ((List.range n).foldl (fun (cij : SRun α) k =>
              ({ cij := cij.cij + A (i + k * n) * B (k + j * n),
                 log := cij.log ++ [Access.rd Arr.A (i + k * n), Access.rd Arr.B (k + j * n)] } :
                SRun α))
              (⟨C.C (i + j * n), C.log ++ [Access.rd Arr.C (i + j * n)]⟩ : SRun α)).log ++
                [Access.wr Arr.C (i + j * n)] } : Run α)) st := by
  unfold dgemm_OMP_iteration
  simp only [forLoop_range]

theorem gt_dgemm_OMP_iteration_C {α : Type} [Add α] [Mul α] (A B : Nat → α) (n i i0 j0 : Nat)
    (hi : i < n) (hi0 : i0 < n) (hj0 : j0 < n) (st : Run α) :
    (dgemm_OMP_iteration A B n i st).C (i0 + j0 * n) =
      if i = i0 then dotFrom A B n i0 j0 (st.C (i0 + j0 * n)) else st.C (i0 + j0 * n) := by
  rw [gt_dgemm_OMP_iteration_eq]
  by_cases h : i = i0
  · subst h
    rw [if_pos rfl]
    refine foldl_pick (fun s : Run α => s.C (i + j0 * n)) _ (dotFrom A B n i j0) j0 _
      (List.nodup_range n) (List.mem_range.mpr hj0) (fun s => ?_) (fun y hy hne s => ?_) st
    · exact (gt_cell_step_C A B n i j0 s (i + j0 * n)).trans (if_pos rfl)
    · exact (gt_cell_step_C A B n i y s (i + j0 * n)).trans
        (if_neg (fun h => hne (offset_inj hi hi h).2.symm))
  · rw [if_neg h]
    refine foldl_keep (fun s : Run α => s.C (i0 + j0 * n)) _ _ (fun y hy s => ?_) st
    exact (gt_cell_step_C A B n i y s (i0 + j0 * n)).trans
      (if_neg (fun h2 => h (offset_inj hi0 hi h2).1.symm))

theorem gt_dgemm_OMP_iteration_frame {α : Type} [Add α] [Mul α] (A B : Nat → α) (n i q : Nat)
    (hq : ∀ j, j < n → q ≠ i + j * n) (st : Run α) :
    (dgemm_OMP_iteration A B n i st).C q = st.C q := by
  rw [gt_dgemm_OMP_iteration_eq]
  refine foldl_keep (fun s : Run α => s.C q) _ _ (fun y hy s => ?_) st
  exact (gt_cell_step_C A B n i y s q).trans (if_neg (hq y (List.mem_range.mp hy)))

/-- The accesses of iteration `i` of `dgemm_OMP` of `gemm-test.c`. -/
theorem gt_dgemm_OMP_iteration_log {α : Type} [Add α] [Mul α] (A B : Nat → α) (n i : Nat)
    (st : Run α) :
    (dgemm_OMP_iteration A B n i st).log =
      st.log ++ (List.range n).flatMap (fun j =>
        ([Access.rd Arr.C (i + j * n)] ++ (List.range n).flatMap (fun k =>
          [Access.rd Arr.A (i + k * n), Access.rd Arr.B (k + j * n)])) ++
            [Access.wr Arr.C (i + j * n)]) := by
  rw [gt_dgemm_OMP_iteration_eq]
  refine foldl_log (fun s : Run α => s.log) _ _ _ (fun j _ s => ?_) st
  dsimp only
  rw [foldl_log (fun c : SRun α => c.log) _
    (fun k => [Access.rd Arr.A (i + k * n), Access.rd Arr.B (k + j * n)]) _
    (fun k _ c => rfl)]
  simp

end GemmTest

namespace Gemm

/-- Iterations that each act on their own row only give the same array in every order. -/
theorem rows_any_order {α : Type} (n : Nat) (iter : Nat → Run α → Run α)
    (G : Nat → Nat → α → α)
    (hcell : ∀ i i0 j0 st, i < n → i0 < n → j0 < n →
      (iter i st).C (i0 + j0 * n) =
        if i = i0 then G i0 j0 (st.C (i0 + j0 * n)) else st.C (i0 + j0 * n))
    (hframe : ∀ i q st, (∀ j, j < n → q ≠ i + j * n) → (iter i st).C q = st.C q)
    (order : List Nat) (hperm : order.Perm (List.range n)) (st : Run α) :
    (∀ i0 j0, i0 < n → j0 < n →
      (order.foldl (fun C i => iter i C) st).C (i0 + j0 * n) = G i0 j0 (st.C (i0 + j0 * n))) ∧
    (∀ q, n * n ≤ q → (order.foldl (fun C i => iter i C) st).C q = st.C q) := by
  have hnd : order.Nodup := hperm.nodup_iff.mpr (List.nodup_range n)
  have hmem : ∀ i, i ∈ order ↔ i < n := fun i => by rw [hperm.mem_iff, List.mem_range]
  refine ⟨fun i0 j0 hi0 hj0 => ?_, fun q hq => ?_⟩
  · refine foldl_pick (fun s : Run α => s.C (i0 + j0 * n)) _ (G i0 j0) i0 _ hnd
      ((hmem i0).mpr hi0) (fun s => ?_) (fun x hx hne s => ?_) st
    · dsimp only
      rw [hcell i0 i0 j0 s hi0 hi0 hj0, if_pos rfl]
    · dsimp only
      rw [hcell x i0 j0 s ((hmem x).mp hx) hi0 hj0, if_neg hne]
  · refine foldl_keep (fun s : Run α => s.C q) _ _ (fun x hx s => ?_) st
    exact hframe x q s (fun j hj h => by
      have := offset_lt ((hmem x).mp hx) hj
      omega)

end Gemm

namespace Gemm

/-- C21. In `dgemm_OMP` (either file) the iterations of the outer `i` loop are independent: for
every `n > 0`, iteration `i` writes exactly the offsets `i + j*n`, `j < n`, of `C` (row `i`),
these rows are pairwise disjoint for distinct `i` in `[0, n)`, and the iteration reads only `A`,
`B` and its own row of `C`; the kernel is its iterations executed in the order `0, ..., n-1`, and
executing them in any permutation of `[0, n)` yields the same final `C`. -/
theorem C21_outer_iterations_independent {α : Type} [Zero α] [Add α] [Mul α] (A B : Nat → α)
    (C : Run α) (n : Nat) (hn : 0 < n) (order : List Nat) (hperm : order.Perm (List.range n)) :
    (GemmTestBlocking.dgemm_OMP A B C n =
        GemmTestBlocking.dgemm_OMP_in_order A B C n (List.range n) ∧
      (GemmTestBlocking.dgemm_OMP_in_order A B C n order).C =
        (GemmTestBlocking.dgemm_OMP A B C n).C) ∧
    (GemmTest.dgemm_OMP A B C n = GemmTest.dgemm_OMP_in_order A B C n (List.range n) ∧
      (GemmTest.dgemm_OMP_in_order A B C n order).C = (GemmTest.dgemm_OMP A B C n).C) ∧
    (∀ i, i < n → ∀ (st : Run α) (a : Access),
      (a ∈ (GemmTestBlocking.dgemm_OMP_iteration A B n i st).log → a ∈ st.log ∨ RowAccess n i a) ∧
      (a ∈ (GemmTest.dgemm_OMP_iteration A B n i st).log → a ∈ st.log ∨ RowAccess n i a)) ∧
    (∀ i j, i < n → j < n → ∀ (st : Run α),
      Access.wr Arr.C (i + j * n) ∈ (GemmTestBlocking.dgemm_OMP_iteration A B n i st).log ∧
      Access.wr Arr.C (i + j * n) ∈ (GemmTest.dgemm_OMP_iteration A B n i st).log) ∧
    (∀ i1 i2 j1 j2, i1 < n → i2 < n → i1 ≠ i2 → i1 + j1 * n ≠ i2 + j2 * n) := by
  refine ⟨⟨GemmTestBlocking.dgemm_OMP_sequential A B C n, ?_⟩,
    ⟨GemmTest.gt_dgemm_OMP_sequential A B C n, ?_⟩, fun i hi st a => ⟨fun ha => ?_, fun ha => ?_⟩,
    fun i j hi hj st => ⟨?_, ?_⟩, fun i1 i2 j1 j2 h1 h2 hne h => hne (offset_inj h1 h2 h).1⟩
  · rw [GemmTestBlocking.dgemm_OMP_sequential]
    unfold GemmTestBlocking.dgemm_OMP_in_order
    have key := fun (ord : List Nat) (hp : ord.Perm (List.range n)) =>
      rows_any_order n (fun i C => GemmTestBlocking.dgemm_OMP_iteration A B n i C)
        (fun i0 j0 a => dotFrom A B n i0 j0 a)
        (fun i i0 j0 st hi hi0 hj0 => GemmTestBlocking.dgemm_OMP_iteration_C A B n i i0 j0 hi hi0 hj0 st)
        (fun i q st hq => GemmTestBlocking.dgemm_OMP_iteration_frame A B n i q hq st) ord hp
        (forLoop (n * n) (fun i => decide (i < n * n)) 1 (fun i (C : Run α) => C.assign i 0) 0 C).2
    refine GemmTestBlocking.ext_of_cells n _ _ (fun i j hi hj => ?_) (fun q hq => ?_)
    · rw [(key order hperm).1 i j hi hj, (key _ (List.Perm.refl _)).1 i j hi hj]
    · rw [(key order hperm).2 q hq, (key _ (List.Perm.refl _)).2 q hq]
  · rw [GemmTest.gt_dgemm_OMP_sequential]
    unfold GemmTest.dgemm_OMP_in_order
    have key := fun (ord : List Nat) (hp : ord.Perm (List.range n)) =>
      rows_any_order n (fun i C => GemmTest.dgemm_OMP_iteration A B n i C)
        (fun i0 j0 a => dotFrom A B n i0 j0 a)
        (fun i i0 j0 st hi hi0 hj0 => GemmTest.gt_dgemm_OMP_iteration_C A B n i i0 j0 hi hi0 hj0 st)
        (fun i q st hq => GemmTest.gt_dgemm_OMP_iteration_frame A B n i q hq st) ord hp C
    refine GemmTestBlocking.ext_of_cells n _ _ (fun i j hi hj => ?_) (fun q hq => ?_)
    · rw [(key order hperm).1 i j hi hj, (key _ (List.Perm.refl _)).1 i j hi hj]
    · rw [(key order hperm).2 q hq, (key _ (List.Perm.refl _)).2 q hq]
  · rw [GemmTestBlocking.dgemm_OMP_iteration_log] at ha
    simp only [List.mem_append, List.mem_flatMap, List.mem_range, List.mem_cons,
      List.mem_singleton, List.not_mem_nil, or_false] at ha
    rcases ha with h | ⟨j, hj, k, hk, rfl | rfl | rfl | rfl⟩
    · exact Or.inl h
    · exact Or.inr (Or.inr (Or.inr ⟨rfl, j, hj, rfl⟩))
    · exact Or.inr (Or.inl rfl)
    · exact Or.inr (Or.inr (Or.inl rfl))
    · exact Or.inr ⟨rfl, j, hj, rfl⟩
  · rw [GemmTest.gt_dgemm_OMP_iteration_log] at ha
    simp only [List.mem_append, List.mem_flatMap, List.mem_range, List.mem_cons,
      List.mem_singleton, List.not_mem_nil, or_false] at ha
    rcases ha with h | ⟨j, hj, (rfl | ⟨k, hk, rfl | rfl⟩) | rfl⟩
    · exact Or.inl h
    · exact Or.inr (Or.inr (Or.inr ⟨rfl, j, hj, rfl⟩))
    · exact Or.inr (Or.inl rfl)
    · exact Or.inr (Or.inr (Or.inl rfl))
    · exact Or.inr ⟨rfl, j, hj, rfl⟩
  · rw [GemmTestBlocking.dgemm_OMP_iteration_log]
    simp only [List.mem_append, List.mem_flatMap, List.mem_range, List.mem_cons,
      List.mem_singleton, List.not_mem_nil, or_false]
    exact Or.inr ⟨j, hj, 0, hn, Or.inr (Or.inr (Or.inr rfl))⟩
  · rw [GemmTest.gt_dgemm_OMP_iteration_log]
    simp only [List.mem_append, List.mem_flatMap, List.mem_range, List.mem_cons,
      List.mem_singleton, List.not_mem_nil, or_false]
    exact Or.inr ⟨j, hj, Or.inr rfl⟩

/-- Witness for C21: `n = 2` with the outer iterations executed in the order `1, 0`. -/
theorem C21_outer_iterations_independent_witness :
    (0 < 2 ∧ List.Perm [1, 0] (List.range 2)) ∧
    ((GemmTestBlocking.dgemm_OMP ones ones fives 2 =
        GemmTestBlocking.dgemm_OMP_in_order ones ones fives 2 (List.range 2) ∧
      (GemmTestBlocking.dgemm_OMP_in_order ones ones fives 2 [1, 0]).C =
        (GemmTestBlocking.dgemm_OMP ones ones fives 2).C) ∧
    (GemmTest.dgemm_OMP ones ones fives 2 =
        GemmTest.dgemm_OMP_in_order ones ones fives 2 (List.range 2) ∧
      (GemmTest.dgemm_OMP_in_order ones ones fives 2 [1, 0]).C =
        (GemmTest.dgemm_OMP ones ones fives 2).C) ∧
    (∀ i, i < 2 → ∀ (st : Run Int) (a : Access),
      (a ∈ (GemmTestBlocking.dgemm_OMP_iteration ones ones 2 i st).log →
        a ∈ st.log ∨ RowAccess 2 i a) ∧
      (a ∈ (GemmTest.dgemm_OMP_iteration ones ones 2 i st).log → a ∈ st.log ∨ RowAccess 2 i a)) ∧
    (∀ i j, i < 2 → j < 2 → ∀ (st : Run Int),
      Access.wr Arr.C (i + j * 2) ∈ (GemmTestBlocking.dgemm_OMP_iteration ones ones 2 i st).log ∧
      Access.wr Arr.C (i + j * 2) ∈ (GemmTest.dgemm_OMP_iteration ones ones 2 i st).log) ∧
    (∀ i1 i2 j1 j2, i1 < 2 → i2 < 2 → i1 ≠ i2 → i1 + j1 * 2 ≠ i2 + j2 * 2)) :=
  ⟨⟨by decide, List.Perm.swap 0 1 []⟩,
    C21_outer_iterations_independent ones ones fives 2 (by decide) [1, 0]
      (List.Perm.swap 0 1 [])⟩

end Gemm
